import Mathlib

/-!
# Text analyzer: the word index (hash_table.c, stat.c)

A shallow embedding of the key-counting index of the text analysis program:
the separate-chaining hash table of `hash_table.c` and its client `stat.c`.

Memory model.  Every `word_t` object lives in a heap, a list of records; a
pointer to a `word_t` (equally to the `hash_handle_t` embedded in it, the
offset arithmetic of `hash_elmt_from_hh` being the identity on indices) is an
index into that list and `NULL` is `none`.  `malloc` appends a record.  A
dereference of `NULL`, of an index outside the heap, or an array access outside
its bounds makes the operation fail (`none`).  The program owns one
`hash_table_t`; the `table` field of every handle points to it, so it is kept
once in the state.  Loops over linked structures take a fuel argument.

Integers.  `unsigned` is 32 bits and `unsigned long` 64 bits (LP64), `char` is
signed.  The hash, the occurrence counter, key lengths and the length
histogram wrap explicitly.  Counters that count live heap objects or bucket
slots (`num`, run sizes of the sort) cannot reach 2^64 while every object
occupies memory, and are plain naturals.
-/

namespace Csstat

/-! ## Constants (hash_table.h) -/

/-- Maximum number of buckets a table can have. -/
def BUCKET_NUM_MAX : Nat := 2097152

/-- Maximum number of items in one bucket before expand. -/
def BUCKET_NUM_TRESH : Nat := 10

/-- Maximum size for a table item's key. -/
def KEY_MAX_LEN : Nat := 512

/-- Modulus of `unsigned`. -/
def UINT_MOD : Nat := 4294967296

/-- Modulus of `unsigned long`. -/
def ULONG_MOD : Nat := 18446744073709551616

/-! ## Data model (hash_table.h) -/

/-- One `char`. -/
abbrev Byte := Fin 256

/-- The bytes of a character buffer; the terminating NUL follows the last
element, and a zero byte inside the list terminates the string earlier. -/
abbrev CString := List Byte

/-- Record `struct hash_bucket`. -/
structure hash_bucket where
  head : Option Nat
  num : Nat
  noexpand : Nat
deriving DecidableEq, Repr

/-- Record `struct hash_handle` (the `table` field is kept in the state). -/
structure hash_handle where
  next : Option Nat
  next_w : Option Nat
  hash : Nat
  keylen : Nat
deriving DecidableEq, Repr

/-- Record `struct hash_table` (without the layout field `hhoffset`). -/
structure hash_table where
  buckets : List hash_bucket
  tail : Option Nat
  count : Nat
  num : Nat
deriving DecidableEq, Repr

/-- Record `struct word`. -/
structure word where
  key : CString
  count : Nat
  hh : hash_handle
deriving DecidableEq, Repr

/-- The heap of `word_t` objects. -/
abbrev Heap := List word

/-- Program state: the heap, the table object, and the globals of
`hash_table.c` and `stat.c`. -/
structure State where
  heap : Heap
  table : Option hash_table
  word_table : Option Nat
  BUCKET_INIT_COUNT : Nat
  FLAG_EXPAND : Nat
  w_length_max : Nat
  w_lengths_size : Nat
  w_lengths : Option (List Nat)
deriving DecidableEq, Repr

/-- The state at program start, with the initial bucket count left open. -/
def init_state (bucket_init_count : Nat) : State :=
  { heap := [], table := none, word_table := none,
    BUCKET_INIT_COUNT := bucket_init_count, FLAG_EXPAND := 1,
    w_length_max := 0, w_lengths_size := 15, w_lengths := none }

/-- The state at program start as the source initialises it. -/
def initial : State := init_state 32

/-! ## Heap access -/

/-- Update the object at `p`; fails when `p` is not an allocated object. -/
def Heap.modify (h : Heap) (p : Nat) (f : word → word) : Option Heap :=
  match h[p]? with
  | none => none
  | some w => some (h.set p (f w))

/-- Field update `hh.next := n`. -/
def word.set_next (w : word) (n : Option Nat) : word :=
  { w with hh := { w.hh with next := n } }

/-- Field update `hh.next_w := n`. -/
def word.set_next_w (w : word) (n : Option Nat) : word :=
  { w with hh := { w.hh with next_w := n } }

/-! ## C string functions -/

/-- Function `strlen`: the number of bytes before the first NUL. -/
def strlen : CString → Nat
  | [] => 0
  | c :: cs => if c = 0 then 0 else strlen cs + 1

/-- Function `strcpy`, as the content of the destination buffer. -/
def strcpy : CString → CString
  | [] => []
  | c :: cs => if c = 0 then [] else c :: strcpy cs

/-- Function `strncmp(a, b, n) == 0`. -/
def strncmp_eq : CString → CString → Nat → Bool
  | _, _, 0 => true
  | a, b, n + 1 =>
    if a.headD 0 ≠ b.headD 0 then false
    else if a.headD 0 = 0 then true
    else strncmp_eq a.tail b.tail n

/-! ## hash_table.c -/

/-- Conversion of a (signed) `char` to `unsigned long`. -/
def char_to_ulong (c : Byte) : Nat :=
  if c.val < 128 then c.val else ULONG_MOD - 256 + c.val

/-- One round of the loop of `hash_jen`. -/
def hash_jen_round (hash : Nat) (c : Byte) : Nat :=
  let hash := (hash + char_to_ulong c) % ULONG_MOD
  let hash := (hash + (hash <<< 10) % ULONG_MOD) % ULONG_MOD
  hash ^^^ (hash >>> 6)

/-- Function `hash_jen`: Jenkins one-at-a-time over `key[0..len)`. -/
def hash_jen (key : CString) (len : Nat) : Nat :=
  let hash := (List.range len).foldl (fun hash i => hash_jen_round hash (key.getD i 0)) 0
  let hash := (hash + (hash <<< 3) % ULONG_MOD) % ULONG_MOD
  let hash := hash ^^^ (hash >>> 11)
  (hash + (hash <<< 15) % ULONG_MOD) % ULONG_MOD

/-- Function `hash_get_index`: `hash & (table_size - 1)`. -/
def hash_get_index (hash : Nat) (table_size : Nat) : Nat :=
  hash &&& ((table_size + ULONG_MOD - 1) % ULONG_MOD)

/-- A zeroed bucket. -/
def empty_bucket : hash_bucket := { head := none, num := 0, noexpand := 0 }

/-- Function `hash_create_table`. -/
def hash_create_table (s : State) (head : Nat) : State :=
  let table : hash_table :=
    { count := s.BUCKET_INIT_COUNT, num := 0, tail := some head,
      buckets := List.replicate s.BUCKET_INIT_COUNT empty_bucket }
  { s with table := some table }

/-- The `while(chh)` loop of `hash_expand_buckets` for one old bucket. -/
def rehash_chain (count : Nat) :
    Nat → Heap → List hash_bucket → Option Nat → Option (Heap × List hash_bucket)
  | 0, _, _, _ => none
  | _ + 1, h, nb, none => some (h, nb)
  | fuel + 1, h, nb, some chh =>
    match h[chh]? with
    | none => none
    | some w =>
      let nhh := w.hh.next
      let idx := hash_get_index w.hh.hash ((count * 2) % ULONG_MOD)
      match nb[idx]? with
      | none => none
      | some b =>
        let num := b.num + 1
        let noexpand := if num ≥ BUCKET_NUM_TRESH then 1 else b.noexpand
        rehash_chain count fuel (h.set chh (w.set_next b.head))
          (nb.set idx { head := some chh, num := num, noexpand := noexpand }) nhh

/-- The `for(bkt_i ...)` loop of `hash_expand_buckets`, from bucket `bkt_i`
for `n` more buckets. -/
def rehash_buckets (old : List hash_bucket) (count : Nat) :
    Nat → Nat → Heap → List hash_bucket → Option (Heap × List hash_bucket)
  | 0, _, h, nb => some (h, nb)
  | n + 1, bkt_i, h, nb =>
    match old[bkt_i]? with
    | none => none
    | some b =>
      match rehash_chain count (h.length + 1) h nb b.head with
      | none => none
      | some (h1, nb1) => rehash_buckets old count n (bkt_i + 1) h1 nb1

/-- Function `hash_expand_buckets`. -/
def hash_expand_buckets (s : State) : Option State :=
  match s.table with
  | none => none
  | some table =>
    let new_bucket_count :=
      if (2 * table.count) % ULONG_MOD > BUCKET_NUM_MAX then BUCKET_NUM_MAX
      else (2 * table.count) % ULONG_MOD
    if table.count ≥ BUCKET_NUM_MAX then some { s with FLAG_EXPAND := 0 }
    else
      match rehash_buckets table.buckets table.count table.count 0 s.heap
          (List.replicate new_bucket_count empty_bucket) with
      | none => none
      | some (h, nb) =>
        some { s with heap := h,
                      table := some { table with count := (table.count * 2) % ULONG_MOD,
                                                 buckets := nb } }

/-- Function `hash_add_to_bkt`; the bucket is given by its index. -/
def hash_add_to_bkt (s : State) (bkt : Nat) (hh : Nat) : Option State :=
  match s.table with
  | none => none
  | some table =>
    match table.buckets[bkt]?, s.heap[hh]? with
    | some b, some w =>
      let b1 : hash_bucket := { b with num := b.num + 1, head := some hh }
      let s1 : State :=
        { s with heap := s.heap.set hh (w.set_next b.head),
                 table := some { table with buckets := table.buckets.set bkt b1 } }
      if b1.num ≥ BUCKET_NUM_TRESH ∧ b1.noexpand = 0 ∧ s.FLAG_EXPAND ≠ 0 then
        hash_expand_buckets s1
      else some s1
    | _, _ => none

/-- Function `hash_add_str`, called with `head = &word_table`. -/
def hash_add_str (s : State) (key : CString) (item : Nat) (keylen : Nat) : Option State :=
  if keylen > KEY_MAX_LEN then some s
  else
    let linked : Option State :=
      match s.word_table with
      | none => some (hash_create_table { s with word_table := some item } item)
      | some _ =>
        match s.table with
        | none => none
        | some table =>
          match table.tail with
          | none => none
          | some tl =>
            match s.heap.modify tl (fun w => w.set_next_w (some item)) with
            | none => none
            | some h => some { s with heap := h, table := some { table with tail := some item } }
    match linked with
    | none => none
    | some s1 =>
      let hash := hash_jen key keylen
      match s1.table, s1.heap[item]? with
      | some table, some w =>
        let w1 : word :=
          { w with hh := { w.hh with keylen := keylen, hash := hash, next_w := none } }
        let s2 : State :=
          { s1 with heap := s1.heap.set item w1,
                    table := some { table with num := table.num + 1 } }
        hash_add_to_bkt s2 (hash_get_index hash table.count) item
      | _, _ => none

/-- Function `hash_find_in_bkt`: the result is the final value of `*out`. -/
def hash_find_in_bkt (h : Heap) (key : CString) (keylen : Nat) :
    Nat → Option Nat → Option (Option Nat)
  | 0, _ => none
  | _ + 1, none => some none
  | fuel + 1, some out =>
    match h[out]? with
    | none => none
    | some w =>
      if w.hh.keylen = keylen ∧ strncmp_eq w.key key keylen = true then some (some out)
      else hash_find_in_bkt h key keylen fuel w.hh.next

/-- Function `hash_find_str`: the result is the final value of `*out`. -/
def hash_find_str (s : State) (head : Option Nat) (key : CString) : Option (Option Nat) :=
  match head with
  | none => some none
  | some _ =>
    match s.table with
    | none => none
    | some table =>
      let keylen := strlen key % UINT_MOD
      let hash := hash_jen key keylen
      match table.buckets[hash_get_index hash table.count]? with
      | none => none
      | some b => hash_find_in_bkt s.heap key keylen (s.heap.length + 1) b.head

/-- Function `hash_get_next`: the result is the new value of `*out`; nothing
else is written. `hash_elmt_from_hh` maps the handle `next_w` to its entry,
which is the same reference here, and NULL to NULL; its NULL result for a NULL
table does not arise, the table existing whenever the head does. -/
def hash_get_next (s : State) (head : Option Nat) (out : Option Nat) : Option (Option Nat) :=
  match head with
  | none => some out
  | some hd =>
    match out with
    | none => some (some hd)
    | some o =>
      match s.heap[o]? with
      | none => none
      | some w => some w.hh.next_w

/-- Function `hash_count`. -/
def hash_count (s : State) (head : Option Nat) : Option Nat :=
  match head with
  | none => some 0
  | some _ => s.table.map (fun t => t.num)

/-- One `_hs_e = x; x = x->next_w` of `hash_sort`: the node taken and the new
value of `x`. -/
def hs_take (h : Heap) (x : Option Nat) : Option (Nat × Option Nat) :=
  match x with
  | none => none
  | some e =>
    match h[e]? with
    | none => none
    | some w => some (e, w.hh.next_w)

/-- The `for` loop of `hash_sort` that walks `_hs_q` up to `_hs_insize` nodes
ahead: the final `_hs_psize` and `_hs_q`. -/
def hs_advance (h : Heap) : Nat → Nat → Nat → Option (Nat × Option Nat)
  | 0, psize, q => some (psize, some q)
  | n + 1, psize, q =>
    match h[q]? with
    | none => none
    | some w =>
      match w.hh.next_w with
      | none => some (psize + 1, none)
      | some q1 => hs_advance h n (psize + 1) q1

/-- The four-way choice in the merge loop of `hash_sort`: the node `_hs_e` and
the new `_hs_p`, `_hs_q`, `_hs_psize`, `_hs_qsize`. -/
def hs_select (h : Heap) (p q : Option Nat) (psize qsize : Nat) :
    Option (Nat × Option Nat × Option Nat × Nat × Nat) :=
  if psize = 0 then
    (hs_take h q).map (fun r => (r.1, p, r.2, psize, qsize - 1))
  else if qsize = 0 ∨ q = none then
    (hs_take h p).map (fun r => (r.1, r.2, q, psize - 1, qsize))
  else
    match p, q with
    | some pp, some qq =>
      match h[pp]?, h[qq]? with
      | some wp, some wq =>
        if wp.count ≥ wq.count then
          (hs_take h p).map (fun r => (r.1, r.2, q, psize - 1, qsize))
        else
          (hs_take h q).map (fun r => (r.1, p, r.2, psize, qsize - 1))
      | _, _ => none
    | _, _ => none

/-- The end of the merge loop body of `hash_sort`, appending `_hs_e`:
`if(_hs_tail) _hs_tail->next_w = _hs_e; else _hs_list = _hs_e;` gives the new
heap and `_hs_list`. -/
def hs_link (h : Heap) (list tail : Option Nat) (e : Nat) : Option (Heap × Option Nat) :=
  match tail with
  | some t => (h.modify t (fun w => w.set_next_w (some e))).map (fun h1 => (h1, list))
  | none => some (h, some e)

/-- The merge loop of `hash_sort`: the heap and the final `_hs_q`, `_hs_list`,
`_hs_tail`. -/
def hs_merge : Nat → Heap → Option Nat → Option Nat → Nat → Nat → Option Nat → Option Nat →
    Option (Heap × Option Nat × Option Nat × Option Nat)
  | 0, h, _, q, psize, qsize, list, tail =>
    if psize > 0 ∨ (qsize > 0 ∧ q ≠ none) then none else some (h, q, list, tail)
  | fuel + 1, h, p, q, psize, qsize, list, tail =>
    if psize > 0 ∨ (qsize > 0 ∧ q ≠ none) then
      match hs_select h p q psize qsize with
      | none => none
      | some (e, p1, q1, psize1, qsize1) =>
        match hs_link h list tail e with
        | none => none
        | some (h1, list1) => hs_merge fuel h1 p1 q1 psize1 qsize1 list1 (some e)
    else some (h, q, list, tail)

/-- The `while(_hs_p)` loop of `hash_sort` (one pass over the list): the heap
and the final `_hs_list`, `_hs_tail`, `_hs_nmerges`. -/
def hs_pass (insize : Nat) : Nat → Heap → Option Nat → Option Nat → Option Nat → Nat →
    Option (Heap × Option Nat × Option Nat × Nat)
  | 0, _, _, _, _, _ => none
  | _ + 1, h, none, list, tail, nmerges => some (h, list, tail, nmerges)
  | fuel + 1, h, some p, list, tail, nmerges =>
    match hs_advance h insize 0 p with
    | none => none
    | some (psize, q) =>
      match hs_merge (psize + insize) h (some p) q psize insize list tail with
      | none => none
      | some (h1, q1, list1, tail1) => hs_pass insize fuel h1 q1 list1 tail1 (nmerges + 1)

/-- The `while(_hs_looping)` loop of `hash_sort`. -/
def hs_loop (s : State) : Nat → Heap → Option Nat → Nat → Option State
  | 0, _, _, _ => none
  | fuel + 1, h, list, insize =>
    match hs_pass insize (h.length + 1) h list none none 0 with
    | none => none
    | some (h1, list1, tail1, nmerges) =>
      match tail1 with
      | none => none
      | some t =>
        match h1.modify t (fun w => w.set_next_w none) with
        | none => none
        | some h2 =>
          if nmerges ≤ 1 then
            match s.table with
            | none => none
            | some table =>
              some { s with heap := h2, table := some { table with tail := tail1 },
                            word_table := list1 }
          else hs_loop s fuel h2 list1 (insize * 2)

/-- Function `hash_sort`, called with `head = &word_table`. -/
def hash_sort (s : State) : Option State :=
  match s.word_table with
  | none => some s
  | some hd => hs_loop s (s.heap.length + 1) s.heap (some hd) 1

/-! ## stat.c -/

/-- Function `find_word`. -/
def find_word (s : State) (key : CString) : Option (Option Nat) :=
  hash_find_str s s.word_table key

/-- Function `add_word_length`. -/
def add_word_length (s : State) (length : Nat) : Option State :=
  let s1 : State :=
    match s.w_lengths with
    | some old =>
      if length > s.w_lengths_size then
        let size :=
          if (s.w_lengths_size * 2) % UINT_MOD ≥ length then (s.w_lengths_size * 2) % UINT_MOD
          else length
        { s with w_lengths_size := size,
                 w_lengths := some (old.take s.w_lengths_size ++
                   List.replicate (size - s.w_lengths_size) 0) }
      else s
    | none =>
      let size :=
        if length > s.w_lengths_size then
          if (s.w_lengths_size * 2) % UINT_MOD ≥ length then (s.w_lengths_size * 2) % UINT_MOD
          else length
        else s.w_lengths_size
      { s with w_lengths_size := size, w_lengths := some (List.replicate size 0) }
  match s1.w_lengths with
  | none => none
  | some a =>
    let i := (length + UINT_MOD - 1) % UINT_MOD
    match a[i]? with
    | none => none
    | some n => some { s1 with w_lengths := some (a.set i ((n + 1) % UINT_MOD)) }

/-- Function `add_word`. -/
def add_word (s : State) (key : CString) : Option State :=
  let length := strlen key % UINT_MOD
  match find_word s key with
  | none => none
  | some none =>
    let s1 : State :=
      if length > s.w_length_max then { s with w_length_max := length } else s
    match add_word_length s1 length with
    | none => none
    | some s2 =>
      let w : word :=
        { key := strcpy key, count := 1,
          hh := { next := none, next_w := none, hash := 0, keylen := 0 } }
      let item := s2.heap.length
      hash_add_str { s2 with heap := s2.heap ++ [w] } w.key item length
  | some (some p) =>
    match s.heap.modify p (fun w => { w with count := (w.count + 1) % UINT_MOD }) with
    | none => none
    | some h => some { s with heap := h }

/-- A sequence of `add_word` calls. -/
def add_words (s : State) : List CString → Option State
  | [] => some s
  | k :: ks =>
    match add_word s k with
    | none => none
    | some s1 => add_words s1 ks

/-- The loop of `write_stats` over the words: `hash_get_next` from `w` until
it yields `NULL`; the entries visited, in order. -/
def iter_loop (s : State) : Nat → Option Nat → Option (List Nat)
  | 0, _ => none
  | _ + 1, none => some []
  | fuel + 1, some w =>
    match hash_get_next s s.word_table (some w) with
    | none => none
    | some w1 => (iter_loop s fuel w1).map (fun l => w :: l)

/-- The iteration sequence of the index: `hash_get_next` applied repeatedly,
starting with `out = NULL`. -/
def hash_iter (s : State) : Option (List Nat) :=
  match hash_get_next s s.word_table none with
  | none => none
  | some w => iter_loop s (s.heap.length + 1) w

/-- Field `key` of the entry at `p` (empty for a wild pointer). -/
def key_of (h : Heap) (p : Nat) : CString := (h[p]?.map (fun w => w.key)).getD []

/-- Field `count` of the entry at `p` (zero for a wild pointer). -/
def count_of (h : Heap) (p : Nat) : Nat := (h[p]?.map (fun w => w.count)).getD 0

/-- The report of the index: key and count of every entry in iteration order. -/
def report (s : State) : Option (List (CString × Nat)) :=
  (hash_iter s).map (fun l => l.map (fun p => (key_of s.heap p, count_of s.heap p)))

/-! ## Sample inputs -/

/-- The keys "c", "b", "b", "a", "a", "a". -/
def sample_keys : List CString := [[99], [98], [98], [97], [97], [97]]

/-- The index after adding `sample_keys` to an empty index with four initial
buckets: the entries 0 ("c", once), 1 ("b", twice), 2 ("a", three times). -/
def sample_index : State := (add_words (init_state 4) sample_keys).getD (init_state 4)

/-- The keys of the scenario "a", "b", "a", "c", "b", "a". -/
def scenario_keys : List CString := [[97], [98], [97], [99], [98], [97]]

/-- A word as `add_word` allocates it for the key "a", before it is linked. -/
def sample_word : word :=
  { key := [97], count := 1, hh := { next := none, next_w := none, hash := 0, keylen := 0 } }

/-- The empty index of the program start with `sample_word` allocated. -/
def sample_fresh : State := { initial with heap := [sample_word] }

/-- Twelve distinct one-byte keys, enough to fill a single bucket to the
threshold. -/
def twelve_keys : List CString :=
  [[97], [98], [99], [100], [101], [102], [103], [104], [105], [106], [107], [108]]

/-! ## Specification vocabulary -/

/-- The insertion-order link of an entry. -/
def nw (w : word) : Option Nat := w.hh.next_w

/-- The bucket-chain link of an entry. -/
def nx (w : word) : Option Nat := w.hh.next

/-- A list segment: following the link `nxt` from `p` visits exactly the nodes
`l`, in order, and the link of the last node (or `p` itself when `l` is empty)
is `q`. -/
def Seg (nxt : word → Option Nat) (h : Heap) : Option Nat → List Nat → Option Nat → Prop
  | p, [], q => p = q
  | p, a :: l, q => p = some a ∧ ∃ w, h[a]? = some w ∧ Seg nxt h (nxt w) l q

/-- The comparison of the merge step of `hash_sort`, over a count function. -/
def cnt_ge (c : Nat → Nat) (a b : Nat) : Bool := decide (c a ≥ c b)

/-- One pass of the bottom-up merge sort on a list: adjacent runs of `k`
elements are merged pairwise. -/
def pass_list (c : Nat → Nat) (k : Nat) : Nat → List Nat → List Nat
  | 0, l => l
  | _ + 1, [] => []
  | fuel + 1, a :: l =>
    List.merge ((a :: l).take k) (((a :: l).drop k).take k) (cnt_ge c) ++
      pass_list c k fuel ((a :: l).drop (k + k))

/-- Every aligned block of `k` elements of `l` has non-increasing counts. -/
def Runs (c : Nat → Nat) (k : Nat) (l : List Nat) : Prop :=
  ∀ i, ((l.drop (i * k)).take k).Pairwise (fun a b => c a ≥ c b)

/-- What a stable sort by non-increasing count makes of `l`: `l1` is a
permutation of `l` with non-increasing counts, the entries of each count keep
their order, and a list already in order is left as it is. -/
def SortPost (c : Nat → Nat) (l l1 : List Nat) : Prop :=
  l1.Perm l ∧ l1.Pairwise (fun a b => c a ≥ c b) ∧
  (∀ v, l1.filter (fun a => decide (c a = v)) = l.filter (fun a => decide (c a = v))) ∧
  (l.Pairwise (fun a b => c a ≥ c b) → l1 = l)

/-- Field `hh.hash` of the entry at `p` (zero for a wild pointer). -/
def hash_of (h : Heap) (p : Nat) : Nat := (h[p]?.map (fun w => w.hh.hash)).getD 0

/-- The fields of the entry at `p` that no link update touches: key, count,
stored hash and stored key length. -/
def info_of (h : Heap) (p : Nat) : Option (CString × Nat × Nat × Nat) :=
  h[p]?.map (fun w => (w.key, w.count, w.hh.hash, w.hh.keylen))

/-- A well-formed bucket count: a power of two not above `BUCKET_NUM_MAX`. -/
def IsPow2Cap (c : Nat) : Prop := ∃ j, c = 2 ^ j ∧ c ≤ BUCKET_NUM_MAX

/-- The bucket array `bs` of `cnt` buckets holds exactly the entries selected
by `S`: every bucket heads a NULL-terminated chain, its `num` is the length of
the chain, and an entry is on the chain of bucket `i` exactly when `S` selects
it and its hash (given by `H`) addresses `i`. -/
def BucketsOK (H : Nat → Nat) (h : Heap) (bs : List hash_bucket) (cnt : Nat)
    (S : Nat → Prop) : Prop :=
  bs.length = cnt ∧
  ∀ i b, bs[i]? = some b → ∃ C, Seg nx h b.head C none ∧ b.num = C.length ∧
    ∀ a, a ∈ C ↔ (S a ∧ hash_get_index (H a) cnt = i)

/-- The structure of the index whose insertion-order list is `L`: the initial
bucket count is well formed, the order list is NULL-terminated, and when the
index is not empty the table exists, its tail is the last entry, its `num` is
the number of entries, its bucket count is well formed and its buckets hold
exactly the entries of `L`. -/
def TableOK (s : State) (L : List Nat) : Prop :=
  IsPow2Cap s.BUCKET_INIT_COUNT ∧
  Seg nw s.heap s.word_table L none ∧
  (L ≠ [] → ∃ t, s.table = some t ∧ t.tail = L.getLast? ∧ t.num = L.length ∧
    IsPow2Cap t.count ∧ BucketsOK (hash_of s.heap) s.heap t.buckets t.count (fun a => a ∈ L))

/-- The entries of `L` carry well-formed, pairwise distinct keys: the stored
hash is `hash_jen` of the key, the stored length is the length of the key, the
key has no NUL byte and at most `KEY_MAX_LEN` bytes. -/
def KeysOK (h : Heap) (L : List Nat) : Prop :=
  (∀ a ∈ L, ∀ w, h[a]? = some w →
    w.hh.hash = hash_jen w.key w.hh.keylen ∧ w.hh.keylen = w.key.length ∧
    (0 : Byte) ∉ w.key ∧ w.key.length ≤ KEY_MAX_LEN) ∧
  (∀ a ∈ L, ∀ b ∈ L, key_of h a = key_of h b → a = b)

/-- The length histogram, once allocated, has `w_lengths_size` slots. -/
def HistOK (s : State) : Prop := ∀ a, s.w_lengths = some a → a.length = s.w_lengths_size

/-- The invariant of the index under `add_word`. -/
def Inv (s : State) (L : List Nat) : Prop := TableOK s L ∧ KeysOK s.heap L ∧ HistOK s

/-- A key as `add_word` is meant to receive it: no NUL byte, between 1 and
`KEY_MAX_LEN` bytes. -/
def ValidKey (k : CString) : Prop := (0 : Byte) ∉ k ∧ 1 ≤ k.length ∧ k.length ≤ KEY_MAX_LEN

/-- The counting contract on an association list in insertion order: a key
already present has its count incremented (an `unsigned` counter), a new key
is appended with count 1. -/
def bump (k : CString) : List (CString × Nat) → List (CString × Nat)
  | [] => [(k, 1)]
  | (k1, n) :: m => if k1 = k then (k1, (n + 1) % UINT_MOD) :: m else (k1, n) :: bump k m

/-- The counting contract applied to a sequence of keys, from the empty list. -/
def tally (ks : List CString) : List (CString × Nat) := ks.foldl (fun m k => bump k m) []

/-- The distinct keys of a sequence in order of first occurrence: a key is
appended when it has not been seen before. -/
def first_occurrences (ks : List CString) : List CString :=
  ks.foldl (fun acc k => if k ∈ acc then acc else acc ++ [k]) []

/-- The position of the first occurrence of `k` in `ks` (the length of `ks`
when `k` does not occur). -/
def first_index (k : CString) : List CString → Nat
  | [] => 0
  | x :: xs => if x = k then 0 else first_index k xs + 1

/-- Key and count of the entries `L`, in order. -/
def view (h : Heap) (L : List Nat) : List (CString × Nat) :=
  L.map (fun p => (key_of h p, count_of h p))

/-- The heap with every insertion-order link erased. -/
def erase_nw (h : Heap) : Heap := h.map (fun w => w.set_next_w none)

/-- The heap with every bucket-chain link erased. -/
def erase_nx (h : Heap) : Heap := h.map (fun w => w.set_next none)

/-! ## Reachable index states -/

/-- One operation of the client on the index: `add_word(key)` or
`hash_sort(&word_table)`. -/
inductive Op where
  | add (key : CString)
  | sort
deriving DecidableEq, Repr

/-- The effect of one operation. -/
def run_op (s : State) : Op → Option State
  | Op.add k => add_word s k
  | Op.sort => hash_sort s

/-- The effect of a sequence of operations. -/
def run_ops (s : State) : List Op → Option State
  | [] => some s
  | op :: ops =>
    match run_op s op with
    | none => none
    | some s1 => run_ops s1 ops

/-- A word as the parser hands it to `add_word`: no NUL byte, not empty, and
shorter than 2^32 bytes (it may be longer than `KEY_MAX_LEN`). -/
def WordKey (k : CString) : Prop := (0 : Byte) ∉ k ∧ 1 ≤ k.length ∧ k.length < UINT_MOD

/-- The operations considered: `add_word` on a word, or `hash_sort`. -/
def OpOK : Op → Prop
  | Op.add k => WordKey k
  | Op.sort => True

/-- The expand flag and the growth locks of a reachable state: no table exists
before the first entry; the flag is cleared only when the bucket count has
reached `BUCKET_NUM_MAX`; a locked bucket holds at least `BUCKET_NUM_TRESH`
entries; and while the flag is set an unlocked bucket holds fewer. -/
def FlagOK (s : State) : Prop :=
  (s.word_table = none → s.table = none ∧ s.FLAG_EXPAND ≠ 0) ∧
  (s.FLAG_EXPAND = 0 → ∀ t, s.table = some t → BUCKET_NUM_MAX ≤ t.count) ∧
  (∀ t, s.table = some t → ∀ b ∈ t.buckets,
    (b.noexpand ≠ 0 → BUCKET_NUM_TRESH ≤ b.num) ∧
    (s.FLAG_EXPAND ≠ 0 → b.noexpand = 0 → b.num < BUCKET_NUM_TRESH))

/-- The growth locks right after a rebuild of the bucket array: a bucket is
locked exactly when it holds at least `BUCKET_NUM_TRESH` entries. -/
def LocksExact (bs : List hash_bucket) : Prop :=
  ∀ b ∈ bs, (b.noexpand ≠ 0 ↔ BUCKET_NUM_TRESH ≤ b.num)

/-- The operations that build `sample_index`. -/
def sample_ops : List Op := sample_keys.map Op.add

/-- What `hash_add_str` does to the table when it links the entry `item` with
hash `hash` in state `s`, giving `s1`: the bucket array `bs` of `cnt` buckets is
the fresh one of `hash_create_table` when the index is empty and the existing
one otherwise; `b` is the addressed bucket; `hash_add_to_bkt` counts and links
the entry, and calls `hash_expand_buckets` when the bucket has reached
`BUCKET_NUM_TRESH`, is not locked and the expand flag is set; the call clears
the flag when `cnt` is at `BUCKET_NUM_MAX` and rebuilds the array otherwise. -/
def LinkStep (s s1 : State) (hash item : Nat) : Prop :=
  ∃ bs cnt b t1,
    (s.word_table = none →
      bs = List.replicate s.BUCKET_INIT_COUNT empty_bucket ∧ cnt = s.BUCKET_INIT_COUNT) ∧
    (s.word_table ≠ none → ∃ t, s.table = some t ∧ bs = t.buckets ∧ cnt = t.count) ∧
    bs[hash_get_index hash cnt]? = some b ∧
    s1.table = some t1 ∧ s1.word_table ≠ none ∧
    (¬ (b.num + 1 ≥ BUCKET_NUM_TRESH ∧ b.noexpand = 0 ∧ s.FLAG_EXPAND ≠ 0) →
      s1.FLAG_EXPAND = s.FLAG_EXPAND ∧ t1.count = cnt ∧
      t1.buckets = bs.set (hash_get_index hash cnt)
        { b with num := b.num + 1, head := some item }) ∧
    ((b.num + 1 ≥ BUCKET_NUM_TRESH ∧ b.noexpand = 0 ∧ s.FLAG_EXPAND ≠ 0) →
      (BUCKET_NUM_MAX ≤ cnt → s1.FLAG_EXPAND = 0 ∧ t1.count = cnt ∧
        t1.buckets = bs.set (hash_get_index hash cnt)
          { b with num := b.num + 1, head := some item }) ∧
      (cnt < BUCKET_NUM_MAX → s1.FLAG_EXPAND = s.FLAG_EXPAND ∧
        t1.count = (cnt * 2) % ULONG_MOD ∧ LocksExact t1.buckets))

/-- An index of 1048577 buckets (a count that `hash_set_count` accepts) holding
the single word "a", as `add_word` builds it from the empty index. -/
def odd_index : State :=
  { heap := [{ key := [97], count := 1,
               hh := { next := none, next_w := none, hash := 29161854018, keylen := 1 } }],
    table := some { buckets := { head := some 0, num := 1, noexpand := 0 } ::
                      List.replicate 1048576 empty_bucket,
                    tail := some 0, count := 1048577, num := 1 },
    word_table := some 0, BUCKET_INIT_COUNT := 1048577, FLAG_EXPAND := 1,
    w_length_max := 1, w_lengths_size := 15, w_lengths := some (1 :: List.replicate 14 0) }

/-- An index of 1048577 buckets holding the single word "b", as `add_word`
builds it from the empty index. -/
def odd_index_b : State :=
  { heap := [{ key := [98], count := 1,
               hh := { next := none, next_w := none, hash := 30079156635, keylen := 1 } }],
    table := some { buckets := List.replicate 1048576 empty_bucket ++
                      [{ head := some 0, num := 1, noexpand := 0 }],
                    tail := some 0, count := 1048577, num := 1 },
    word_table := some 0, BUCKET_INIT_COUNT := 1048577, FLAG_EXPAND := 1,
    w_length_max := 1, w_lengths_size := 15, w_lengths := some (1 :: List.replicate 14 0) }

/-- The operations that add `twelve_keys` and sort at the end. -/
def twelve_ops : List Op := twelve_keys.map Op.add ++ [Op.sort]

/-- The operations that add the first nine of `twelve_keys`. -/
def nine_ops : List Op := (twelve_keys.take 9).map Op.add

/-- The index after `nine_ops` on an empty index with one initial bucket: the
nine entries are on the chain of the only bucket. -/
def nine_index : State := (run_ops (init_state 1) nine_ops).getD (init_state 1)

/-! ## cp1250_ctype.h and cp1250_ctype.c -/

/-- Macro `_DICTOFFSET`: all 7-bit values are the same as ASCII. -/
def _DICTOFFSET : Nat := 0x80

/-- Macro `_UPPER`: upper case letter. -/
def _UPPER : Nat := 0x1

/-- Macro `_LOWER`: lower case letter. -/
def _LOWER : Nat := 0x2

/-- Macro `_SPACE`. -/
def _SPACE : Nat := 0x8

/-- Macro `_PUNCT`: punctuation character. -/
def _PUNCT : Nat := 0x10

/-- Macro `_EMPTY`: unused. -/
def _EMPTY : Nat := 0x20

/-- Array `dict[128]`: the classes of the characters 0x80 to 0xFF, eight per
row. -/
def dict : List Nat :=
  [
   _PUNCT, _EMPTY, _PUNCT, _EMPTY, _PUNCT, _PUNCT, _PUNCT, _PUNCT,
   _EMPTY, _PUNCT, _UPPER, _PUNCT, _UPPER, _UPPER, _UPPER, _UPPER,
   _EMPTY, _PUNCT, _PUNCT, _PUNCT, _PUNCT, _PUNCT, _PUNCT, _PUNCT,
   _EMPTY, _PUNCT, _LOWER, _PUNCT, _LOWER, _LOWER, _LOWER, _LOWER,
   _SPACE, _PUNCT, _PUNCT, _UPPER, _PUNCT, _UPPER, _PUNCT, _PUNCT,
   _PUNCT, _PUNCT, _UPPER, _PUNCT, _PUNCT, _PUNCT, _PUNCT, _UPPER,
   _PUNCT, _PUNCT, _PUNCT, _LOWER, _PUNCT, _LOWER, _PUNCT, _PUNCT,
   _PUNCT, _LOWER, _LOWER, _PUNCT, _UPPER, _PUNCT, _LOWER, _LOWER,
   _UPPER, _UPPER, _UPPER, _UPPER, _UPPER, _UPPER, _UPPER, _UPPER,
   _UPPER, _UPPER, _UPPER, _UPPER, _UPPER, _UPPER, _UPPER, _UPPER,
   _UPPER, _UPPER, _UPPER, _UPPER, _UPPER, _UPPER, _UPPER, _PUNCT,
   _UPPER, _UPPER, _UPPER, _UPPER, _UPPER, _UPPER, _UPPER, _UPPER,
   _LOWER, _LOWER, _LOWER, _LOWER, _LOWER, _LOWER, _LOWER, _LOWER,
   _LOWER, _LOWER, _LOWER, _LOWER, _LOWER, _LOWER, _LOWER, _LOWER,
   _LOWER, _LOWER, _LOWER, _LOWER, _LOWER, _LOWER, _LOWER, _PUNCT,
   _LOWER, _LOWER, _LOWER, _LOWER, _LOWER, _LOWER, _LOWER, _PUNCT]

/-- Function `isalpha` of the C library, in the "C" locale (the program never
calls `setlocale`); the result as a truth value. -/
def isalpha (c : Nat) : Bool := decide ((65 ≤ c ∧ c ≤ 90) ∨ (97 ≤ c ∧ c ≤ 122))

/-- Function `tolower` of the C library, in the "C" locale. -/
def tolower (c : Nat) : Nat := if 65 ≤ c ∧ c ≤ 90 then c + 32 else c

/-- Function `cp1250_isalpha`, for an argument in 0..255; the result as a
truth value. -/
def cp1250_isalpha (c : Nat) : Bool :=
  if c < _DICTOFFSET then isalpha c
  else decide (dict.getD (c - _DICTOFFSET) 0 &&& (_UPPER ||| _LOWER) ≠ 0)

/-- Function `cp1250_tolower`, for an argument in 0..255. -/
def cp1250_tolower (c : Nat) : Nat :=
  if c < _DICTOFFSET then tolower c
  else
    let diff :=
      if dict.getD (c - _DICTOFFSET) 0 &&& _UPPER ≠ 0 then
        if c ≤ 191 then
          if c = 165 then 20
          else if c = 188 then 2
          else 16
        else
          if c = 223 then 0
          else 32
      else 0
    c + diff

/-! ## parser.c -/

/-- Array `delimiters`, with its terminating NUL. -/
def delimiters : List Byte :=
  [9, 10, 11, 13, 32, 33, 34, 36, 37, 40, 41, 44, 45, 46, 48, 49, 50, 51, 52, 53, 54, 55, 56,
   57, 58, 59, 63, 64, 91, 93, 123, 125, 126, 130, 132, 133, 137, 145, 146, 147, 148, 0]

/-- Array `delimiters_outer`, with its terminating NUL. -/
def delimiters_outer : List Byte := [39, 0]

/-- Conversion of a (signed) `char` to `int`. -/
def char_to_int (c : Byte) : Int := if c.val < 128 then (c.val : Int) else (c.val : Int) - 256

/-- Function `is_delimiter_outer`; the result as a truth value. -/
def is_delimiter_outer (c : Byte) : Bool :=
  (List.range (strlen delimiters_outer)).any
    (fun i => decide (((delimiters_outer.getD i 0).val : Int) = char_to_int c))

/-- The character buffer that holds the token, the pointer `*word` as an offset
into it, the local variables of `parse_word` (the `int` variables as natural
numbers: none of them exceeds the length of the token), and the calls of
`add_letter` made so far. -/
structure parse_state where
  mem : List Byte
  word : Nat
  i : Nat
  count : Nat
  od_index : Nat
  od_count : Nat
  shifts : Nat
  letters : List (CString × Nat)
deriving DecidableEq, Repr

/-- The `for` loop of `parse_word`; a read outside the buffer fails. -/
def parse_word_loop (length : Nat) : Nat → parse_state → Option parse_state
  | 0, _ => none
  | fuel + 1, st =>
    if st.i < length then
      match st.mem[st.word + st.i]? with
      | none => none
      | some c =>
        if is_delimiter_outer c then
          if st.count = 0 ∧ st.i + st.shifts + 1 < length then
            parse_word_loop length fuel
              { st with shifts := st.shifts + 1, word := st.word + 1, i := st.i + 1 }
          else
            parse_word_loop length fuel
              { st with od_count := st.count, od_index := st.i, i := st.i + 1 }
        else if cp1250_isalpha c.val then
          let c1 : Byte := ⟨cp1250_tolower c.val % 256, Nat.mod_lt _ (by decide)⟩
          let mem1 := st.mem.set (st.word + st.i) c1
          let digraph : Option Bool :=
            if st.i + 1 < length ∧ c1 = 99 then
              (mem1[st.word + st.i + 1]?).map (fun n => decide (n = 104))
            else some false
          match digraph with
          | none => none
          | some true =>
            parse_word_loop length fuel
              { st with mem := mem1, letters := st.letters ++ [([99, 104], 0)],
                        count := st.count + 1, i := st.i + 1 + 1 }
          | some false =>
            parse_word_loop length fuel
              { st with mem := mem1, letters := st.letters ++ [([c1], c1.val)],
                        count := st.count + 1, i := st.i + 1 }
        else parse_word_loop length fuel { st with i := st.i + 1 }
    else some st

/-- Function `parse_word`, called with `*word` at offset `word` of the buffer
`mem`: the buffer and `*word` afterwards, the calls of `add_letter`, and the
result as a truth value. -/
def parse_word (mem : List Byte) (word : Nat) :
    Option (List Byte × Nat × List (CString × Nat) × Bool) :=
  let length := strlen (mem.drop word)
  match parse_word_loop length (length + 1)
      { mem := mem, word := word, i := 0, count := 0, od_index := 0, od_count := 0,
        shifts := 0, letters := [] } with
  | none => none
  | some st =>
    if st.od_count = st.count then
      match st.mem[st.word + st.od_index]? with
      | none => none
      | some _ =>
        some (st.mem.set (st.word + st.od_index) 0, st.word, st.letters, decide (st.count > 0))
    else some (st.mem, st.word, st.letters, decide (st.count > 0))

/-- The word that `parse_line` hands to `add_word` for the token at offset
`word` of the buffer `mem`: the string at `*word` after `parse_word` has
returned true; `none` when `parse_word` returns false or fails. -/
def parsed_word (mem : List Byte) (word : Nat) : Option CString :=
  match parse_word mem word with
  | some (mem1, word1, _, true) => some (strcpy (mem1.drop word1))
  | _ => none

/-- Ten one-byte keys whose hashes are odd: "b", "c", "d", "g", "i", "j", "m",
"n", "o", "p". -/
def odd_hash_keys : List CString :=
  [[98], [99], [100], [103], [105], [106], [109], [110], [111], [112]]

/-- The operations that add `odd_hash_keys`. -/
def locked_ops : List Op := odd_hash_keys.map Op.add

/-- The index after `locked_ops` on an empty index with one initial bucket: the
tenth insertion has doubled the bucket count, and the ten entries are on the
chain of bucket 1. -/
def locked_index : State := (run_ops (init_state 1) locked_ops).getD (init_state 1)

/-! ## hash_table.c: the initial bucket count -/

/-- Conversion of a `long` to `unsigned`. -/
def long_to_unsigned (c : Int) : Nat := (c % (UINT_MOD : Int)).toNat

/-- Conversion of an `unsigned long` to `long` (two's complement). -/
def ulong_to_long (u : Nat) : Int := if u < 2 ^ 63 then (u : Int) else (u : Int) - 2 ^ 64

/-- Function `hash_set_count`; the argument is a `long`, `BUCKET_INIT_COUNT`
an `unsigned`. -/
def hash_set_count (s : State) (count : Int) : State :=
  if count = 0 ∨ count > (BUCKET_NUM_MAX : Int) then s
  else { s with BUCKET_INIT_COUNT := long_to_unsigned count }

/-- The number of binary digits of `n`, by halving at most `fuel` times. -/
def bit_length_aux : Nat → Nat → Nat
  | 0, _ => 0
  | fuel + 1, n => if n = 0 then 0 else bit_length_aux fuel (n / 2) + 1

/-- The number of binary digits of `n` (0 for 0). -/
def bit_length (n : Nat) : Nat := bit_length_aux n n

/-- Rounding of a natural number to `p` significant bits, to nearest, ties to
even: the conversion of an integer value to an IEEE 754 binary format with a
significand of `p` bits (24 for `float`, 53 for `double`), below the overflow
threshold. -/
def round_to (p : Nat) (n : Nat) : Nat :=
  let bits := bit_length n
  if bits ≤ p then n
  else
    let sh := bits - p
    let q := n / 2 ^ sh
    let r := n % 2 ^ sh
    let q1 := if r > 2 ^ (sh - 1) ∨ (r = 2 ^ (sh - 1) ∧ q % 2 = 1) then q + 1 else q
    q1 * 2 ^ sh

/-- The `double` constant `0.05`: its value is `double_0_05 / 2 ^ 57`. -/
def double_0_05 : Nat := 7205759403792794

/-- The estimate of `hash_guess_count` for a non-negative `count`:
`tmp = count / 8` (a `long` quotient converted to `float`),
`tmp = ceil(tmp * 0.05)` (the product and `ceil` in `double`, the result
converted to `float`), `count_u = (unsigned long) tmp`. -/
def guess_estimate (count : Nat) : Nat :=
  let tmp := round_to 24 (count / 8)
  let prod := round_to 53 (tmp * double_0_05)
  let ceiled := (prod + 2 ^ 57 - 1) / 2 ^ 57
  round_to 24 ceiled

/-- The bit-smearing step of `hash_guess_count` on an `unsigned long`:
`count_u--`, `count_u |= count_u >> k` for `k` = 1, 2, 4, 8, 16, `count_u++`. -/
def smear (count_u : Nat) : Nat :=
  let c := (count_u + ULONG_MOD - 1) % ULONG_MOD
  let c := c ||| (c >>> 1)
  let c := c ||| (c >>> 2)
  let c := c ||| (c >>> 4)
  let c := c ||| (c >>> 8)
  let c := c ||| (c >>> 16)
  (c + 1) % ULONG_MOD

/-- Function `hash_guess_count`; the argument is a `long`. For a negative
argument the quotient, the product and `ceil` are the negated values for its
magnitude (division truncates towards zero); the conversion of a `float` below
or equal to -1 to `unsigned long` is undefined, and the call fails. -/
def hash_guess_count (s : State) (count : Int) : Option State :=
  if count < 0 then
    if round_to 24 (round_to 53 (round_to 24 (count.natAbs / 8) * double_0_05) / 2 ^ 57) = 0
    then some s
    else none
  else
    let count_u := guess_estimate count.toNat
    if count_u ≤ 32 ∨ count ≤ 32 then some s
    else some (hash_set_count s (ulong_to_long (smear count_u)))

/-- A word of 513 letters "a", one byte longer than `KEY_MAX_LEN`. -/
def long_word : CString := List.replicate 513 97

/-- Function `isspace` of the C library, in the "C" locale; the result as a
truth value. -/
def isspace (c : Nat) : Bool := decide (c = 32 ∨ (9 ≤ c ∧ c ≤ 13))

/-- Function `cp1250_isspace`, for an argument in 0..255; the result as a
truth value, `none` when the read `dict[c]` is outside the array. -/
def cp1250_isspace (c : Nat) : Option Bool :=
  if c < _DICTOFFSET then some (isspace c)
  else (dict[c]?).map (fun d => decide (d &&& _SPACE ≠ 0))

/-- Function `isupper` of the C library, in the "C" locale; the result as a
truth value. -/
def isupper (c : Nat) : Bool := decide (65 ≤ c ∧ c ≤ 90)

/-- Function `islower` of the C library, in the "C" locale; the result as a
truth value. -/
def islower (c : Nat) : Bool := decide (97 ≤ c ∧ c ≤ 122)

/-- Function `cp1250_isupper`, for an argument in 0..255; the result as a
truth value. -/
def cp1250_isupper (c : Nat) : Bool :=
  if c < _DICTOFFSET then isupper c
  else decide (dict.getD (c - _DICTOFFSET) 0 &&& _UPPER ≠ 0)

/-- Function `cp1250_islower`, for an argument in 0..255; the result as a
truth value. -/
def cp1250_islower (c : Nat) : Bool :=
  if c < _DICTOFFSET then islower c
  else decide (dict.getD (c - _DICTOFFSET) 0 &&& _LOWER ≠ 0)

/-! ## Heap and list-segment lemmas -/

theorem modify_eq_some {h h1 : Heap} {p : Nat} {f : word → word}
    (hm : h.modify p f = some h1) : ∃ w, h[p]? = some w ∧ h1 = h.set p (f w) := by
  unfold Heap.modify at hm
  cases hp : h[p]? with
  | none => simp [hp] at hm
  | some w => simp [hp] at hm; exact ⟨w, rfl, hm.symm⟩

theorem modify_of_get {h : Heap} {p : Nat} {w : word} (f : word → word)
    (hp : h[p]? = some w) : h.modify p f = some (h.set p (f w)) := by
  unfold Heap.modify; simp [hp]

theorem get_set_self {h : Heap} {p : Nat} {w w1 : word} (hp : h[p]? = some w) :
    (h.set p w1)[p]? = some w1 := by
  have hlt : p < h.length := by
    rcases List.getElem?_eq_some_iff.1 hp with ⟨hl, _⟩; exact hl
  simp [List.getElem?_set, hlt]

theorem get_set_ne {h : Heap} {p a : Nat} (w1 : word) (hne : a ≠ p) :
    (h.set p w1)[a]? = h[a]? := by
  simp [List.getElem?_set, Ne.symm hne]

theorem Seg_append {nxt : word → Option Nat} {h : Heap} (l1 l2 : List Nat) (p q : Option Nat) :
    Seg nxt h p (l1 ++ l2) q ↔ ∃ m, Seg nxt h p l1 m ∧ Seg nxt h m l2 q := by
  induction l1 generalizing p with
  | nil => simp [Seg]
  | cons a l ih =>
    constructor
    · rintro ⟨hp, w, hw, hr⟩
      obtain ⟨m, h1, h2⟩ := (ih _).1 hr
      exact ⟨m, ⟨hp, w, hw, h1⟩, h2⟩
    · rintro ⟨m, ⟨hp, w, hw, h1⟩, h2⟩
      exact ⟨hp, w, hw, (ih _).2 ⟨m, h1, h2⟩⟩

theorem Seg_valid {nxt : word → Option Nat} {h : Heap} {l : List Nat} {p q : Option Nat}
    (hs : Seg nxt h p l q) {a : Nat} (ha : a ∈ l) : ∃ w, h[a]? = some w := by
  induction l generalizing p with
  | nil => simp at ha
  | cons b l ih =>
    obtain ⟨_, w, hw, hrest⟩ := hs
    rcases List.mem_cons.1 ha with rfl | ha
    · exact ⟨w, hw⟩
    · exact ih hrest ha

theorem Seg_congr {nxt : word → Option Nat} {h h1 : Heap} {l : List Nat} {p q : Option Nat}
    (hfr : ∀ a ∈ l, ∀ w, h[a]? = some w → ∃ w1, h1[a]? = some w1 ∧ nxt w1 = nxt w)
    (hs : Seg nxt h p l q) : Seg nxt h1 p l q := by
  induction l generalizing p with
  | nil => exact hs
  | cons b l ih =>
    obtain ⟨hp, w, hw, hrest⟩ := hs
    obtain ⟨w1, hw1, hn⟩ := hfr b (List.mem_cons_self _ _) w hw
    refine ⟨hp, w1, hw1, ?_⟩
    rw [hn]
    exact ih (fun a ha => hfr a (List.mem_cons_of_mem _ ha)) hrest

theorem Seg_set_of_not_mem {nxt : word → Option Nat} {h : Heap} {l : List Nat}
    {p q : Option Nat} {t : Nat} (w1 : word) (ht : t ∉ l) (hs : Seg nxt h p l q) :
    Seg nxt (h.set t w1) p l q := by
  refine Seg_congr ?_ hs
  intro a ha w hw
  have hne : a ≠ t := fun e => ht (e ▸ ha)
  exact ⟨w, by rw [get_set_ne w1 hne]; exact hw, rfl⟩

theorem Seg_det {nxt : word → Option Nat} {h : Heap} {l l1 : List Nat} {p : Option Nat}
    (hs : Seg nxt h p l none) (hs1 : Seg nxt h p l1 none) : l = l1 := by
  induction l generalizing p l1 with
  | nil =>
    cases l1 with
    | nil => rfl
    | cons b l1 =>
      simp only [Seg] at hs hs1
      rw [hs] at hs1; exact absurd hs1.1 (by simp)
  | cons a l ih =>
    cases l1 with
    | nil =>
      simp only [Seg] at hs hs1
      rw [hs1] at hs; exact absurd hs.1 (by simp)
    | cons b l1 =>
      obtain ⟨hp, w, hw, hrest⟩ := hs
      obtain ⟨hp1, w1, hw1, hrest1⟩ := hs1
      have hab : a = b := by rw [hp] at hp1; exact Option.some.inj hp1
      subst hab
      rw [hw] at hw1
      have hww : w = w1 := Option.some.inj hw1
      subst hww
      rw [ih hrest hrest1]

theorem Seg_nodup {nxt : word → Option Nat} {h : Heap} {l : List Nat} {p : Option Nat}
    (hs : Seg nxt h p l none) : l.Nodup := by
  induction l generalizing p with
  | nil => exact List.nodup_nil
  | cons a l ih =>
    obtain ⟨hp, w, hw, hrest⟩ := hs
    refine List.nodup_cons.2 ⟨?_, ih hrest⟩
    intro ha
    obtain ⟨l1, l2, hl⟩ := List.append_of_mem ha
    have hrest2 := hrest
    rw [hl, Seg_append] at hrest2
    obtain ⟨m, _, hm⟩ := hrest2
    obtain ⟨_, w2, hw2, hm2⟩ := hm
    rw [hw] at hw2
    have hww : w = w2 := Option.some.inj hw2
    subst hww
    have := Seg_det hrest hm2
    have hlen := congrArg List.length this
    rw [hl] at hlen
    simp at hlen
    omega

theorem Seg_length_le {nxt : word → Option Nat} {h : Heap} {l : List Nat} {p : Option Nat}
    (hs : Seg nxt h p l none) : l.length ≤ h.length := by
  have hnd := Seg_nodup hs
  have hsub : l ⊆ List.range h.length := by
    intro a ha
    obtain ⟨w, hw⟩ := Seg_valid hs ha
    rcases List.getElem?_eq_some_iff.1 hw with ⟨hl, _⟩
    exact List.mem_range.2 hl
  have := (List.subperm_of_subset hnd hsub).length_le
  simpa using this

/-! ## The sort on the heap -/

theorem Seg_none_nil {nxt : word → Option Nat} {h : Heap} {l : List Nat} {q : Option Nat}
    (hs : Seg nxt h none l q) : l = [] := by
  cases l with
  | nil => rfl
  | cons a l => exact absurd hs.1 (by simp)

theorem count_of_get {h : Heap} {a : Nat} {w : word} (hw : h[a]? = some w) :
    count_of h a = w.count := by
  simp [count_of, hw]

theorem erase_nw_set {h : Heap} {t : Nat} {w : word} (x : Option Nat) (hw : h[t]? = some w) :
    erase_nw (h.set t (w.set_next_w x)) = erase_nw h := by
  apply List.ext_getElem?
  intro i
  simp only [erase_nw, List.getElem?_map, List.getElem?_set]
  by_cases hi : t = i
  · subst hi
    have hlt : t < h.length := (List.getElem?_eq_some_iff.1 hw).1
    simp [hlt, hw, word.set_next_w]
  · simp [hi]

theorem count_of_erase_nw (h : Heap) (a : Nat) : count_of (erase_nw h) a = count_of h a := by
  simp only [count_of, erase_nw, List.getElem?_map]
  cases h[a]? <;> simp [word.set_next_w]

theorem count_of_eq_of_erase_nw {h h1 : Heap} (he : erase_nw h1 = erase_nw h) (a : Nat) :
    count_of h1 a = count_of h a := by
  rw [← count_of_erase_nw h1, he, count_of_erase_nw]

theorem hs_advance_spec {h : Heap} (n : Nat) : ∀ (ps p : Nat) (L : List Nat),
    Seg nw h (some p) L none →
    ∃ q, hs_advance h n ps p = some (ps + min n L.length, q) ∧
      Seg nw h (some p) (L.take n) q ∧ Seg nw h q (L.drop n) none := by
  induction n with
  | zero =>
    intro ps p L hs
    exact ⟨some p, by simp [hs_advance], by simp [Seg], by simpa using hs⟩
  | succ n ih =>
    intro ps p L hs
    cases L with
    | nil => exact absurd hs (by simp [Seg])
    | cons a L =>
      obtain ⟨hp, w, hw, hrest⟩ := hs
      have hpa : p = a := Option.some.inj hp
      subst hpa
      cases hn : w.hh.next_w with
      | none =>
        have hL : L = [] := by
          have : Seg nw h none L none := by simpa [nw, hn] using hrest
          exact Seg_none_nil this
        subst hL
        refine ⟨none, by simp [hs_advance, hw, hn], ?_, by simp [Seg]⟩
        exact ⟨rfl, w, hw, by simp [Seg, nw, hn]⟩
      | some q1 =>
        have hrest1 : Seg nw h (some q1) L none := by simpa [nw, hn] using hrest
        obtain ⟨q, h1, h2, h3⟩ := ih (ps + 1) q1 L hrest1
        refine ⟨q, ?_, ?_, by simpa using h3⟩
        · simp only [hs_advance, hw, hn, h1, List.length_cons]
          congr 2
          omega
        · refine ⟨rfl, w, hw, ?_⟩
          simpa [nw, hn] using h2

theorem hs_link_spec {h : Heap} {list tail x : Option Nat} {O : List Nat} {e : Nat} {we : word}
    (hO : Seg nw h list O x) (ht : tail = O.getLast?) (hnd : O.Nodup) (heO : e ∉ O)
    (hwe : h[e]? = some we) :
    ∃ h1 list1, hs_link h list tail e = some (h1, list1) ∧ erase_nw h1 = erase_nw h ∧
      Seg nw h1 list1 (O ++ [e]) (nw we) ∧
      (∀ (l : List Nat) (p q : Option Nat), (∀ a ∈ l, a ∉ O) → Seg nw h p l q → Seg nw h1 p l q) := by
  rcases List.eq_nil_or_concat O with hO0 | ⟨O1, t, hO1⟩
  · subst hO0
    simp only [List.getLast?_nil] at ht
    subst ht
    refine ⟨h, some e, rfl, rfl, ?_, fun l p q _ hs => hs⟩
    exact ⟨rfl, we, hwe, rfl⟩
  · rw [List.concat_eq_append] at hO1
    subst hO1
    rw [List.getLast?_concat] at ht
    subst ht
    obtain ⟨m, hs1, hs2⟩ := (Seg_append _ _ _ _).1 hO
    obtain ⟨hm, wt, hwt, _⟩ := hs2
    have htO1 : t ∉ O1 := by
      intro hmem
      have := List.nodup_append.1 hnd
      exact this.2.2 hmem (List.mem_singleton_self t) 
    have het : e ≠ t := by
      intro he; apply heO; rw [he]; simp
    refine ⟨h.set t (wt.set_next_w (some e)), list, ?_, erase_nw_set _ hwt, ?_, ?_⟩
    · simp [hs_link, modify_of_get _ hwt]
    · rw [List.append_assoc, Seg_append]
      refine ⟨some t, ?_, ?_⟩
      · rw [← hm]; exact Seg_set_of_not_mem _ htO1 hs1
      · refine ⟨rfl, _, get_set_self hwt, ?_⟩
        show Seg nw _ (some e) [e] (nw we)
        exact ⟨rfl, we, by rw [get_set_ne _ het]; exact hwe, rfl⟩
    · intro l p q hl hs
      apply Seg_set_of_not_mem _ _ hs
      intro htl
      exact hl t htl (by simp)

theorem hs_take_spec {h : Heap} {p q : Option Nat} {a : Nat} {P : List Nat}
    (hs : Seg nw h p (a :: P) q) :
    ∃ w, h[a]? = some w ∧ hs_take h p = some (a, nw w) ∧ Seg nw h (nw w) P q := by
  obtain ⟨hp, w, hw, hrest⟩ := hs
  subst hp
  exact ⟨w, hw, by simp [hs_take, hw, nw], hrest⟩

theorem hs_select_spec (c : Nat → Nat) {h : Heap} {p q pe : Option Nat} {P T : List Nat}
    (qsize : Nat) (hc : ∀ a, count_of h a = c a)
    (hP : Seg nw h p P pe) (hT : Seg nw h q T none)
    (hcond : P.length > 0 ∨ (qsize > 0 ∧ q ≠ none)) :
    ∃ e p1 q1 P1 T1 qsize1 we, hs_select h p q P.length qsize = some (e, p1, q1, P1.length, qsize1) ∧
      Seg nw h p1 P1 pe ∧ Seg nw h q1 T1 none ∧ h[e]? = some we ∧
      List.merge P (T.take qsize) (cnt_ge c) = e :: List.merge P1 (T1.take qsize1) (cnt_ge c) ∧
      T1.drop qsize1 = T.drop qsize ∧ P1.length + qsize1 + 1 = P.length + qsize ∧
      ((P = e :: P1 ∧ T1 = T) ∨ (P1 = P ∧ T = e :: T1)) := by
  cases P with
  | nil =>
    have hq : qsize > 0 ∧ q ≠ none := by simpa using hcond
    cases T with
    | nil => exact absurd hT (by simpa [Seg] using hq.2)
    | cons b T =>
      obtain ⟨w, hw, htk, hrest⟩ := hs_take_spec hT
      obtain ⟨n, hn⟩ : ∃ n, qsize = n + 1 := ⟨qsize - 1, by omega⟩
      subst hn
      refine ⟨b, p, nw w, [], T, n, w, ?_, hP, hrest, hw, ?_, ?_, ?_, Or.inr ⟨rfl, rfl⟩⟩
      · simp [hs_select, htk]
      · simp
      · simp
      · simp
  | cons a P =>
    obtain ⟨wa, hwa, htka, hresta⟩ := hs_take_spec hP
    by_cases hq : qsize = 0 ∨ q = none
    · have hTk : T.take qsize = [] := by
        rcases hq with hq | hq
        · simp [hq]
        · subst hq; rw [Seg_none_nil hT]; simp
      have hTd : T.drop qsize = T := by
        rcases hq with hq | hq
        · simp [hq]
        · subst hq; rw [Seg_none_nil hT]; simp
      refine ⟨a, nw wa, q, P, T, qsize, wa, ?_, hresta, hT, hwa, ?_, rfl, ?_, Or.inl ⟨rfl, rfl⟩⟩
      · simp [hs_select, hq, htka]
      · rw [hTk]; simp
      · simp; omega
    · have hq1 : ¬ qsize = 0 := fun e => hq (Or.inl e)
      have hq2 : ¬ q = none := fun e => hq (Or.inr e)
      cases T with
      | nil => exact absurd hT (by simpa [Seg] using hq2)
      | cons b T =>
        obtain ⟨wb, hwb, htkb, hrestb⟩ := hs_take_spec hT
        obtain ⟨n, hn⟩ : ∃ n, qsize = n + 1 := ⟨qsize - 1, by omega⟩
        subst hn
        have hpa : p = some a := hP.1
        have hqb : q = some b := hT.1
        have hca : wa.count = c a := by rw [← hc, count_of_get hwa]
        have hcb : wb.count = c b := by rw [← hc, count_of_get hwb]
        by_cases hge : c a ≥ c b
        · refine ⟨a, nw wa, q, P, b :: T, n + 1, wa, ?_, hresta, hT, hwa, ?_, rfl, ?_,
            Or.inl ⟨rfl, rfl⟩⟩
          · have : hs_select h (some a) (some b) (P.length + 1) (n + 1) =
                some (a, nw wa, some b, P.length, n + 1) := by
              have ht : hs_take h (some a) = some (a, nw wa) := by rw [← hpa]; exact htka
              simp [hs_select, hwa, hwb, hca, hcb, hge, ht]
            simpa [hpa, hqb] using this
          · simp only [List.take_succ_cons]
            rw [List.cons_merge_cons_pos]
            simp [cnt_ge, hge]
          · simp; omega
        · refine ⟨b, p, nw wb, a :: P, T, n, wb, ?_, hP, hrestb, hwb, ?_, ?_, ?_,
            Or.inr ⟨rfl, rfl⟩⟩
          · have : hs_select h (some a) (some b) (P.length + 1) (n + 1) =
                some (b, some a, nw wb, P.length + 1, n) := by
              have ht : hs_take h (some b) = some (b, nw wb) := by rw [← hqb]; exact htkb
              simp [hs_select, hwa, hwb, hca, hcb, hge, ht]
            simpa [hpa, hqb] using this
          · simp only [List.take_succ_cons]
            rw [List.cons_merge_cons_neg]
            simp [cnt_ge, hge]
          · simp
          · simp; omega

theorem hs_merge_done {h : Heap} {q : Option Nat} {T : List Nat} {qsize : Nat}
    (hT : Seg nw h q T none) (hcond : ¬ (qsize > 0 ∧ q ≠ none)) :
    T.take qsize = [] ∧ T.drop qsize = T := by
  by_cases hq : qsize = 0
  · simp [hq]
  · have : q = none := by
      by_contra hne
      exact hcond ⟨by omega, hne⟩
    subst this
    rw [Seg_none_nil hT]; simp

theorem hs_merge_spec (c : Nat → Nat) : ∀ (fuel : Nat) (h : Heap)
    (p q list tail pe x : Option Nat) (qsize : Nat) (O P T : List Nat),
    (∀ a, count_of h a = c a) →
    Seg nw h p P pe → Seg nw h q T none → Seg nw h list O x → tail = O.getLast? →
    (O ++ (P ++ T)).Nodup → P.length + qsize ≤ fuel →
    ∃ h1 q1 list1 x1,
      hs_merge fuel h p q P.length qsize list tail =
        some (h1, q1, list1, (O ++ List.merge P (T.take qsize) (cnt_ge c)).getLast?) ∧
      erase_nw h1 = erase_nw h ∧ Seg nw h1 q1 (T.drop qsize) none ∧
      Seg nw h1 list1 (O ++ List.merge P (T.take qsize) (cnt_ge c)) x1 := by
  intro fuel
  induction fuel with
  | zero =>
    intro h p q list tail pe x qsize O P T hc hP hT hO ht hnd hfuel
    have hP0 : P = [] := List.length_eq_zero.1 (by omega)
    have hq0 : qsize = 0 := by omega
    subst hP0 hq0
    refine ⟨h, q, list, x, ?_, rfl, by simpa using hT, by simpa using hO⟩
    simp [hs_merge, ht]
  | succ fuel ih =>
    intro h p q list tail pe x qsize O P T hc hP hT hO ht hnd hfuel
    by_cases hcond : P.length > 0 ∨ (qsize > 0 ∧ q ≠ none)
    · obtain ⟨e, p1, q1, P1, T1, qsize1, we, hsel, hP1, hT1, hwe, hmerge, hdrop, hlen, hcase⟩ :=
        hs_select_spec c qsize hc hP hT hcond
      have hperm : (O ++ (P ++ T)).Perm ((O ++ [e]) ++ (P1 ++ T1)) := by
        rcases hcase with ⟨hPe, hTe⟩ | ⟨hPe, hTe⟩
        · subst hPe hTe; simp
        · subst hPe hTe
          simp only [List.append_assoc, List.singleton_append]
          exact List.Perm.append_left O List.perm_middle
      have hnd1 : ((O ++ [e]) ++ (P1 ++ T1)).Nodup := hperm.nodup_iff.1 hnd
      have hndO : O.Nodup := (List.nodup_append.1 hnd).1
      have heO : e ∉ O := by
        intro hmem
        have h2 := List.nodup_append.1 hnd1
        have h3 := List.nodup_append.1 h2.1
        exact h3.2.2 hmem (List.mem_singleton_self e)
      obtain ⟨h1, list1, hlink, herase, hO1, hframe⟩ := hs_link_spec hO ht hndO heO hwe
      have hdisj : ∀ a ∈ P1 ++ T1, a ∉ O := by
        intro a ha haO
        have h2 := List.nodup_append.1 hnd1
        exact h2.2.2 (List.mem_append_left _ haO) ha
      have hP1' : Seg nw h1 p1 P1 pe :=
        hframe _ _ _ (fun a ha => hdisj a (List.mem_append_left _ ha)) hP1
      have hT1' : Seg nw h1 q1 T1 none :=
        hframe _ _ _ (fun a ha => hdisj a (List.mem_append_right _ ha)) hT1
      have hc1 : ∀ a, count_of h1 a = c a := fun a => by
        rw [count_of_eq_of_erase_nw herase, hc]
      have hlast : some e = (O ++ [e]).getLast? := by simp
      obtain ⟨h2, q2, list2, x2, hrun, herase2, hq2, hlist2⟩ :=
        ih h1 p1 q1 list1 (some e) pe (nw we) qsize1 (O ++ [e]) P1 T1 hc1 hP1' hT1' hO1 hlast
          hnd1 (by omega)
      refine ⟨h2, q2, list2, x2, ?_, herase2.trans herase, ?_, ?_⟩
      · rw [hmerge]
        have : O ++ e :: List.merge P1 (List.take qsize1 T1) (cnt_ge c) =
            (O ++ [e]) ++ List.merge P1 (List.take qsize1 T1) (cnt_ge c) := by simp
        rw [this, ← hrun]
        simp only [hs_merge, hsel, hlink]
        rw [if_pos hcond]
      · rw [← hdrop]; exact hq2
      · rw [hmerge]
        simpa using hlist2
    · have hP0 : P = [] := by
        apply List.length_eq_zero.1
        by_contra hne
        exact hcond (Or.inl (by omega))
      subst hP0
      have hcq : ¬ (qsize > 0 ∧ q ≠ none) := fun hh => hcond (Or.inr hh)
      obtain ⟨htk, hdr⟩ := hs_merge_done hT hcq
      refine ⟨h, q, list, x, ?_, rfl, by rw [hdr]; exact hT, by rw [htk]; simpa using hO⟩
      rw [htk]
      simp only [hs_merge]
      rw [if_neg hcond]
      simp [ht]

theorem hs_pass_spec (c : Nat → Nat) (k : Nat) (hk : 0 < k) : ∀ (fuel : Nat) (h : Heap)
    (p list tail x : Option Nat) (nm : Nat) (O T : List Nat),
    (∀ a, count_of h a = c a) →
    Seg nw h p T none → Seg nw h list O x → tail = O.getLast? →
    (O ++ T).Nodup → T.length < fuel →
    ∃ h1 list1 x1 nm1,
      hs_pass k fuel h p list tail nm =
        some (h1, list1, (O ++ pass_list c k fuel T).getLast?, nm1) ∧
      erase_nw h1 = erase_nw h ∧ Seg nw h1 list1 (O ++ pass_list c k fuel T) x1 ∧
      nm ≤ nm1 ∧ (nm1 = nm ↔ T = []) ∧ (nm1 ≤ nm + 1 ↔ T.length ≤ k + k) := by
  intro fuel
  induction fuel with
  | zero => intro h p list tail x nm O T _ _ _ _ _ hf; omega
  | succ fuel ih =>
    intro h p list tail x nm O T hc hT hO ht hnd hf
    cases T with
    | nil =>
      have hp : p = none := hT
      subst hp
      refine ⟨h, list, x, nm, ?_, rfl, by simpa [pass_list] using hO, le_refl _, by simp, by simp⟩
      simp [hs_pass, pass_list, ht]
    | cons a T =>
      have hp : p = some a := hT.1
      subst hp
      obtain ⟨q, hadv, hPs, hTs⟩ := hs_advance_spec k 0 a (a :: T) hT
      have hpl : 0 + min k (a :: T).length = ((a :: T).take k).length := by
        rw [List.length_take]; omega
      rw [hpl] at hadv
      have hnd0 : (O ++ ((a :: T).take k ++ (a :: T).drop k)).Nodup := by
        rw [List.take_append_drop]; exact hnd
      obtain ⟨h1, q1, list1, x1, hmrg, herase1, hq1, hlist1⟩ :=
        hs_merge_spec c (((a :: T).take k).length + k) h (some a) q list tail q x k O
          ((a :: T).take k) ((a :: T).drop k) hc hPs hTs hO ht hnd0 (le_refl _)
      have hc1 : ∀ b, count_of h1 b = c b := fun b => by
        rw [count_of_eq_of_erase_nw herase1, hc]
      have hdd : ((a :: T).drop k).drop k = (a :: T).drop (k + k) := by
        rw [List.drop_drop]
      rw [hdd] at hq1
      have hperm : (O ++ (a :: T)).Perm
          ((O ++ List.merge ((a :: T).take k) (((a :: T).drop k).take k) (cnt_ge c)) ++
            (a :: T).drop (k + k)) := by
        rw [List.append_assoc]
        apply List.Perm.append_left
        have h1 : (a :: T) = (a :: T).take k ++ ((((a :: T).drop k).take k) ++
            (a :: T).drop (k + k)) := by
          rw [← hdd, List.take_append_drop, List.take_append_drop]
        conv_lhs => rw [h1]
        rw [← List.append_assoc]
        exact List.Perm.append_right _ (List.merge_perm_append _).symm
      have hnd1 := hperm.nodup_iff.1 hnd
      have hlen : ((a :: T).drop (k + k)).length < fuel := by
        rw [List.length_drop]
        simp only [List.length_cons] at hf ⊢
        omega
      obtain ⟨h2, list2, x2, nm2, hrun, herase2, hlist2, hnm1, hnm2, hnm3⟩ :=
        ih h1 q1 list1 _ x1 (nm + 1) _ ((a :: T).drop (k + k)) hc1 hq1 hlist1 rfl hnd1 hlen
      have hpass : O ++ pass_list c k (fuel + 1) (a :: T) =
          (O ++ List.merge ((a :: T).take k) (((a :: T).drop k).take k) (cnt_ge c)) ++
            pass_list c k fuel ((a :: T).drop (k + k)) := by
        simp [pass_list]
      refine ⟨h2, list2, x2, nm2, ?_, herase2.trans herase1, by rw [hpass]; exact hlist2,
        by omega, ?_, ?_⟩
      · rw [hpass, ← hrun]
        simp only [hs_pass, hadv, hmrg]
      · constructor
        · intro he; omega
        · intro he; simp at he
      · have hd : (a :: T).drop (k + k) = [] ↔ (a :: T).length ≤ k + k := List.drop_eq_nil_iff
        constructor
        · intro hle
          exact hd.1 (hnm2.1 (by omega))
        · intro hle
          have := hnm2.2 (hd.2 hle)
          omega

/-! ## The sort on lists -/

theorem cnt_ge_iff (c : Nat → Nat) (a b : Nat) : cnt_ge c a b = true ↔ c a ≥ c b := by
  simp [cnt_ge]

theorem pairwise_cnt_ge_iff (c : Nat → Nat) (l : List Nat) :
    l.Pairwise (fun a b => cnt_ge c a b = true) ↔ l.Pairwise (fun a b => c a ≥ c b) := by
  simp only [cnt_ge_iff]

theorem merge_sorted (c : Nat → Nat) {l1 l2 : List Nat}
    (h1 : l1.Pairwise (fun a b => c a ≥ c b)) (h2 : l2.Pairwise (fun a b => c a ≥ c b)) :
    (List.merge l1 l2 (cnt_ge c)).Pairwise (fun a b => c a ≥ c b) := by
  rw [← pairwise_cnt_ge_iff] at h1 h2 ⊢
  apply List.sorted_merge _ _ l1 l2 h1 h2
  · intro a b d hab hbd
    rw [cnt_ge_iff] at hab hbd ⊢
    omega
  · intro a b
    simp only [Bool.or_eq_true, cnt_ge_iff]
    omega

theorem merge_filter (c : Nat → Nat) (v : Nat) : ∀ (l1 l2 : List Nat),
    l1.Pairwise (fun a b => c a ≥ c b) →
    (List.merge l1 l2 (cnt_ge c)).filter (fun a => decide (c a = v)) =
      l1.filter (fun a => decide (c a = v)) ++ l2.filter (fun a => decide (c a = v))
  | [], l2, _ => by simp
  | l1, [], _ => by simp
  | a :: l1, b :: l2, h1 => by
    rw [List.cons_merge_cons]
    by_cases hab : c a ≥ c b
    · rw [if_pos ((cnt_ge_iff c a b).2 hab)]
      rw [List.filter_cons, merge_filter c v l1 (b :: l2) (List.Pairwise.of_cons h1)]
      by_cases hav : c a = v <;> simp [List.filter_cons, hav]
    · rw [if_neg (fun hh => hab ((cnt_ge_iff c a b).1 hh))]
      rw [List.filter_cons, merge_filter c v (a :: l1) l2 h1]
      by_cases hb : c b = v
      · have hnil : (a :: l1).filter (fun a => decide (c a = v)) = [] := by
          rw [List.filter_eq_nil_iff]
          intro x hx
          have : c a ≥ c x := by
            rcases List.mem_cons.1 hx with rfl | hx
            · exact le_refl _
            · exact List.rel_of_pairwise_cons h1 hx
          simp only [decide_eq_true_eq]
          omega
        rw [hnil]
        simp [hb]
      · simp [hb]

theorem Runs_one (c : Nat → Nat) (l : List Nat) : Runs c 1 l := by
  intro i
  have hlen : ((l.drop (i * 1)).take 1).length ≤ 1 := by
    rw [List.length_take]; omega
  match hl : (l.drop (i * 1)).take 1, hlen with
  | [], _ => exact List.Pairwise.nil
  | [x], _ => exact List.pairwise_singleton _ _
  | _ :: _ :: _, h => simp at h

theorem Runs_zero_block {c : Nat → Nat} {k : Nat} {l : List Nat} (h : Runs c k l) :
    (l.take k).Pairwise (fun a b => c a ≥ c b) := by
  simpa using h 0

theorem Runs_one_block {c : Nat → Nat} {k : Nat} {l : List Nat} (h : Runs c k l) :
    ((l.drop k).take k).Pairwise (fun a b => c a ≥ c b) := by
  simpa using h 1

theorem Runs_drop {c : Nat → Nat} {k : Nat} {l : List Nat} (h : Runs c k l) :
    Runs c k (l.drop (k + k)) := by
  intro i
  have := h (i + 2)
  rw [List.drop_drop]
  have he : (i + 2) * k = k + k + i * k := by ring
  rw [he] at this
  exact this

theorem Runs_block_append {c : Nat → Nat} {m : Nat} {M R : List Nat}
    (hM : M.Pairwise (fun a b => c a ≥ c b)) (hlen : M.length = m ∨ (M.length ≤ m ∧ R = []))
    (hR : Runs c m R) : Runs c m (M ++ R) := by
  intro i
  rcases hlen with hlen | ⟨hlen, hR0⟩
  · cases i with
    | zero =>
      simp only [Nat.zero_mul, List.drop_zero]
      rw [List.take_left' hlen]; exact hM
    | succ i =>
      have he : (i + 1) * m = M.length + i * m := by rw [hlen]; ring
      rw [he, List.drop_append]
      exact hR i
  · subst hR0
    rw [List.append_nil]
    exact (hM.sublist (List.drop_sublist _ _)).sublist (List.take_sublist _ _)

theorem pass_list_nil (c : Nat → Nat) (k fuel : Nat) : pass_list c k fuel [] = [] := by
  cases fuel <;> rfl

theorem pass_list_perm (c : Nat → Nat) (k : Nat) : ∀ (fuel : Nat) (l : List Nat),
    (pass_list c k fuel l).Perm l := by
  intro fuel
  induction fuel with
  | zero => intro l; exact List.Perm.refl _
  | succ fuel ih =>
    intro l
    cases l with
    | nil => exact List.Perm.refl _
    | cons a l =>
      have h1 : (a :: l) = ((a :: l).take k ++ ((a :: l).drop k).take k) ++
          (a :: l).drop (k + k) := by
        rw [List.append_assoc, ← List.drop_drop, List.take_append_drop, List.take_append_drop]
      conv_rhs => rw [h1]
      simp only [pass_list]
      exact List.Perm.append (List.merge_perm_append _) (ih _)

theorem pass_list_runs (c : Nat → Nat) (k : Nat) : ∀ (fuel : Nat) (l : List Nat),
    l.length ≤ fuel → Runs c k l → Runs c (k + k) (pass_list c k fuel l) := by
  intro fuel
  induction fuel with
  | zero =>
    intro l hl _
    have : l = [] := List.length_eq_zero.1 (by omega)
    subst this
    intro i; simp [pass_list]
  | succ fuel ih =>
    intro l hl hr
    cases l with
    | nil => intro i; simp [pass_list]
    | cons a l =>
      simp only [pass_list]
      by_cases hk : k = 0
      · subst hk
        intro i; simp
      have hlen2 : ((a :: l).drop (k + k)).length ≤ fuel := by
        rw [List.length_drop]; simp only [List.length_cons] at hl ⊢; omega
      apply Runs_block_append (merge_sorted c (Runs_zero_block hr) (Runs_one_block hr))
      · rw [List.length_merge, List.length_take, List.length_take, List.length_drop]
        by_cases hle : k + k ≤ (a :: l).length
        · left; omega
        · right
          refine ⟨by omega, ?_⟩
          have : (a :: l).drop (k + k) = [] := List.drop_eq_nil_iff.2 (by omega)
          rw [this, pass_list_nil]
      · exact ih _ hlen2 (Runs_drop hr)

theorem pass_list_filter (c : Nat → Nat) (k v : Nat) : ∀ (fuel : Nat) (l : List Nat),
    Runs c k l →
    (pass_list c k fuel l).filter (fun a => decide (c a = v)) =
      l.filter (fun a => decide (c a = v)) := by
  intro fuel
  induction fuel with
  | zero => intro l _; rfl
  | succ fuel ih =>
    intro l hr
    cases l with
    | nil => rfl
    | cons a l =>
      have h1 : (a :: l) = (a :: l).take k ++ (((a :: l).drop k).take k ++
          (a :: l).drop (k + k)) := by
        rw [← List.drop_drop, List.take_append_drop, List.take_append_drop]
      conv_rhs => rw [h1]
      simp only [pass_list, List.filter_append]
      rw [merge_filter c v _ _ (Runs_zero_block hr), ih _ (Runs_drop hr), List.append_assoc]

theorem pass_list_of_sorted (c : Nat → Nat) (k : Nat) : ∀ (fuel : Nat) (l : List Nat),
    l.Pairwise (fun a b => c a ≥ c b) → pass_list c k fuel l = l := by
  intro fuel
  induction fuel with
  | zero => intro l _; rfl
  | succ fuel ih =>
    intro l hs
    cases l with
    | nil => rfl
    | cons a l =>
      have h1 : (a :: l) = (a :: l).take k ++ (((a :: l).drop k).take k ++
          (a :: l).drop (k + k)) := by
        rw [← List.drop_drop, List.take_append_drop, List.take_append_drop]
      have hs1 := hs
      rw [h1] at hs1
      have hcross := (List.pairwise_append.1 hs1).2.2
      have hm : List.merge ((a :: l).take k) (((a :: l).drop k).take k) (cnt_ge c) =
          (a :: l).take k ++ ((a :: l).drop k).take k := by
        apply List.merge_of_le
        intro x y hx hy
        exact (cnt_ge_iff c x y).2 (hcross x hx y (List.mem_append_left _ hy))
      conv_rhs => rw [h1]
      simp only [pass_list]
      rw [hm, ih _ (hs.sublist (List.drop_sublist _ _)), List.append_assoc]

theorem Seg_head {nxt : word → Option Nat} {h : Heap} {l : List Nat} {p : Option Nat}
    (hs : Seg nxt h p l none) : p = l.head? := by
  cases l with
  | nil => exact hs
  | cons a l => exact hs.1

theorem Seg_close {h : Heap} {list x : Option Nat} {L : List Nat} {t : Nat}
    (hs : Seg nw h list L x) (hnd : L.Nodup) (ht : L.getLast? = some t) :
    ∃ wt, h[t]? = some wt ∧ Seg nw (h.set t (wt.set_next_w none)) list L none := by
  rcases List.eq_nil_or_concat L with hL | ⟨L1, t1, hL⟩
  · subst hL; simp at ht
  · rw [List.concat_eq_append] at hL
    subst hL
    rw [List.getLast?_concat] at ht
    have htt : t1 = t := Option.some.inj ht
    subst htt
    obtain ⟨m, hs1, hs2⟩ := (Seg_append _ _ _ _).1 hs
    obtain ⟨hm, wt, hwt, _⟩ := hs2
    have htL1 : t1 ∉ L1 := by
      intro hmem
      exact (List.nodup_append.1 hnd).2.2 hmem (List.mem_singleton_self t1)
    refine ⟨wt, hwt, ?_⟩
    rw [Seg_append]
    refine ⟨some t1, ?_, ?_⟩
    · rw [← hm]; exact Seg_set_of_not_mem _ htL1 hs1
    · exact ⟨rfl, _, get_set_self hwt, rfl⟩

theorem SortPost_of_pass {c : Nat → Nat} {l l1 l2 : List Nat} (p1 : l1.Perm l)
    (f1 : ∀ v, l1.filter (fun a => decide (c a = v)) = l.filter (fun a => decide (c a = v)))
    (i1 : l.Pairwise (fun a b => c a ≥ c b) → l1 = l)
    (h2 : SortPost c l1 l2) : SortPost c l l2 := by
  obtain ⟨p2, s2, f2, i2⟩ := h2
  refine ⟨p2.trans p1, s2, fun v => (f2 v).trans (f1 v), ?_⟩
  intro hs
  have e1 := i1 hs
  subst e1
  exact i2 hs

theorem hs_loop_spec (c : Nat → Nat) (s : State) (tbl : hash_table) (hst : s.table = some tbl) :
    ∀ (fuel : Nat) (h : Heap) (list : Option Nat) (k : Nat) (L : List Nat),
    0 < k → (∀ a, count_of h a = c a) → Seg nw h list L none → L ≠ [] → Runs c k L →
    L.length ≤ k * 2 ^ fuel → 0 < fuel →
    ∃ h1 L1, hs_loop s fuel h list k =
        some { s with heap := h1, table := some { tbl with tail := L1.getLast? },
                      word_table := L1.head? } ∧
      erase_nw h1 = erase_nw h ∧ Seg nw h1 L1.head? L1 none ∧ SortPost c L L1 := by
  intro fuel
  induction fuel with
  | zero => intro h list k L _ _ _ _ _ _ hf; omega
  | succ fuel ih =>
    intro h list k L hk hc hL hne hr hlen _
    have hnd : L.Nodup := Seg_nodup hL
    have hlt : L.length < h.length + 1 := Nat.lt_succ_of_le (Seg_length_le hL)
    obtain ⟨h1, list1, x1, nm1, hrun, herase1, hlist1, _, _, hnm⟩ :=
      hs_pass_spec c k hk (h.length + 1) h list none none none 0 [] L hc hL rfl rfl
        (by simpa using hnd) hlt
    simp only [List.nil_append] at hrun hlist1
    have hperm := pass_list_perm c k (h.length + 1) L
    have hnd1 : (pass_list c k (h.length + 1) L).Nodup := hperm.nodup_iff.2 hnd
    have hne1 : pass_list c k (h.length + 1) L ≠ [] := by
      intro he; rw [he] at hperm; exact hne hperm.symm.eq_nil
    obtain ⟨t, ht⟩ : ∃ t, (pass_list c k (h.length + 1) L).getLast? = some t := by
      cases hg : (pass_list c k (h.length + 1) L).getLast? with
      | none => exact absurd (List.getLast?_eq_none_iff.1 hg) hne1
      | some t => exact ⟨t, rfl⟩
    obtain ⟨wt, hwt, hclosed⟩ := Seg_close hlist1 hnd1 ht
    have hhead := Seg_head hclosed
    have herase2 : erase_nw (h1.set t (wt.set_next_w none)) = erase_nw h :=
      (erase_nw_set none hwt).trans herase1
    have hruns := pass_list_runs c k (h.length + 1) L (by omega) hr
    by_cases hdone : nm1 ≤ 1
    · have hshort : L.length ≤ k + k := hnm.1 (by omega)
      refine ⟨h1.set t (wt.set_next_w none), pass_list c k (h.length + 1) L, ?_, herase2,
        by rw [← hhead]; exact hclosed, hperm, ?_, ?_, ?_⟩
      · simp only [hs_loop, hrun, ht, modify_of_get _ hwt, hst]
        rw [if_pos hdone, hhead]
      · have := hruns 0
        simp only [Nat.zero_mul, List.drop_zero] at this
        rw [List.take_of_length_le (by rw [hperm.length_eq]; exact hshort)] at this
        exact this
      · intro v; exact pass_list_filter c k v _ L hr
      · intro hs; exact pass_list_of_sorted c k _ L hs
    · have hlong : ¬ L.length ≤ k + k := fun hh => hdone (by have := hnm.2 hh; omega)
      have hfuel : 0 < fuel := by
        by_contra h0
        have : fuel = 0 := by omega
        subst this
        simp at hlen
        omega
      have hc2 : ∀ a, count_of (h1.set t (wt.set_next_w none)) a = c a := fun a => by
        rw [count_of_eq_of_erase_nw herase2, hc]
      have hkk : k * 2 = k + k := by ring
      have hlen2 : (pass_list c k (h.length + 1) L).length ≤ k * 2 * 2 ^ fuel := by
        rw [hperm.length_eq]
        calc L.length ≤ k * 2 ^ (fuel + 1) := hlen
          _ = k * 2 * 2 ^ fuel := by ring
      obtain ⟨h3, L3, hrun3, herase3, hseg3, hpost3⟩ :=
        ih (h1.set t (wt.set_next_w none)) list1 (k * 2) (pass_list c k (h.length + 1) L)
          (by omega) hc2 hclosed hne1 (by rw [hkk]; exact hruns) hlen2 hfuel
      refine ⟨h3, L3, ?_, herase3.trans herase2, hseg3, ?_⟩
      · simp only [hs_loop, hrun, ht, modify_of_get _ hwt]
        rw [if_neg hdone]
        exact hrun3
      · exact SortPost_of_pass hperm (fun v => pass_list_filter c k v _ L hr)
          (fun hs => pass_list_of_sorted c k _ L hs) hpost3

/-! ## Iteration -/

theorem iter_loop_of_seg {s : State} {hd : Nat} (hwt : s.word_table = some hd) :
    ∀ (L : List Nat) (fuel : Nat) (p : Option Nat),
    Seg nw s.heap p L none → L.length < fuel → iter_loop s fuel p = some L := by
  intro L
  induction L with
  | nil =>
    intro fuel p hs hf
    have hp : p = none := hs
    subst hp
    obtain ⟨n, rfl⟩ : ∃ n, fuel = n + 1 := ⟨fuel - 1, by omega⟩
    rfl
  | cons a L ih =>
    intro fuel p hs hf
    obtain ⟨hp, w, hw, hrest⟩ := hs
    subst hp
    obtain ⟨n, rfl⟩ : ∃ n, fuel = n + 1 := ⟨fuel - 1, by omega⟩
    have hf1 : L.length < n := by simp only [List.length_cons] at hf; omega
    simp only [iter_loop, hash_get_next, hwt, hw]
    rw [show w.hh.next_w = nw w from rfl, ih n (nw w) hrest hf1]
    rfl

theorem seg_of_iter_loop {s : State} {hd : Nat} (hwt : s.word_table = some hd) :
    ∀ (fuel : Nat) (p : Option Nat) (L : List Nat),
    iter_loop s fuel p = some L → Seg nw s.heap p L none := by
  intro fuel
  induction fuel with
  | zero => intro p L h; simp [iter_loop] at h
  | succ n ih =>
    intro p L h
    cases p with
    | none =>
      simp only [iter_loop, Option.some.injEq] at h
      subst h; rfl
    | some a =>
      simp only [iter_loop, hash_get_next, hwt] at h
      cases hw : s.heap[a]? with
      | none => simp [hw] at h
      | some w =>
        simp only [hw] at h
        cases hr : iter_loop s n w.hh.next_w with
        | none => simp [hr] at h
        | some l =>
          simp only [hr, Option.map_some', Option.some.injEq] at h
          subst h
          exact ⟨rfl, w, hw, ih _ _ hr⟩

theorem hash_iter_of_seg {s : State} {L : List Nat} (hs : Seg nw s.heap s.word_table L none) :
    hash_iter s = some L := by
  cases hwt : s.word_table with
  | none =>
    rw [hwt] at hs
    have : L = [] := Seg_none_nil hs
    subst this
    simp [hash_iter, hash_get_next, hwt, iter_loop]
  | some hd =>
    simp only [hash_iter, hash_get_next, hwt]
    rw [hwt] at hs
    exact iter_loop_of_seg hwt L _ _ hs (Nat.lt_succ_of_le (Seg_length_le hs))

theorem seg_of_hash_iter {s : State} {L : List Nat} (hit : hash_iter s = some L) :
    Seg nw s.heap s.word_table L none := by
  cases hwt : s.word_table with
  | none =>
    simp only [hash_iter, hash_get_next, hwt, iter_loop, Option.some.injEq] at hit
    subst hit; rfl
  | some hd =>
    simp only [hash_iter, hash_get_next, hwt] at hit
    exact seg_of_iter_loop hwt _ _ _ hit

theorem hash_iter_nil_iff {s : State} : hash_iter s = some [] ↔ s.word_table = none := by
  constructor
  · intro h
    exact seg_of_hash_iter h
  · intro h
    apply hash_iter_of_seg
    rw [h]; rfl

/-! ## Function hash_sort -/

theorem key_of_eq_of_erase_nw {h h1 : Heap} (he : erase_nw h1 = erase_nw h) (a : Nat) :
    key_of h1 a = key_of h a := by
  have e : ∀ g : Heap, key_of (erase_nw g) a = key_of g a := by
    intro g
    simp only [key_of, erase_nw, List.getElem?_map]
    cases g[a]? <;> simp [word.set_next_w]
  rw [← e h1, he, e]

theorem hash_sort_spec {s : State} {L : List Nat} {tbl : hash_table}
    (hit : hash_iter s = some L) (hne : L ≠ []) (hst : s.table = some tbl) :
    ∃ s1 L1, hash_sort s = some s1 ∧
      erase_nw s1.heap = erase_nw s.heap ∧ Seg nw s1.heap s1.word_table L1 none ∧
      SortPost (count_of s.heap) L L1 ∧
      s1 = { s with heap := s1.heap, table := some { tbl with tail := L1.getLast? },
                    word_table := L1.head? } := by
  have hseg := seg_of_hash_iter hit
  cases hwt : s.word_table with
  | none => exact absurd (Seg_none_nil (hwt ▸ hseg)) hne
  | some hd =>
    have hlen : L.length ≤ 1 * 2 ^ (s.heap.length + 1) := by
      have h1 := Seg_length_le hseg
      have h2 : s.heap.length + 1 < 2 ^ (s.heap.length + 1) := Nat.lt_two_pow _
      omega
    rw [hwt] at hseg
    obtain ⟨h1, L1, hrun, herase, hseg1, hpost⟩ :=
      hs_loop_spec (count_of s.heap) s tbl hst (s.heap.length + 1) s.heap (some hd) 1 L
        (by omega) (fun _ => rfl) hseg hne (Runs_one _ _) hlen (by omega)
    exact ⟨_, L1, by simp only [hash_sort, hwt]; exact hrun, herase, hseg1, hpost, rfl⟩

theorem hash_sort_empty {s : State} (hit : hash_iter s = some []) : hash_sort s = some s := by
  have := hash_iter_nil_iff.1 hit
  simp [hash_sort, this]

/-! ## Buckets -/

theorem hash_get_index_lt (x c : Nat) (h1 : 1 ≤ c) (h2 : c ≤ ULONG_MOD) :
    hash_get_index x c < c := by
  unfold hash_get_index
  have e : (c + ULONG_MOD - 1) % ULONG_MOD = c - 1 := by
    have : c + ULONG_MOD - 1 = (c - 1) + ULONG_MOD := by omega
    rw [this, Nat.add_mod_right, Nat.mod_eq_of_lt]
    omega
  rw [e]
  have := @Nat.and_le_right x (c - 1)
  omega

theorem IsPow2Cap.pos {c : Nat} (h : IsPow2Cap c) : 1 ≤ c := by
  obtain ⟨j, hj, _⟩ := h
  rw [hj]; exact Nat.one_le_two_pow

theorem IsPow2Cap.le_ulong {c : Nat} (h : IsPow2Cap c) : c ≤ ULONG_MOD := by
  obtain ⟨j, _, hle⟩ := h
  unfold BUCKET_NUM_MAX at hle
  unfold ULONG_MOD
  omega

theorem IsPow2Cap.double {c : Nat} (h : IsPow2Cap c) (hlt : c < BUCKET_NUM_MAX) :
    IsPow2Cap (c * 2) := by
  obtain ⟨j, hj, hle⟩ := h
  refine ⟨j + 1, by rw [hj, pow_succ], ?_⟩
  have hmax : BUCKET_NUM_MAX = 2 ^ 21 := by unfold BUCKET_NUM_MAX; norm_num
  rw [hmax] at hlt ⊢
  rw [hj] at hlt ⊢
  have hj21 : j < 21 := (Nat.pow_lt_pow_iff_right (by norm_num)).1 hlt
  calc 2 ^ j * 2 = 2 ^ (j + 1) := by rw [pow_succ]
    _ ≤ 2 ^ 21 := Nat.pow_le_pow_right (by norm_num) (by omega)

theorem get_of_erase_nx_eq {h h1 : Heap} (he : erase_nx h1 = erase_nx h) {a : Nat} {w : word}
    (hw : h[a]? = some w) : ∃ w1, h1[a]? = some w1 ∧ w1.set_next none = w.set_next none := by
  have := congrArg (fun g : Heap => g[a]?) he
  simp only [erase_nx, List.getElem?_map, hw, Option.map_some'] at this
  cases h1a : h1[a]? with
  | none => simp [h1a] at this
  | some w1 => exact ⟨w1, rfl, by simpa [h1a] using this⟩

theorem erase_nx_set {h : Heap} {t : Nat} {w : word} (x : Option Nat) (hw : h[t]? = some w) :
    erase_nx (h.set t (w.set_next x)) = erase_nx h := by
  apply List.ext_getElem?
  intro i
  simp only [erase_nx, List.getElem?_map, List.getElem?_set]
  by_cases hi : t = i
  · subst hi
    have hlt : t < h.length := (List.getElem?_eq_some_iff.1 hw).1
    simp [hlt, hw, word.set_next]
  · simp [hi]

theorem set_next_none_fields {w w1 : word} (h : w1.set_next none = w.set_next none) :
    w1.key = w.key ∧ w1.count = w.count ∧ w1.hh.next_w = w.hh.next_w ∧
    w1.hh.hash = w.hh.hash ∧ w1.hh.keylen = w.hh.keylen := by
  cases w with
  | mk k c hh =>
    cases w1 with
    | mk k1 c1 hh1 =>
      cases hh; cases hh1
      simp only [word.set_next, word.mk.injEq, hash_handle.mk.injEq] at h
      simp [h.1, h.2.1, h.2.2.2]

theorem hash_of_eq_of_erase_nx {h h1 : Heap} (he : erase_nx h1 = erase_nx h) :
    hash_of h1 = hash_of h := by
  funext a
  cases hw : h[a]? with
  | none =>
    have hlen : h1.length = h.length := by simpa [erase_nx] using congrArg List.length he
    have : h1[a]? = none := by
      rw [List.getElem?_eq_none_iff] at hw ⊢; omega
    simp [hash_of, hw, this]
  | some w =>
    obtain ⟨w1, hw1, hf⟩ := get_of_erase_nx_eq he hw
    simp [hash_of, hw, hw1, (set_next_none_fields hf).2.2.2.1]

theorem Seg_nw_of_erase_nx {h h1 : Heap} (he : erase_nx h1 = erase_nx h) {p q : Option Nat}
    {l : List Nat} (hs : Seg nw h p l q) : Seg nw h1 p l q := by
  refine Seg_congr ?_ hs
  intro a _ w hw
  obtain ⟨w1, hw1, hf⟩ := get_of_erase_nx_eq he hw
  exact ⟨w1, hw1, (set_next_none_fields hf).2.2.1⟩

theorem BucketsOK_congr {H : Nat → Nat} {h : Heap} {bs : List hash_bucket} {cnt : Nat}
    {S S1 : Nat → Prop} (hS : ∀ a, S a ↔ S1 a) (hok : BucketsOK H h bs cnt S) :
    BucketsOK H h bs cnt S1 := by
  refine ⟨hok.1, ?_⟩
  intro i b hb
  obtain ⟨C, hC, hn, hm⟩ := hok.2 i b hb
  exact ⟨C, hC, hn, fun a => by rw [hm a, hS a]⟩

theorem bucket_push {H : Nat → Nat} {h : Heap} {bs : List hash_bucket} {cnt : Nat}
    {S : Nat → Prop} {e idx : Nat} {w : word} {b : hash_bucket}
    (hok : BucketsOK H h bs cnt S) (hS : ¬ S e) (hw : h[e]? = some w)
    (hidx : hash_get_index (H e) cnt = idx) (hb : bs[idx]? = some b) (x : Nat) :
    BucketsOK H (h.set e (w.set_next b.head))
      (bs.set idx { head := some e, num := b.num + 1, noexpand := x }) cnt
      (fun a => S a ∨ a = e) := by
  refine ⟨by rw [List.length_set]; exact hok.1, ?_⟩
  intro i b1 hb1
  have hidxlt : idx < bs.length := (List.getElem?_eq_some_iff.1 hb).1
  by_cases hi : idx = i
  · subst hi
    simp only [List.getElem?_set, hidxlt, if_true, Option.some.injEq] at hb1
    subst hb1
    obtain ⟨C, hC, hn, hm⟩ := hok.2 idx b hb
    have heC : e ∉ C := fun hmem => hS ((hm e).1 hmem).1
    refine ⟨e :: C, ⟨rfl, _, get_set_self hw, Seg_set_of_not_mem _ heC hC⟩, by simp [hn], ?_⟩
    intro a
    simp only [List.mem_cons, hm a]
    constructor
    · rintro (rfl | ⟨hSa, hia⟩)
      · exact ⟨Or.inr rfl, hidx⟩
      · exact ⟨Or.inl hSa, hia⟩
    · rintro ⟨hSa | rfl, hia⟩
      · exact Or.inr ⟨hSa, hia⟩
      · exact Or.inl rfl
  · rw [List.getElem?_set, if_neg hi] at hb1
    obtain ⟨C, hC, hn, hm⟩ := hok.2 i b1 hb1
    have heC : e ∉ C := fun hmem => hS ((hm e).1 hmem).1
    refine ⟨C, Seg_set_of_not_mem _ heC hC, hn, ?_⟩
    intro a
    rw [hm a]
    constructor
    · rintro ⟨hSa, hia⟩; exact ⟨Or.inl hSa, hia⟩
    · rintro ⟨hSa | rfl, hia⟩
      · exact ⟨hSa, hia⟩
      · exact absurd (hidx.symm.trans hia) hi

/-! ## Function hash_expand_buckets -/

theorem hash_of_get {h : Heap} {a : Nat} {w : word} (hw : h[a]? = some w) :
    hash_of h a = w.hh.hash := by
  simp [hash_of, hw]

theorem rehash_chain_spec (H : Nat → Nat) (c c2 : Nat) (hc2 : (c * 2) % ULONG_MOD = c2)
    (hbound : ∀ x, hash_get_index x c2 < c2) :
    ∀ (R : List Nat) (fuel : Nat) (h : Heap) (nb : List hash_bucket) (chh : Option Nat)
      (S : Nat → Prop),
    hash_of h = H → BucketsOK H h nb c2 S → Seg nx h chh R none → (∀ a ∈ R, ¬ S a) →
    R.length < fuel →
    ∃ h1 nb1, rehash_chain c fuel h nb chh = some (h1, nb1) ∧ erase_nx h1 = erase_nx h ∧
      BucketsOK H h1 nb1 c2 (fun a => S a ∨ a ∈ R) ∧ (∀ a, a ∉ R → h1[a]? = h[a]?) := by
  intro R
  induction R with
  | nil =>
    intro fuel h nb chh S _ hok hR _ hf
    have hp : chh = none := hR
    subst hp
    obtain ⟨n, rfl⟩ : ∃ n, fuel = n + 1 := ⟨fuel - 1, by omega⟩
    exact ⟨h, nb, rfl, rfl, BucketsOK_congr (fun a => by simp) hok, fun _ _ => rfl⟩
  | cons e R ih =>
    intro fuel h nb chh S hH hok hR hS hf
    have hnd := Seg_nodup hR
    obtain ⟨hp, w, hw, hrest⟩ := hR
    subst hp
    obtain ⟨n, rfl⟩ : ∃ n, fuel = n + 1 := ⟨fuel - 1, by omega⟩
    have heR : e ∉ R := (List.nodup_cons.1 hnd).1
    have hHe : H e = w.hh.hash := by rw [← hH]; exact hash_of_get hw
    have hidx : hash_get_index (H e) c2 < nb.length := by rw [hok.1]; exact hbound _
    obtain ⟨b, hb⟩ : ∃ b, nb[hash_get_index (H e) c2]? = some b :=
      ⟨nb[hash_get_index (H e) c2], List.getElem?_eq_getElem hidx⟩
    have hpush := bucket_push hok (hS e (List.mem_cons_self _ _)) hw rfl hb
      (if b.num + 1 ≥ BUCKET_NUM_TRESH then 1 else b.noexpand)
    have herase := erase_nx_set b.head hw
    have hH1 : hash_of (h.set e (w.set_next b.head)) = H := by
      rw [hash_of_eq_of_erase_nx herase]; exact hH
    have hrest1 : Seg nx (h.set e (w.set_next b.head)) (nx w) R none :=
      Seg_set_of_not_mem _ heR hrest
    have hS1 : ∀ a ∈ R, ¬ (S a ∨ a = e) := by
      intro a ha hh
      rcases hh with hh | hh
      · exact hS a (List.mem_cons_of_mem _ ha) hh
      · exact heR (hh ▸ ha)
    obtain ⟨h2, nb2, hrun, herase2, hok2, hframe2⟩ :=
      ih n _ _ (nx w) _ hH1 hpush hrest1 hS1 (by simp only [List.length_cons] at hf; omega)
    refine ⟨h2, nb2, ?_, herase2.trans herase, ?_, ?_⟩
    · simp only [rehash_chain, hw, hc2, ← hHe, hb]
      exact hrun
    · refine BucketsOK_congr ?_ hok2
      intro a
      simp only [List.mem_cons]
      tauto
    · intro a ha
      have hae : a ≠ e := fun hh => ha (hh ▸ List.mem_cons_self _ _)
      have haR : a ∉ R := fun hh => ha (List.mem_cons_of_mem _ hh)
      rw [hframe2 a haR, get_set_ne _ hae]

theorem rehash_buckets_spec (H : Nat → Nat) (L : List Nat) (old : List hash_bucket)
    (c c2 : Nat) (hc2 : (c * 2) % ULONG_MOD = c2) (hbound : ∀ x, hash_get_index x c2 < c2)
    (hold : old.length = c) :
    ∀ (n bkt_i : Nat) (h : Heap) (nb : List hash_bucket),
    bkt_i + n = c → hash_of h = H →
    (∀ i b, bkt_i ≤ i → old[i]? = some b →
      ∃ C, Seg nx h b.head C none ∧ ∀ a, a ∈ C ↔ (a ∈ L ∧ hash_get_index (H a) c = i)) →
    BucketsOK H h nb c2 (fun a => a ∈ L ∧ hash_get_index (H a) c < bkt_i) →
    ∃ h1 nb1, rehash_buckets old c n bkt_i h nb = some (h1, nb1) ∧
      erase_nx h1 = erase_nx h ∧
      BucketsOK H h1 nb1 c2 (fun a => a ∈ L ∧ hash_get_index (H a) c < c) := by
  intro n
  induction n with
  | zero =>
    intro bkt_i h nb hsum _ _ hok
    have : bkt_i = c := by omega
    subst this
    exact ⟨h, nb, rfl, rfl, hok⟩
  | succ n ih =>
    intro bkt_i h nb hsum hH hchains hok
    have hlt : bkt_i < old.length := by omega
    obtain ⟨b, hb⟩ : ∃ b, old[bkt_i]? = some b := ⟨old[bkt_i], List.getElem?_eq_getElem hlt⟩
    obtain ⟨C, hC, hmem⟩ := hchains bkt_i b (le_refl _) hb
    have hSC : ∀ a ∈ C, ¬ (a ∈ L ∧ hash_get_index (H a) c < bkt_i) := by
      intro a ha hh
      have := ((hmem a).1 ha).2
      omega
    obtain ⟨h1, nb1, hrun, herase, hok1, hframe⟩ :=
      rehash_chain_spec H c c2 hc2 hbound C (h.length + 1) h nb b.head _ hH hok hC hSC
        (Nat.lt_succ_of_le (Seg_length_le hC))
    have hH1 : hash_of h1 = H := by rw [hash_of_eq_of_erase_nx herase]; exact hH
    have hchains1 : ∀ i b, bkt_i + 1 ≤ i → old[i]? = some b →
        ∃ C, Seg nx h1 b.head C none ∧ ∀ a, a ∈ C ↔ (a ∈ L ∧ hash_get_index (H a) c = i) := by
      intro i b1 hi hb1
      obtain ⟨C1, hC1, hmem1⟩ := hchains i b1 (by omega) hb1
      refine ⟨C1, Seg_congr ?_ hC1, hmem1⟩
      intro a ha w hw
      have haC : a ∉ C := by
        intro hh
        have e1 := ((hmem a).1 hh).2
        have e2 := ((hmem1 a).1 ha).2
        omega
      exact ⟨w, by rw [hframe a haC]; exact hw, rfl⟩
    have hok1' : BucketsOK H h1 nb1 c2
        (fun a => a ∈ L ∧ hash_get_index (H a) c < bkt_i + 1) := by
      refine BucketsOK_congr ?_ hok1
      intro a
      rw [hmem a]
      constructor
      · rintro (⟨hL, hlt⟩ | ⟨hL, heq⟩)
        · exact ⟨hL, by omega⟩
        · exact ⟨hL, by omega⟩
      · rintro ⟨hL, hlt⟩
        by_cases heq : hash_get_index (H a) c = bkt_i
        · exact Or.inr ⟨hL, heq⟩
        · exact Or.inl ⟨hL, by omega⟩
    obtain ⟨h2, nb2, hrun2, herase2, hok2⟩ :=
      ih (bkt_i + 1) h1 nb1 (by omega) hH1 hchains1 hok1'
    refine ⟨h2, nb2, ?_, herase2.trans herase, hok2⟩
    simp only [rehash_buckets, hb, hrun]
    exact hrun2

theorem mul_two_mod_ulong {c : Nat} (h : IsPow2Cap c) : (c * 2) % ULONG_MOD = c * 2 := by
  obtain ⟨j, _, hle⟩ := h
  apply Nat.mod_eq_of_lt
  unfold BUCKET_NUM_MAX at hle
  unfold ULONG_MOD
  omega

theorem BucketsOK_replicate (H : Nat → Nat) (h : Heap) (n c : Nat) (L : List Nat) :
    BucketsOK H h (List.replicate n empty_bucket) n
      (fun a => a ∈ L ∧ hash_get_index (H a) c < 0) := by
  refine ⟨List.length_replicate _ _, ?_⟩
  intro i b hb
  have hbe : b = empty_bucket := by
    rw [List.getElem?_replicate] at hb
    split at hb
    · exact (Option.some.inj hb).symm
    · exact absurd hb (by simp)
  subst hbe
  exact ⟨[], rfl, rfl, fun a => by simp⟩

theorem hash_expand_buckets_spec {s : State} {L : List Nat} (hL : L ≠ []) (hok : TableOK s L) :
    ∃ s1, hash_expand_buckets s = some s1 ∧ TableOK s1 L ∧
      erase_nx s1.heap = erase_nx s.heap ∧
      s1 = { s with heap := s1.heap, table := s1.table, FLAG_EXPAND := s1.FLAG_EXPAND } := by
  obtain ⟨hbic, hseg, htab⟩ := hok
  obtain ⟨t, hst, htail, hnum, hcap, hbk⟩ := htab hL
  by_cases hmax : t.count ≥ BUCKET_NUM_MAX
  · refine ⟨{ s with FLAG_EXPAND := 0 }, ?_, ⟨hbic, hseg, fun _ => ⟨t, hst, htail, hnum, hcap, hbk⟩⟩,
      rfl, rfl⟩
    simp only [hash_expand_buckets, hst]
    rw [if_pos hmax]
  · have hlt : t.count < BUCKET_NUM_MAX := by omega
    have hcap2 := hcap.double hlt
    have hmod := mul_two_mod_ulong hcap
    have hmod2 : (2 * t.count) % ULONG_MOD = t.count * 2 := by rw [Nat.mul_comm]; exact hmod
    have hnot : ¬ (t.count * 2 > BUCKET_NUM_MAX) := by
      obtain ⟨j, _, hle⟩ := hcap2
      omega
    have hbound : ∀ x, hash_get_index x (t.count * 2) < t.count * 2 :=
      fun x => hash_get_index_lt x _ hcap2.pos hcap2.le_ulong
    have hchains : ∀ i b, 0 ≤ i → t.buckets[i]? = some b →
        ∃ C, Seg nx s.heap b.head C none ∧
          ∀ a, a ∈ C ↔ (a ∈ L ∧ hash_get_index (hash_of s.heap a) t.count = i) := by
      intro i b _ hb
      obtain ⟨C, hC, _, hm⟩ := hbk.2 i b hb
      exact ⟨C, hC, hm⟩
    obtain ⟨h1, nb1, hrun, herase, hok1⟩ :=
      rehash_buckets_spec (hash_of s.heap) L t.buckets t.count (t.count * 2) hmod hbound hbk.1
        t.count 0 s.heap (List.replicate (t.count * 2) empty_bucket) (by omega) rfl hchains
        (BucketsOK_replicate _ _ _ _ _)
    have ht1 : ∃ t1 : hash_table, t1 = { t with count := (t.count * 2) % ULONG_MOD,
                                                 buckets := nb1 } := ⟨_, rfl⟩
    obtain ⟨t1, ht1⟩ := ht1
    refine ⟨{ s with heap := h1, table := some t1 }, ?_, ?_, herase, rfl⟩
    · simp only [hash_expand_buckets, hst, hmod2]
      rw [if_neg hnot, if_neg hmax, hrun, ht1]
    · subst ht1
      refine ⟨hbic, Seg_nw_of_erase_nx herase hseg, fun _ => ⟨_, rfl, htail, hnum, ?_, ?_⟩⟩
      · show IsPow2Cap ((t.count * 2) % ULONG_MOD)
        rw [hmod]; exact hcap2
      · show BucketsOK (hash_of h1) h1 nb1 ((t.count * 2) % ULONG_MOD) (fun a => a ∈ L)
        rw [hmod, hash_of_eq_of_erase_nx herase]
        refine BucketsOK_congr ?_ hok1
        intro a
        have := hash_get_index_lt (hash_of s.heap a) t.count hcap.pos hcap.le_ulong
        constructor
        · rintro ⟨hm, _⟩; exact hm
        · intro hm; exact ⟨hm, this⟩

/-! ## Function hash_add_to_bkt -/

theorem info_of_eq_of_erase_nx {h h1 : Heap} (he : erase_nx h1 = erase_nx h) (a : Nat) :
    info_of h1 a = info_of h a := by
  cases hw : h[a]? with
  | none =>
    have hlen : h1.length = h.length := by simpa [erase_nx] using congrArg List.length he
    have : h1[a]? = none := by
      rw [List.getElem?_eq_none_iff] at hw ⊢; omega
    simp [info_of, hw, this]
  | some w =>
    obtain ⟨w1, hw1, hf⟩ := get_of_erase_nx_eq he hw
    obtain ⟨f1, f2, _, f4, f5⟩ := set_next_none_fields hf
    simp [info_of, hw, hw1, f1, f2, f4, f5]

theorem BucketsOK_frame {H H1 : Nat → Nat} {h h1 : Heap} {bs : List hash_bucket} {cnt : Nat}
    {S : Nat → Prop}
    (hfr : ∀ a, S a → ∀ w, h[a]? = some w → ∃ w1, h1[a]? = some w1 ∧ nx w1 = nx w)
    (hH : ∀ a, S a → H1 a = H a) (hok : BucketsOK H h bs cnt S) :
    BucketsOK H1 h1 bs cnt S := by
  refine ⟨hok.1, ?_⟩
  intro i b hb
  obtain ⟨C, hC, hn, hm⟩ := hok.2 i b hb
  refine ⟨C, Seg_congr (fun a ha => hfr a ((hm a).1 ha).1) hC, hn, ?_⟩
  intro a
  rw [hm a]
  constructor
  · rintro ⟨hS, hi⟩; exact ⟨hS, by rw [hH a hS]; exact hi⟩
  · rintro ⟨hS, hi⟩; exact ⟨hS, by rw [← hH a hS]; exact hi⟩

theorem hash_add_to_bkt_spec {s : State} {t : hash_table} {L : List Nat} {item : Nat}
    {w : word}
    (hbic : IsPow2Cap s.BUCKET_INIT_COUNT) (hst : s.table = some t)
    (hcap : IsPow2Cap t.count)
    (hbk : BucketsOK (hash_of s.heap) s.heap t.buckets t.count (fun a => a ∈ L))
    (hseg : Seg nw s.heap s.word_table (L ++ [item]) none)
    (htail : t.tail = some item) (hnum : t.num = L.length + 1)
    (hitem : item ∉ L) (hw : s.heap[item]? = some w) :
    ∃ s1, hash_add_to_bkt s (hash_get_index w.hh.hash t.count) item = some s1 ∧
      TableOK s1 (L ++ [item]) ∧ erase_nx s1.heap = erase_nx s.heap ∧
      s1 = { s with heap := s1.heap, table := s1.table, FLAG_EXPAND := s1.FLAG_EXPAND } := by
  have hidx : hash_get_index w.hh.hash t.count < t.buckets.length := by
    rw [hbk.1]; exact hash_get_index_lt _ _ hcap.pos hcap.le_ulong
  obtain ⟨b, hb⟩ : ∃ b, t.buckets[hash_get_index w.hh.hash t.count]? = some b :=
    ⟨_, List.getElem?_eq_getElem hidx⟩
  have hHe : hash_get_index (hash_of s.heap item) t.count =
      hash_get_index w.hh.hash t.count := by rw [hash_of_get hw]
  have hpush := bucket_push hbk hitem hw hHe hb b.noexpand
  have herase := erase_nx_set b.head hw
  obtain ⟨b1, hb1⟩ : ∃ b1 : hash_bucket, b1 = { b with num := b.num + 1, head := some item } :=
    ⟨_, rfl⟩
  obtain ⟨t1, ht1⟩ : ∃ t1 : hash_table, t1 =
      { t with buckets := t.buckets.set (hash_get_index w.hh.hash t.count) b1 } := ⟨_, rfl⟩
  obtain ⟨s2, hs2⟩ : ∃ s2 : State, s2 =
      { s with heap := s.heap.set item (w.set_next b.head), table := some t1 } := ⟨_, rfl⟩
  have hne : L ++ [item] ≠ [] := by simp
  have hok2 : TableOK s2 (L ++ [item]) := by
    subst hs2 ht1 hb1
    refine ⟨hbic, Seg_nw_of_erase_nx herase hseg, fun _ => ⟨_, rfl, ?_, ?_, hcap, ?_⟩⟩
    · simp [htail]
    · simp [hnum]
    · show BucketsOK (hash_of (s.heap.set item (w.set_next b.head))) _ _ t.count _
      rw [hash_of_eq_of_erase_nx herase]
      refine BucketsOK_congr ?_ hpush
      intro a; simp
  by_cases hexp : b.num + 1 ≥ BUCKET_NUM_TRESH ∧ b.noexpand = 0 ∧ s.FLAG_EXPAND ≠ 0
  · obtain ⟨s3, hrun, hok3, herase3, hs3⟩ := hash_expand_buckets_spec hne hok2
    refine ⟨s3, ?_, hok3, ?_, ?_⟩
    · simp only [hash_add_to_bkt, hst, hb, hw]
      rw [if_pos hexp, ← hb1, ← ht1, ← hs2]
      exact hrun
    · rw [herase3, hs2]; exact herase
    · rw [hs3, hs2]
  · refine ⟨s2, ?_, hok2, ?_, ?_⟩
    · simp only [hash_add_to_bkt, hst, hb, hw]
      rw [if_neg hexp, ← hb1, ← ht1, ← hs2]
    · rw [hs2]; exact herase
    · rw [hs2]

/-! ## Function hash_add_str -/

theorem info_of_set_ne {h : Heap} {p a : Nat} (w : word) (hne : a ≠ p) :
    info_of (h.set p w) a = info_of h a := by
  simp [info_of, get_set_ne w hne]

theorem info_of_set_self {h : Heap} {p : Nat} {w0 : word} (w : word) (hp : h[p]? = some w0) :
    info_of (h.set p w) p = some (w.key, w.count, w.hh.hash, w.hh.keylen) := by
  simp [info_of, get_set_self hp]

theorem getLast_split {L : List Nat} (hne : L ≠ []) :
    ∃ L1 tl, L = L1 ++ [tl] ∧ L.getLast? = some tl := by
  rcases List.eq_nil_or_concat L with h | ⟨L1, tl, h⟩
  · exact absurd h hne
  · rw [List.concat_eq_append] at h
    exact ⟨L1, tl, h, by rw [h, List.getLast?_concat]⟩

theorem hash_add_str_spec {s : State} {L : List Nat} {item : Nat} {wi : word} (key : CString)
    {keylen : Nat} (hok : TableOK s L) (hitem : item ∉ L) (hwi : s.heap[item]? = some wi)
    (hlen : keylen ≤ KEY_MAX_LEN) :
    ∃ s1, hash_add_str s key item keylen = some s1 ∧ TableOK s1 (L ++ [item]) ∧
      (∀ a, a ≠ item → info_of s1.heap a = info_of s.heap a) ∧
      info_of s1.heap item = some (wi.key, wi.count, hash_jen key keylen, keylen) ∧
      s1 = { s with heap := s1.heap, table := s1.table, word_table := s1.word_table,
                    FLAG_EXPAND := s1.FLAG_EXPAND } := by
  obtain ⟨hbic, hseg, htab⟩ := hok
  have hnlen : ¬ keylen > KEY_MAX_LEN := by omega
  obtain ⟨w1, hw1⟩ : ∃ w1 : word, w1 =
      { wi with hh := { wi.hh with keylen := keylen, hash := hash_jen key keylen,
                                   next_w := none } } := ⟨_, rfl⟩
  have hw1hash : w1.hh.hash = hash_jen key keylen := by rw [hw1]
  have hw1nw : nw w1 = none := by rw [hw1]; rfl
  have hw1info : (w1.key, w1.count, w1.hh.hash, w1.hh.keylen) =
      (wi.key, wi.count, hash_jen key keylen, keylen) := by rw [hw1]
  by_cases hL : L = []
  · subst hL
    have hwt : s.word_table = none := hseg
    obtain ⟨t2, ht2⟩ : ∃ t2 : hash_table, t2 =
        { count := s.BUCKET_INIT_COUNT, num := 0 + 1, tail := some item,
          buckets := List.replicate s.BUCKET_INIT_COUNT empty_bucket } := ⟨_, rfl⟩
    obtain ⟨s2, hs2⟩ : ∃ s2 : State, s2 =
        { s with word_table := some item, heap := s.heap.set item w1, table := some t2 } :=
      ⟨_, rfl⟩
    have hbk2 : BucketsOK (hash_of s2.heap) s2.heap t2.buckets t2.count (fun a => a ∈ []) := by
      rw [ht2]
      exact BucketsOK_congr (fun a => by simp)
        (BucketsOK_replicate (hash_of s2.heap) s2.heap s.BUCKET_INIT_COUNT 0 [])
    have hw2 : s2.heap[item]? = some w1 := by rw [hs2]; exact get_set_self hwi
    have hseg2 : Seg nw s2.heap s2.word_table ([] ++ [item]) none := by
      refine ⟨by rw [hs2], w1, hw2, ?_⟩
      rw [hw1nw]; rfl
    obtain ⟨s3, hrun, hok3, herase3, hs3⟩ :=
      hash_add_to_bkt_spec (s := s2) (t := t2) (L := []) (by rw [hs2]; exact hbic)
        (by rw [hs2]) (by rw [ht2]; exact hbic) hbk2 hseg2 (by rw [ht2]) (by rw [ht2]; rfl)
        (by simp) hw2
    refine ⟨s3, ?_, hok3, ?_, ?_, ?_⟩
    · rw [← hrun]
      simp only [hash_add_str, hwt, hash_create_table]
      rw [if_neg hnlen]
      simp only [hwi]
      rw [hw1hash, hs2, ht2, hw1]
    · intro a ha
      rw [info_of_eq_of_erase_nx herase3, hs2]
      exact info_of_set_ne _ ha
    · rw [info_of_eq_of_erase_nx herase3, hs2]
      show info_of (s.heap.set item w1) item = _
      rw [info_of_set_self _ hwi, hw1info]
    · rw [hs3, hs2]
  · obtain ⟨t, hst, htail, hnum, hcap, hbk⟩ := htab hL
    obtain ⟨L1, tl, hLs, hlast⟩ := getLast_split hL
    have hnd : L.Nodup := Seg_nodup hseg
    have htlL : tl ∈ L := by rw [hLs]; simp
    obtain ⟨wtl, hwtl⟩ := Seg_valid hseg htlL
    have hne_it : item ≠ tl := fun e => hitem (e ▸ htlL)
    obtain ⟨hd, hwt⟩ : ∃ hd, s.word_table = some hd := by
      cases L with
      | nil => exact absurd rfl hL
      | cons a L => exact ⟨a, hseg.1⟩
    obtain ⟨h1, hh1⟩ : ∃ h1 : Heap, h1 = s.heap.set tl (wtl.set_next_w (some item)) := ⟨_, rfl⟩
    have hh1item : h1[item]? = some wi := by rw [hh1, get_set_ne _ hne_it]; exact hwi
    obtain ⟨t2, ht2⟩ : ∃ t2 : hash_table, t2 =
        { t with tail := some item, num := t.num + 1 } := ⟨_, rfl⟩
    obtain ⟨s2, hs2⟩ : ∃ s2 : State, s2 = { s with heap := h1.set item w1, table := some t2 } :=
      ⟨_, rfl⟩
    have hw2 : s2.heap[item]? = some w1 := by rw [hs2]; exact get_set_self hh1item
    have hget : ∀ a, a ≠ item → a ≠ tl → s2.heap[a]? = s.heap[a]? := by
      intro a h1 h2
      rw [hs2, hh1]
      show ((s.heap.set tl _).set item w1)[a]? = _
      rw [get_set_ne _ h1, get_set_ne _ h2]
    have hgettl : s2.heap[tl]? = some (wtl.set_next_w (some item)) := by
      rw [hs2, hh1]
      show ((s.heap.set tl _).set item w1)[tl]? = _
      rw [get_set_ne _ (Ne.symm hne_it)]
      exact get_set_self hwtl
    have hfr : ∀ a, a ∈ L → ∀ w, s.heap[a]? = some w →
        ∃ w2, s2.heap[a]? = some w2 ∧ nx w2 = nx w ∧ w2.hh.hash = w.hh.hash := by
      intro a ha w hw
      have hai : a ≠ item := fun e => hitem (e ▸ ha)
      by_cases hat : a = tl
      · subst hat
        rw [hwtl] at hw
        have : wtl = w := Option.some.inj hw
        subst this
        exact ⟨_, hgettl, rfl, rfl⟩
      · exact ⟨w, by rw [hget a hai hat]; exact hw, rfl, rfl⟩
    have hbk2 : BucketsOK (hash_of s2.heap) s2.heap t2.buckets t2.count (fun a => a ∈ L) := by
      rw [ht2]
      refine BucketsOK_frame ?_ ?_ hbk
      · intro a ha w hw
        obtain ⟨w2, h1, h2, _⟩ := hfr a ha w hw
        exact ⟨w2, h1, h2⟩
      · intro a ha
        obtain ⟨w, hw⟩ := Seg_valid hseg ha
        obtain ⟨w2, h1, _, h3⟩ := hfr a ha w hw
        rw [hash_of_get h1, hash_of_get hw, h3]
    have hseg2 : Seg nw s2.heap s2.word_table (L ++ [item]) none := by
      have hseg0 := hseg
      rw [hLs, Seg_append] at hseg0
      obtain ⟨m, hs1, hs2'⟩ := hseg0
      have hm : m = some tl := hs2'.1
      have htlL1 : tl ∉ L1 := by
        intro hmem
        rw [hLs] at hnd
        exact (List.nodup_append.1 hnd).2.2 hmem (List.mem_singleton_self tl)
      have hswt : s2.word_table = s.word_table := by rw [hs2]
      rw [hswt, hLs, List.append_assoc, Seg_append]
      refine ⟨some tl, ?_, ?_⟩
      · rw [← hm]
        refine Seg_congr ?_ hs1
        intro a ha w hw
        have haL : a ∈ L := by rw [hLs]; exact List.mem_append_left _ ha
        have hai : a ≠ item := fun e => hitem (e ▸ haL)
        have hat : a ≠ tl := fun e => htlL1 (e ▸ ha)
        exact ⟨w, by rw [hget a hai hat]; exact hw, rfl⟩
      · refine ⟨rfl, _, hgettl, ?_⟩
        show Seg nw s2.heap (some item) [item] none
        refine ⟨rfl, w1, hw2, ?_⟩
        rw [hw1nw]; rfl
    obtain ⟨s3, hrun, hok3, herase3, hs3⟩ :=
      hash_add_to_bkt_spec (s := s2) (t := t2) (L := L) (by rw [hs2]; exact hbic)
        (by rw [hs2]) (by rw [ht2]; exact hcap) hbk2 hseg2 (by rw [ht2])
        (by rw [ht2]; simp [hnum]) hitem hw2
    refine ⟨s3, ?_, hok3, ?_, ?_, ?_⟩
    · rw [← hrun]
      simp only [hash_add_str, hwt, hst, htail, hlast, modify_of_get _ hwtl]
      rw [if_neg hnlen]
      simp only [← hh1, hh1item]
      rw [hw1hash, hs2, ht2, hw1, hwt]
    · intro a ha
      rw [info_of_eq_of_erase_nx herase3, hs2, hh1]
      show info_of ((s.heap.set tl _).set item w1) a = _
      rw [info_of_set_ne _ ha]
      by_cases hat : a = tl
      · subst hat
        rw [info_of_set_self _ hwtl]
        simp [info_of, hwtl, word.set_next_w]
      · exact info_of_set_ne _ hat
    · rw [info_of_eq_of_erase_nx herase3, hs2]
      show info_of (h1.set item w1) item = _
      rw [info_of_set_self _ hh1item, hw1info]
    · rw [hs3, hs2]

/-! ## C strings -/

theorem strlen_of_nonul : ∀ (k : CString), (0 : Byte) ∉ k → strlen k = k.length
  | [], _ => rfl
  | c :: cs, h => by
    have hc : c ≠ 0 := fun e => h (e ▸ List.mem_cons_self _ _)
    have hcs : (0 : Byte) ∉ cs := fun e => h (List.mem_cons_of_mem _ e)
    simp [strlen, hc, strlen_of_nonul cs hcs]

theorem strcpy_of_nonul : ∀ (k : CString), (0 : Byte) ∉ k → strcpy k = k
  | [], _ => rfl
  | c :: cs, h => by
    have hc : c ≠ 0 := fun e => h (e ▸ List.mem_cons_self _ _)
    have hcs : (0 : Byte) ∉ cs := fun e => h (List.mem_cons_of_mem _ e)
    simp [strcpy, hc, strcpy_of_nonul cs hcs]

theorem strncmp_eq_iff : ∀ (a b : CString), (0 : Byte) ∉ a → a.length = b.length →
    (strncmp_eq a b b.length = true ↔ a = b)
  | [], [], _, _ => by simp [strncmp_eq]
  | [], _ :: _, _, h => by simp at h
  | _ :: _, [], _, h => by simp at h
  | x :: a, y :: b, h0, hl => by
    have hx : x ≠ 0 := fun e => h0 (e ▸ List.mem_cons_self _ _)
    have ha : (0 : Byte) ∉ a := fun e => h0 (List.mem_cons_of_mem _ e)
    have hl1 : a.length = b.length := by simpa using hl
    have ih := strncmp_eq_iff a b ha hl1
    simp only [List.length_cons, strncmp_eq, List.headD_cons, List.tail_cons]
    by_cases hxy : x = y
    · subst hxy
      simp [hx, ih]
    · simp [hxy]

/-! ## Function find_word -/

theorem key_of_get {h : Heap} {a : Nat} {w : word} (hw : h[a]? = some w) :
    key_of h a = w.key := by
  simp [key_of, hw]

theorem hash_find_in_bkt_spec {h : Heap} (k : CString) :
    ∀ (C : List Nat) (fuel : Nat) (head : Option Nat),
    Seg nx h head C none → C.length < fuel →
    (∀ a ∈ C, ∀ w, h[a]? = some w → w.hh.keylen = w.key.length ∧ (0 : Byte) ∉ w.key) →
    hash_find_in_bkt h k k.length fuel head =
      some (C.find? (fun a => decide (key_of h a = k))) := by
  intro C
  induction C with
  | nil =>
    intro fuel head hs hf _
    have hp : head = none := hs
    subst hp
    obtain ⟨n, rfl⟩ : ∃ n, fuel = n + 1 := ⟨fuel - 1, by omega⟩
    rfl
  | cons a C ih =>
    intro fuel head hs hf hkeys
    obtain ⟨hp, w, hw, hrest⟩ := hs
    subst hp
    obtain ⟨n, rfl⟩ : ∃ n, fuel = n + 1 := ⟨fuel - 1, by omega⟩
    obtain ⟨hkl, hnul⟩ := hkeys a (List.mem_cons_self _ _) w hw
    have hka : key_of h a = w.key := key_of_get hw
    simp only [hash_find_in_bkt, hw, List.find?_cons, hka]
    by_cases heq : w.key = k
    · have hlen : w.hh.keylen = k.length := by rw [hkl, heq]
      have hcmp : strncmp_eq w.key k k.length = true :=
        (strncmp_eq_iff w.key k hnul (by rw [heq])).2 heq
      rw [if_pos ⟨hlen, hcmp⟩]
      simp [heq]
    · have hcond : ¬ (w.hh.keylen = k.length ∧ strncmp_eq w.key k k.length = true) := by
        rintro ⟨h1, h2⟩
        exact heq ((strncmp_eq_iff w.key k hnul (by rw [← hkl, h1])).1 h2)
      rw [if_neg hcond]
      simp only [heq, decide_False]
      exact ih n _ hrest (by simp only [List.length_cons] at hf; omega)
        (fun b hb => hkeys b (List.mem_cons_of_mem _ hb))

theorem find_word_spec {s : State} {L : List Nat} {k : CString} (hok : TableOK s L)
    (hkeys : KeysOK s.heap L) (hk : (0 : Byte) ∉ k) (hlen : k.length < UINT_MOD) :
    ∃ r, find_word s k = some r ∧ (∀ a, r = some a → a ∈ L ∧ key_of s.heap a = k) ∧
      (r = none → ∀ a ∈ L, key_of s.heap a ≠ k) := by
  obtain ⟨_, hseg, htab⟩ := hok
  by_cases hL : L = []
  · subst hL
    have hwt : s.word_table = none := hseg
    exact ⟨none, by simp [find_word, hash_find_str, hwt], by simp, by simp⟩
  · obtain ⟨t, hst, _, _, hcap, hbk⟩ := htab hL
    obtain ⟨hd, hwt⟩ : ∃ hd, s.word_table = some hd := by
      cases L with
      | nil => exact absurd rfl hL
      | cons a L => exact ⟨a, hseg.1⟩
    have hsl : strlen k % UINT_MOD = k.length := by
      rw [strlen_of_nonul k hk, Nat.mod_eq_of_lt hlen]
    have hidx : hash_get_index (hash_jen k k.length) t.count < t.buckets.length := by
      rw [hbk.1]; exact hash_get_index_lt _ _ hcap.pos hcap.le_ulong
    obtain ⟨b, hb⟩ : ∃ b, t.buckets[hash_get_index (hash_jen k k.length) t.count]? = some b :=
      ⟨_, List.getElem?_eq_getElem hidx⟩
    obtain ⟨C, hC, _, hmem⟩ := hbk.2 _ b hb
    have hCkeys : ∀ a ∈ C, ∀ w, s.heap[a]? = some w →
        w.hh.keylen = w.key.length ∧ (0 : Byte) ∉ w.key := by
      intro a ha w hw
      obtain ⟨_, h2, h3, _⟩ := hkeys.1 a ((hmem a).1 ha).1 w hw
      exact ⟨h2, h3⟩
    have hfind := hash_find_in_bkt_spec k C (s.heap.length + 1) b.head hC
      (Nat.lt_succ_of_le (Seg_length_le hC)) hCkeys
    refine ⟨C.find? (fun a => decide (key_of s.heap a = k)), ?_, ?_, ?_⟩
    · simp only [find_word, hash_find_str, hwt, hst, hsl, hb]
      exact hfind
    · intro a ha
      have h1 := List.find?_some ha
      have h2 := List.mem_of_find?_eq_some ha
      exact ⟨((hmem a).1 h2).1, by simpa using h1⟩
    · intro hnone a ha hka
      obtain ⟨w, hw⟩ := Seg_valid hseg ha
      obtain ⟨h1, h2, _, _⟩ := hkeys.1 a ha w hw
      have hkw : w.key = k := by rw [← key_of_get hw]; exact hka
      have haC : a ∈ C := by
        rw [hmem a]
        refine ⟨ha, ?_⟩
        rw [hash_of_get hw, h1, h2, hkw]
      have := List.find?_eq_none.1 hnone a haC
      simp [hka] at this

/-! ## Function add_word_length -/

theorem add_word_length_spec {s : State} {length : Nat} (hh : HistOK s) (h1 : 1 ≤ length)
    (h2 : length < UINT_MOD) :
    ∃ s1, add_word_length s length = some s1 ∧ HistOK s1 ∧
      s1 = { s with w_lengths_size := s1.w_lengths_size, w_lengths := s1.w_lengths } := by
  have hi : (length + UINT_MOD - 1) % UINT_MOD = length - 1 := by
    have : length + UINT_MOD - 1 = (length - 1) + UINT_MOD := by omega
    rw [this, Nat.add_mod_right, Nat.mod_eq_of_lt]
    omega
  have key : ∀ (size : Nat) (a : List Nat), a.length = size → length ≤ size →
      ∃ s1, (match (some a : Option (List Nat)) with
        | none => (none : Option State)
        | some a =>
          match a[(length + UINT_MOD - 1) % UINT_MOD]? with
          | none => none
          | some n => some { s with w_lengths_size := size,
                                    w_lengths := some (a.set ((length + UINT_MOD - 1) % UINT_MOD)
                                      ((n + 1) % UINT_MOD)) }) = some s1 ∧
        HistOK s1 ∧
        s1 = { s with w_lengths_size := s1.w_lengths_size, w_lengths := s1.w_lengths } := by
    intro size a ha hle
    have hlt : (length + UINT_MOD - 1) % UINT_MOD < a.length := by rw [hi]; omega
    obtain ⟨n, hn⟩ : ∃ n, a[(length + UINT_MOD - 1) % UINT_MOD]? = some n :=
      ⟨_, List.getElem?_eq_getElem hlt⟩
    refine ⟨{ s with w_lengths_size := size,
                     w_lengths := some (a.set ((length + UINT_MOD - 1) % UINT_MOD)
                       ((n + 1) % UINT_MOD)) }, by simp only [hn], ?_, rfl⟩
    intro a1 ha1
    simp only [Option.some.injEq] at ha1
    subst ha1
    simp [ha]
  unfold add_word_length
  cases hw : s.w_lengths with
  | none =>
    simp only
    apply key
    · simp
    · split <;> [split; skip] <;> omega
  | some old =>
    have hold := hh old hw
    simp only
    by_cases hgt : length > s.w_lengths_size
    · rw [if_pos hgt]
      simp only
      apply key
      · rw [List.length_append, List.length_take, List.length_replicate, hold]
        split <;> omega
      · split <;> omega
    · rw [if_neg hgt]
      rw [hw]
      have := key s.w_lengths_size old hold (by omega)
      obtain ⟨s1, hs1, hh1, he⟩ := this
      refine ⟨s1, ?_, hh1, he⟩
      rw [← hs1]

/-! ## Function add_word -/

theorem count_of_eq_of_info {h h1 : Heap} {a : Nat} (hi : info_of h1 a = info_of h a) :
    count_of h1 a = count_of h a := by
  simp only [info_of] at hi
  unfold count_of
  cases ha : h[a]? <;> cases ha1 : h1[a]? <;> rw [ha, ha1] at hi <;> simp_all

theorem key_of_eq_of_info {h h1 : Heap} {a : Nat} (hi : info_of h1 a = info_of h a) :
    key_of h1 a = key_of h a := by
  simp only [info_of] at hi
  unfold key_of
  cases ha : h[a]? <;> cases ha1 : h1[a]? <;> rw [ha, ha1] at hi <;> simp_all

theorem view_congr {h h1 : Heap} {L : List Nat}
    (hi : ∀ a ∈ L, key_of h1 a = key_of h a ∧ count_of h1 a = count_of h a) :
    view h1 L = view h L := by
  unfold view
  apply List.map_congr_left
  intro a ha
  rw [(hi a ha).1, (hi a ha).2]

theorem bump_of_not_mem (k : CString) : ∀ (m : List (CString × Nat)),
    (∀ x ∈ m, x.1 ≠ k) → bump k m = m ++ [(k, 1)]
  | [], _ => rfl
  | (k1, n) :: m, h => by
    have h1 : k1 ≠ k := h (k1, n) (List.mem_cons_self _ _)
    simp only [bump, if_neg h1, List.cons_append]
    rw [bump_of_not_mem k m (fun x hx => h x (List.mem_cons_of_mem _ hx))]

theorem view_bump_found {h h1 : Heap} {k : CString} {p : Nat} : ∀ (L : List Nat),
    L.Nodup → p ∈ L → key_of h p = k → (∀ a ∈ L, key_of h a = k → a = p) →
    (∀ a, a ≠ p → key_of h1 a = key_of h a ∧ count_of h1 a = count_of h a) →
    key_of h1 p = k → count_of h1 p = (count_of h p + 1) % UINT_MOD →
    view h1 L = bump k (view h L)
  | [], _, hp, _, _, _, _, _ => by simp at hp
  | a :: L, hnd, hp, hkp, huniq, hother, hk1, hc1 => by
    by_cases hap : a = p
    · subst hap
      have hnot : a ∉ L := (List.nodup_cons.1 hnd).1
      have hrest : view h1 L = view h L :=
        view_congr (fun b hb => hother b (fun e => hnot (e ▸ hb)))
      simp only [view, List.map_cons, bump, hkp, hk1, hc1, if_true]
      exact congrArg _ hrest
    · have hkey : key_of h a ≠ k := fun e => hap (huniq a (List.mem_cons_self _ _) e)
      have hpL : p ∈ L := by
        rcases List.mem_cons.1 hp with e | e
        · exact absurd e.symm hap
        · exact e
      have ih := view_bump_found L (List.nodup_cons.1 hnd).2 hpL hkp
        (fun b hb => huniq b (List.mem_cons_of_mem _ hb)) hother hk1 hc1
      simp only [view, List.map_cons, bump, if_neg hkey, (hother a hap).1, (hother a hap).2]
      exact congrArg _ ih

theorem KeysOK_of_info {h h1 : Heap} {L : List Nat}
    (hi : ∀ a ∈ L, info_of h1 a = info_of h a) (hk : KeysOK h L) : KeysOK h1 L := by
  refine ⟨?_, ?_⟩
  · intro a ha w1 hw1
    have e := hi a ha
    simp only [info_of, hw1, Option.map_some'] at e
    cases hw : h[a]? with
    | none => simp [hw] at e
    | some w =>
      simp only [hw, Option.map_some', Option.some.injEq, Prod.mk.injEq] at e
      obtain ⟨e1, _, e3, e4⟩ := e
      have := hk.1 a ha w hw
      rw [e1, e3, e4]
      exact this
  · intro a ha b hb hab
    rw [key_of_eq_of_info (hi a ha), key_of_eq_of_info (hi b hb)] at hab
    exact hk.2 a ha b hb hab

theorem TableOK_frame {s s1 : State} {L : List Nat}
    (hfr : ∀ a ∈ L, ∀ w, s.heap[a]? = some w →
      ∃ w1, s1.heap[a]? = some w1 ∧ nw w1 = nw w ∧ nx w1 = nx w ∧ w1.hh.hash = w.hh.hash)
    (ht : s1.table = s.table) (hwt : s1.word_table = s.word_table)
    (hbic : s1.BUCKET_INIT_COUNT = s.BUCKET_INIT_COUNT) (hok : TableOK s L) : TableOK s1 L := by
  obtain ⟨h1, hseg, htab⟩ := hok
  refine ⟨by rw [hbic]; exact h1, ?_, ?_⟩
  · rw [hwt]
    refine Seg_congr ?_ hseg
    intro a ha w hw
    obtain ⟨w1, e1, e2, _⟩ := hfr a ha w hw
    exact ⟨w1, e1, e2⟩
  · intro hL
    obtain ⟨t, hst, htail, hnum, hcap, hbk⟩ := htab hL
    refine ⟨t, by rw [ht]; exact hst, htail, hnum, hcap, ?_⟩
    refine BucketsOK_frame ?_ ?_ hbk
    · intro a ha w hw
      obtain ⟨w1, e1, _, e3, _⟩ := hfr a ha w hw
      exact ⟨w1, e1, e3⟩
    · intro a ha
      obtain ⟨w, hw⟩ := Seg_valid hseg ha
      obtain ⟨w1, e1, _, _, e4⟩ := hfr a ha w hw
      rw [hash_of_get e1, hash_of_get hw, e4]

theorem get_append_old {h : Heap} {a : Nat} {w : word} (w0 : word) (hw : h[a]? = some w) :
    (h ++ [w0])[a]? = some w := by
  have hlt : a < h.length := (List.getElem?_eq_some_iff.1 hw).1
  rw [List.getElem?_append_left hlt]; exact hw

theorem info_of_append_old {h : Heap} {a : Nat} (w0 : word) (hlt : a < h.length) :
    info_of (h ++ [w0]) a = info_of h a := by
  simp [info_of, List.getElem?_append_left hlt]

theorem info_item_fields {h : Heap} {a : Nat} {w : word} {k : CString} {c hs kl : Nat}
    (hi : info_of h a = some (k, c, hs, kl)) (hw : h[a]? = some w) :
    w.key = k ∧ w.count = c ∧ w.hh.hash = hs ∧ w.hh.keylen = kl := by
  simp only [info_of, hw, Option.map_some', Option.some.injEq, Prod.mk.injEq] at hi
  exact hi

theorem key_of_of_info {h : Heap} {a : Nat} {k : CString} {c hs kl : Nat}
    (hi : info_of h a = some (k, c, hs, kl)) : key_of h a = k := by
  cases hw : h[a]? with
  | none => simp [info_of, hw] at hi
  | some w => rw [key_of_get hw]; exact (info_item_fields hi hw).1

theorem count_of_of_info {h : Heap} {a : Nat} {k : CString} {c hs kl : Nat}
    (hi : info_of h a = some (k, c, hs, kl)) : count_of h a = c := by
  cases hw : h[a]? with
  | none => simp [info_of, hw] at hi
  | some w => rw [count_of_get hw]; exact (info_item_fields hi hw).2.1

theorem add_word_found {s : State} {L : List Nat} {k : CString} {p : Nat} (hinv : Inv s L)
    (hp : p ∈ L) (hkp : key_of s.heap p = k) (hfind : find_word s k = some (some p)) :
    ∃ s1, add_word s k = some s1 ∧ Inv s1 L ∧ view s1.heap L = bump k (view s.heap L) := by
  obtain ⟨hok, hkeys, hhist⟩ := hinv
  obtain ⟨w, hw⟩ := Seg_valid hok.2.1 hp
  obtain ⟨w1, hw1⟩ : ∃ w1 : word, w1 = { w with count := (w.count + 1) % UINT_MOD } := ⟨_, rfl⟩
  have hget : ∀ a, a ≠ p → (s.heap.set p w1)[a]? = s.heap[a]? := fun a ha => get_set_ne _ ha
  have hgetp : (s.heap.set p w1)[p]? = some w1 := get_set_self hw
  have hkey : ∀ a, key_of (s.heap.set p w1) a = key_of s.heap a := by
    intro a
    by_cases ha : a = p
    · subst ha; rw [key_of_get hgetp, key_of_get hw, hw1]
    · simp only [key_of, hget a ha]
  refine ⟨{ s with heap := s.heap.set p w1 }, ?_, ⟨?_, ?_, hhist⟩, ?_⟩
  · simp only [add_word, hfind, modify_of_get _ hw]
    rw [hw1]
  · refine TableOK_frame (s := s) ?_ rfl rfl rfl hok
    intro a _ w2 hw2
    by_cases hap : a = p
    · subst hap
      rw [hw] at hw2
      have : w = w2 := Option.some.inj hw2
      subst this
      exact ⟨w1, hgetp, by rw [hw1]; rfl, by rw [hw1]; rfl, by rw [hw1]⟩
    · exact ⟨w2, by show (s.heap.set p w1)[a]? = _; rw [hget a hap]; exact hw2, rfl, rfl, rfl⟩
  · refine ⟨?_, ?_⟩
    · intro a ha w2 hw2
      by_cases hap : a = p
      · subst hap
        have hw2' : (s.heap.set a w1)[a]? = some w2 := hw2
        rw [hgetp] at hw2'
        have : w1 = w2 := Option.some.inj hw2'
        subst this
        have := hkeys.1 a ha w hw
        rw [hw1]
        exact this
      · have hw2' : (s.heap.set p w1)[a]? = some w2 := hw2
        rw [hget a hap] at hw2'
        exact hkeys.1 a ha w2 hw2'
    · intro a ha b hb hab
      have hab' : key_of (s.heap.set p w1) a = key_of (s.heap.set p w1) b := hab
      rw [hkey a, hkey b] at hab'
      exact hkeys.2 a ha b hb hab'
  · apply view_bump_found L (Seg_nodup hok.2.1) hp hkp
    · intro a ha hka
      exact hkeys.2 a ha p hp (hka.trans hkp.symm)
    · intro a ha
      refine ⟨hkey a, ?_⟩
      show count_of (s.heap.set p w1) a = _
      simp only [count_of, hget a ha]
    · show key_of (s.heap.set p w1) p = k
      rw [hkey p]; exact hkp
    · show count_of (s.heap.set p w1) p = _
      rw [count_of_get hgetp, count_of_get hw, hw1]

theorem add_word_new {s : State} {L : List Nat} {k : CString} (hinv : Inv s L)
    (hk : ValidKey k) (hnot : ∀ a ∈ L, key_of s.heap a ≠ k)
    (hfind : find_word s k = some none) :
    ∃ s1, add_word s k = some s1 ∧ Inv s1 (L ++ [s.heap.length]) ∧
      view s1.heap (L ++ [s.heap.length]) = bump k (view s.heap L) := by
  obtain ⟨hok, hkeys, hhist⟩ := hinv
  obtain ⟨hnul, hk1, hk2⟩ := hk
  have hkmod : k.length < UINT_MOD := by
    unfold KEY_MAX_LEN at hk2; unfold UINT_MOD; omega
  have hsl : strlen k % UINT_MOD = k.length := by
    rw [strlen_of_nonul k hnul, Nat.mod_eq_of_lt hkmod]
  obtain ⟨sa, hsa⟩ : ∃ sa : State, sa =
      if k.length > s.w_length_max then { s with w_length_max := k.length } else s := ⟨_, rfl⟩
  have hsa_heap : sa.heap = s.heap := by rw [hsa]; split <;> rfl
  have hsa_tab : sa.table = s.table := by rw [hsa]; split <;> rfl
  have hsa_wt : sa.word_table = s.word_table := by rw [hsa]; split <;> rfl
  have hsa_bic : sa.BUCKET_INIT_COUNT = s.BUCKET_INIT_COUNT := by rw [hsa]; split <;> rfl
  have hsa_hist : HistOK sa := by
    rw [hsa]; split
    · exact hhist
    · exact hhist
  obtain ⟨sb, hrunb, hhistb, hsb⟩ := add_word_length_spec hsa_hist hk1 hkmod
  have hsb_heap : sb.heap = s.heap := by rw [hsb]; exact hsa_heap
  obtain ⟨w0, hw0⟩ : ∃ w0 : word, w0 =
      { key := k, count := 1, hh := { next := none, next_w := none, hash := 0, keylen := 0 } } :=
    ⟨_, rfl⟩
  obtain ⟨sc, hsc⟩ : ∃ sc : State, sc = { sb with heap := sb.heap ++ [w0] } := ⟨_, rfl⟩
  have hsc_heap : sc.heap = s.heap ++ [w0] := by rw [hsc, ← hsb_heap]
  have hvalid : ∀ a ∈ L, a < s.heap.length := by
    intro a ha
    obtain ⟨w, hw⟩ := Seg_valid hok.2.1 ha
    exact (List.getElem?_eq_some_iff.1 hw).1
  have hitem : s.heap.length ∉ L := fun hmem => Nat.lt_irrefl _ (hvalid _ hmem)
  have hokc : TableOK sc L := by
    refine TableOK_frame (s := s) ?_ ?_ ?_ ?_ hok
    · intro a _ w hw
      exact ⟨w, by rw [hsc_heap]; exact get_append_old _ hw, rfl, rfl, rfl⟩
    · rw [hsc, hsb]; exact hsa_tab
    · rw [hsc, hsb]; exact hsa_wt
    · rw [hsc, hsb]; exact hsa_bic
  have hwi : sc.heap[s.heap.length]? = some w0 := by
    rw [hsc_heap]; simp
  obtain ⟨sd, hrund, hokd, hinfo, hinfoi, hsd⟩ :=
    hash_add_str_spec k hokc hitem hwi hk2
  have hinfoL : ∀ a ∈ L, info_of sd.heap a = info_of s.heap a := by
    intro a ha
    have hne : a ≠ s.heap.length := fun e => hitem (e ▸ ha)
    rw [hinfo a hne, hsc_heap]
    exact info_of_append_old _ (hvalid a ha)
  have hinfoi' : info_of sd.heap s.heap.length =
      some (k, 1, hash_jen k k.length, k.length) := by rw [hinfoi, hw0]
  have hkeyi : key_of sd.heap s.heap.length = k := key_of_of_info hinfoi'
  have hkeysL : KeysOK sd.heap L := KeysOK_of_info hinfoL hkeys
  refine ⟨sd, ?_, ⟨hokd, ⟨?_, ?_⟩, ?_⟩, ?_⟩
  · simp only [add_word, hfind, hsl, ← hsa, hrunb, strcpy_of_nonul k hnul]
    rw [← hw0, hsb_heap]
    have : ({ sb with heap := s.heap ++ [w0] } : State) = sc := by rw [hsc, hsb_heap]
    rw [this]
    exact hrund
  · intro a ha w hw
    rcases List.mem_append.1 ha with haL | hai
    · exact hkeysL.1 a haL w hw
    · have : a = s.heap.length := by simpa using hai
      subst this
      obtain ⟨e1, _, e3, e4⟩ := info_item_fields hinfoi' hw
      rw [e1, e3, e4]
      exact ⟨rfl, rfl, hnul, hk2⟩
  · intro a ha b hb hab
    have hkL : ∀ c ∈ L, key_of sd.heap c ≠ k := by
      intro c hc
      rw [key_of_eq_of_info (hinfoL c hc)]
      exact hnot c hc
    rcases List.mem_append.1 ha with haL | hai
    · rcases List.mem_append.1 hb with hbL | hbi
      · exact hkeysL.2 a haL b hbL hab
      · have : b = s.heap.length := by simpa using hbi
        subst this
        rw [hkeyi] at hab
        exact absurd hab (hkL a haL)
    · have : a = s.heap.length := by simpa using hai
      subst this
      rcases List.mem_append.1 hb with hbL | hbi
      · rw [hkeyi] at hab
        exact absurd hab.symm (hkL b hbL)
      · have hb1 : b = s.heap.length := by simpa using hbi
        exact hb1.symm
  · intro a ha
    have : sd.w_lengths = sb.w_lengths := by rw [hsd, hsc]
    have h2 : sd.w_lengths_size = sb.w_lengths_size := by rw [hsd, hsc]
    rw [this] at ha
    rw [h2]
    exact hhistb a ha
  · rw [bump_of_not_mem k _ (by
      intro x hx
      simp only [view, List.mem_map] at hx
      obtain ⟨a, ha, rfl⟩ := hx
      exact hnot a ha)]
    simp only [view, List.map_append, List.map_cons, List.map_nil]
    rw [hkeyi, count_of_of_info hinfoi']
    congr 1
    apply List.map_congr_left
    intro a ha
    rw [key_of_eq_of_info (hinfoL a ha), count_of_eq_of_info (hinfoL a ha)]

theorem add_word_spec {s : State} {L : List Nat} {k : CString} (hinv : Inv s L)
    (hk : ValidKey k) :
    ∃ s1 L1, add_word s k = some s1 ∧ Inv s1 L1 ∧ view s1.heap L1 = bump k (view s.heap L) := by
  have hkmod : k.length < UINT_MOD := by
    have := hk.2.2
    unfold KEY_MAX_LEN at this; unfold UINT_MOD; omega
  obtain ⟨r, hfind, hsome, hnone⟩ := find_word_spec hinv.1 hinv.2.1 hk.1 hkmod
  cases r with
  | none =>
    obtain ⟨s1, h1, h2, h3⟩ := add_word_new hinv hk (hnone rfl) hfind
    exact ⟨s1, _, h1, h2, h3⟩
  | some p =>
    obtain ⟨hp, hkp⟩ := hsome p rfl
    obtain ⟨s1, h1, h2, h3⟩ := add_word_found hinv hp hkp hfind
    exact ⟨s1, L, h1, h2, h3⟩

/-! ## Sequences of add_word calls -/

theorem Inv_init {n : Nat} (hn : IsPow2Cap n) : Inv (init_state n) [] := by
  refine ⟨⟨hn, rfl, fun h => absurd rfl h⟩, ⟨?_, ?_⟩, ?_⟩
  · intro a ha; simp at ha
  · intro a ha; simp at ha
  · intro a ha; simp [init_state] at ha

theorem add_words_spec : ∀ (ks : List CString) (s : State) (L : List Nat),
    Inv s L → (∀ k ∈ ks, ValidKey k) →
    ∃ s1 L1, add_words s ks = some s1 ∧ Inv s1 L1 ∧
      view s1.heap L1 = ks.foldl (fun m k => bump k m) (view s.heap L)
  | [], s, L, hinv, _ => ⟨s, L, rfl, hinv, rfl⟩
  | k :: ks, s, L, hinv, hv => by
    obtain ⟨s1, L1, h1, h2, h3⟩ := add_word_spec hinv (hv k (List.mem_cons_self _ _))
    obtain ⟨s2, L2, g1, g2, g3⟩ :=
      add_words_spec ks s1 L1 h2 (fun x hx => hv x (List.mem_cons_of_mem _ hx))
    refine ⟨s2, L2, ?_, g2, ?_⟩
    · simp only [add_words, h1]; exact g1
    · rw [g3, h3]; rfl

theorem add_words_refines {n : Nat} (hn : IsPow2Cap n) {ks : List CString}
    (hv : ∀ k ∈ ks, ValidKey k) :
    ∃ s L, add_words (init_state n) ks = some s ∧ Inv s L ∧ view s.heap L = tally ks := by
  obtain ⟨s, L, h1, h2, h3⟩ := add_words_spec ks (init_state n) [] (Inv_init hn) hv
  exact ⟨s, L, h1, h2, h3⟩

theorem hash_count_of_TableOK {s : State} {L : List Nat} (hok : TableOK s L) :
    hash_count s s.word_table = some L.length := by
  obtain ⟨_, hseg, htab⟩ := hok
  cases L with
  | nil =>
    have : s.word_table = none := hseg
    simp [hash_count, this]
  | cons a L =>
    obtain ⟨t, hst, _, hnum, _, _⟩ := htab (by simp)
    have : s.word_table = some a := hseg.1
    simp [hash_count, this, hst, hnum]

theorem report_of_TableOK {s : State} {L : List Nat} (hok : TableOK s L) :
    report s = some (view s.heap L) := by
  simp [report, hash_iter_of_seg hok.2.1, view]

/-! ## The counting contract on lists -/

theorem first_occurrences_snoc (ks : List CString) (k : CString) :
    first_occurrences (ks ++ [k]) =
      if k ∈ first_occurrences ks then first_occurrences ks else first_occurrences ks ++ [k] := by
  simp [first_occurrences, List.foldl_append]

theorem mem_first_occurrences (ks : List CString) (x : CString) :
    x ∈ first_occurrences ks ↔ x ∈ ks := by
  induction ks using List.reverseRecOn with
  | nil => simp [first_occurrences]
  | append_singleton ks k ih =>
    rw [first_occurrences_snoc]
    split
    · rename_i hk
      rw [ih, List.mem_append, List.mem_singleton]
      constructor
      · intro h; exact Or.inl h
      · rintro (h | h)
        · exact h
        · subst h; exact ih.1 hk
    · simp [ih]

theorem nodup_first_occurrences (ks : List CString) : (first_occurrences ks).Nodup := by
  induction ks using List.reverseRecOn with
  | nil => simp [first_occurrences]
  | append_singleton ks k ih =>
    rw [first_occurrences_snoc]
    split
    · exact ih
    · rename_i hk
      exact List.nodup_append.2 ⟨ih, List.nodup_singleton k, by
        intro a ha hb
        rw [List.mem_singleton] at hb
        exact hk (hb ▸ ha)⟩

theorem tally_snoc (ks : List CString) (k : CString) : tally (ks ++ [k]) = bump k (tally ks) := by
  simp [tally, List.foldl_append]

theorem bump_map (k : CString) (f : CString → Nat) : ∀ (l : List CString), l.Nodup →
    bump k (l.map (fun x => (x, f x))) =
      if k ∈ l then l.map (fun x => (x, if x = k then (f x + 1) % UINT_MOD else f x))
      else l.map (fun x => (x, f x)) ++ [(k, 1)]
  | [], _ => by simp [bump]
  | x :: l, hnd => by
    have hx : x ∉ l := (List.nodup_cons.1 hnd).1
    have ih := bump_map k f l (List.nodup_cons.1 hnd).2
    by_cases hxk : x = k
    · subst hxk
      simp only [List.map_cons, bump, if_true, List.mem_cons, true_or]
      congr 1
      apply List.map_congr_left
      intro y hy
      have : y ≠ x := fun e => hx (e ▸ hy)
      simp [this]
    · simp only [List.map_cons, bump, if_neg hxk, ih, List.mem_cons]
      have hkx : ¬ k = x := fun e => hxk e.symm
      by_cases hkl : k ∈ l
      · simp [hkl, hxk]
      · simp [hkl, hkx]

theorem tally_closed (ks : List CString) :
    tally ks = (first_occurrences ks).map (fun k => (k, ks.count k % UINT_MOD)) := by
  induction ks using List.reverseRecOn with
  | nil => simp [tally, first_occurrences]
  | append_singleton ks k ih =>
    rw [tally_snoc, ih, bump_map k _ _ (nodup_first_occurrences ks), first_occurrences_snoc]
    by_cases hk : k ∈ first_occurrences ks
    · rw [if_pos hk, if_pos hk]
      apply List.map_congr_left
      intro x _
      by_cases hxk : x = k
      · subst hxk
        simp [List.count_append, Nat.add_mod]
      · have : ¬ k = x := fun e => hxk e.symm
        simp [List.count_append, hxk, this]
    · rw [if_neg hk, if_neg hk, List.map_append]
      have hkks : k ∉ ks := fun h => hk ((mem_first_occurrences ks k).2 h)
      congr 1
      · apply List.map_congr_left
        intro x hx
        have hxk : x ≠ k := fun e => hk (e ▸ hx)
        have : ¬ k = x := fun e => hxk e.symm
        simp [List.count_append, hxk, this]
      · simp [List.count_append, List.count_eq_zero_of_not_mem hkks, UINT_MOD]

theorem first_index_append_of_mem (k : CString) : ∀ (ks l : List CString), k ∈ ks →
    first_index k (ks ++ l) = first_index k ks
  | [], _, h => by simp at h
  | x :: ks, l, h => by
    by_cases hx : x = k
    · simp [first_index, hx]
    · have hk : k ∈ ks := by
        rcases List.mem_cons.1 h with e | e
        · exact absurd e.symm hx
        · exact e
      simp [first_index, hx, first_index_append_of_mem k ks l hk]

theorem first_index_append_of_not_mem (k : CString) : ∀ (ks l : List CString), k ∉ ks →
    first_index k (ks ++ l) = ks.length + first_index k l
  | [], _, _ => by simp
  | x :: ks, l, h => by
    have hx : x ≠ k := fun e => h (e ▸ List.mem_cons_self _ _)
    have hk : k ∉ ks := fun e => h (List.mem_cons_of_mem _ e)
    have ih := first_index_append_of_not_mem k ks l hk
    show (if x = k then 0 else first_index k (ks ++ l) + 1) = _
    rw [if_neg hx, ih, List.length_cons]
    omega

theorem first_index_lt_length (k : CString) : ∀ (ks : List CString), k ∈ ks →
    first_index k ks < ks.length
  | [], h => by simp at h
  | x :: ks, h => by
    by_cases hx : x = k
    · simp [first_index, hx]
    · have hk : k ∈ ks := by
        rcases List.mem_cons.1 h with e | e
        · exact absurd e.symm hx
        · exact e
      have := first_index_lt_length k ks hk
      simp only [first_index, if_neg hx, List.length_cons]
      omega

theorem pairwise_first_occurrences (ks : List CString) :
    (first_occurrences ks).Pairwise (fun a b => first_index a ks < first_index b ks) := by
  induction ks using List.reverseRecOn with
  | nil => simp [first_occurrences]
  | append_singleton ks k ih =>
    have hold : (first_occurrences ks).Pairwise
        (fun a b => first_index a (ks ++ [k]) < first_index b (ks ++ [k])) := by
      refine List.Pairwise.imp_of_mem ?_ ih
      intro a b ha hb hab
      rw [first_index_append_of_mem a ks [k] ((mem_first_occurrences ks a).1 ha),
        first_index_append_of_mem b ks [k] ((mem_first_occurrences ks b).1 hb)]
      exact hab
    rw [first_occurrences_snoc]
    split
    · exact hold
    · rename_i hk
      have hkks : k ∉ ks := fun h => hk ((mem_first_occurrences ks k).2 h)
      refine List.pairwise_append.2 ⟨hold, List.pairwise_singleton _ _, ?_⟩
      intro a ha b hb
      rw [List.mem_singleton] at hb
      subst hb
      have haks := (mem_first_occurrences ks a).1 ha
      rw [first_index_append_of_mem a ks [b] haks, first_index_append_of_not_mem b ks [b] hkks]
      have := first_index_lt_length a ks haks
      omega

theorem first_occurrences_of_nodup (ks : List CString) (hnd : ks.Nodup) :
    first_occurrences ks = ks := by
  induction ks using List.reverseRecOn with
  | nil => simp [first_occurrences]
  | append_singleton ks k ih =>
    have h1 := List.nodup_append.1 hnd
    have hk : k ∉ ks := fun h => h1.2.2 h (List.mem_singleton_self k)
    have hk1 : k ∉ first_occurrences ks := by rw [ih h1.1]; exact hk
    rw [first_occurrences_snoc, if_neg hk1, ih h1.1]

theorem first_occurrences_replicate (k : CString) : ∀ (N : Nat), 1 ≤ N →
    first_occurrences (List.replicate N k) = [k]
  | 0, h => by omega
  | 1, _ => by simp [first_occurrences]
  | N + 2, _ => by
    have ih := first_occurrences_replicate k (N + 1) (by omega)
    rw [List.replicate_succ', first_occurrences_snoc, ih]
    simp

theorem find_after_add_words {n : Nat} (hn : IsPow2Cap n) {ks : List CString}
    (hv : ∀ k ∈ ks, ValidKey k) {k : CString} (hk0 : (0 : Byte) ∉ k)
    (hklen : k.length < UINT_MOD) :
    ∃ s, add_words (init_state n) ks = some s ∧
      (ks.count k = 0 → find_word s k = some none) ∧
      (1 ≤ ks.count k → ∃ p, find_word s k = some (some p) ∧ key_of s.heap p = k ∧
        count_of s.heap p = ks.count k % UINT_MOD) := by
  obtain ⟨s, L, hrun, hinv, hview⟩ := add_words_refines hn hv
  obtain ⟨r, hfind, hsome, hnone⟩ := find_word_spec hinv.1 hinv.2.1 hk0 hklen
  rw [tally_closed] at hview
  have hmem : ∀ a ∈ L, key_of s.heap a ∈ ks ∧
      count_of s.heap a = ks.count (key_of s.heap a) % UINT_MOD := by
    intro a ha
    have : (key_of s.heap a, count_of s.heap a) ∈ view s.heap L :=
      List.mem_map.2 ⟨a, ha, rfl⟩
    rw [hview, List.mem_map] at this
    obtain ⟨x, hx, hxe⟩ := this
    simp only [Prod.mk.injEq] at hxe
    rw [← hxe.1, ← hxe.2]
    exact ⟨(mem_first_occurrences ks x).1 hx, rfl⟩
  refine ⟨s, hrun, ?_, ?_⟩
  · intro h0
    cases r with
    | none => exact hfind
    | some p =>
      obtain ⟨hp, hkp⟩ := hsome p rfl
      have := (hmem p hp).1
      rw [hkp] at this
      exact absurd (List.count_pos_iff.2 this) (by omega)
  · intro h1
    have hkks : k ∈ ks := List.count_pos_iff.1 (by omega)
    cases r with
    | none =>
      have : (k, ks.count k % UINT_MOD) ∈ view s.heap L := by
        rw [hview, List.mem_map]
        exact ⟨k, (mem_first_occurrences ks k).2 hkks, rfl⟩
      obtain ⟨a, ha, hae⟩ := List.mem_map.1 this
      simp only [Prod.mk.injEq] at hae
      exact absurd hae.1 (hnone rfl a ha)
    | some p =>
      obtain ⟨hp, hkp⟩ := hsome p rfl
      refine ⟨p, hfind, hkp, ?_⟩
      rw [(hmem p hp).2, hkp]

theorem report_after_add_words {n : Nat} (hn : IsPow2Cap n) {ks : List CString}
    (hv : ∀ k ∈ ks, ValidKey k) :
    ∃ s L, add_words (init_state n) ks = some s ∧ TableOK s L ∧
      hash_iter s = some L ∧
      hash_count s s.word_table = some (first_occurrences ks).length ∧
      report s = some ((first_occurrences ks).map (fun k => (k, ks.count k % UINT_MOD))) ∧
      L.map (key_of s.heap) = first_occurrences ks := by
  obtain ⟨s, L, hrun, hinv, hview⟩ := add_words_refines hn hv
  rw [tally_closed] at hview
  refine ⟨s, L, hrun, hinv.1, hash_iter_of_seg hinv.1.2.1, ?_, ?_, ?_⟩
  · rw [hash_count_of_TableOK hinv.1]
    have := congrArg List.length hview
    simpa [view] using this
  · rw [report_of_TableOK hinv.1, hview]
  · have := congrArg (List.map Prod.fst) hview
    simpa [view, Function.comp_def] using this

theorem isPow2Cap_32 : IsPow2Cap 32 := ⟨5, by norm_num, by unfold BUCKET_NUM_MAX; omega⟩

theorem isPow2Cap_1 : IsPow2Cap 1 := ⟨0, by norm_num, by unfold BUCKET_NUM_MAX; omega⟩

theorem validKey_a : ValidKey [97] := ⟨by decide, by decide, by decide⟩

theorem hash_find_in_bkt_congr {h : Heap} {k1 k2 : CString} {n : Nat}
    (hcmp : ∀ a, strncmp_eq a k1 n = strncmp_eq a k2 n) :
    ∀ (fuel : Nat) (p : Option Nat),
    hash_find_in_bkt h k1 n fuel p = hash_find_in_bkt h k2 n fuel p := by
  intro fuel
  induction fuel with
  | zero => intro p; rfl
  | succ fuel ih =>
    intro p
    cases p with
    | none => rfl
    | some a =>
      simp only [hash_find_in_bkt]
      cases h[a]? with
      | none => rfl
      | some w => simp only [hcmp, ih]

theorem find_word_long_key (s : State) (c : Byte) (hc : c ≠ 0) (rest : CString)
    (h0 : (0 : Byte) ∉ rest) (hlen : rest.length = 4294967296) :
    find_word s (c :: rest) = find_word s [c] := by
  have hl1 : strlen (c :: rest) % UINT_MOD = 1 := by
    have hnul : (0 : Byte) ∉ c :: rest := by
      intro hm
      rcases List.mem_cons.1 hm with e | e
      · exact hc e.symm
      · exact h0 e
    rw [strlen_of_nonul _ hnul, List.length_cons, hlen]
    unfold UINT_MOD; norm_num
  have hl2 : strlen [c] % UINT_MOD = 1 := by
    simp [strlen, hc, UINT_MOD]
  have hh : hash_jen (c :: rest) 1 = hash_jen [c] 1 := by
    simp [hash_jen, List.range_succ]
  have hcmp : ∀ a, strncmp_eq a (c :: rest) 1 = strncmp_eq a [c] 1 := by
    intro a
    simp [strncmp_eq]
  simp only [find_word, hash_find_str, hl1, hl2, hh]
  cases s.word_table with
  | none => rfl
  | some hd =>
    simp only
    cases s.table with
    | none => rfl
    | some t =>
      simp only
      cases t.buckets[hash_get_index (hash_jen [c] 1) t.count]? with
      | none => rfl
      | some b => exact hash_find_in_bkt_congr hcmp _ _

/-! ## Claims on hash_sort -/

theorem table_of_hash_count {s : State} {L : List Nat} {n : Nat}
    (hit : hash_iter s = some L) (hne : L ≠ []) (hcnt : hash_count s s.word_table = some n) :
    ∃ tbl, s.table = some tbl ∧ tbl.num = n := by
  cases hwt : s.word_table with
  | none => exact absurd (Seg_none_nil (hwt ▸ seg_of_hash_iter hit)) hne
  | some hd =>
    simp only [hash_count, hwt] at hcnt
    cases ht : s.table with
    | none => simp [ht] at hcnt
    | some tbl => exact ⟨tbl, rfl, by simpa [ht] using hcnt⟩

/-- C5: for every non-empty index (iteration yields the entries `L`, not empty,
and `hash_count` is defined), `hash_sort` returns and the sequence iterated
from the updated head has non-increasing count: every entry's count is at
least the count of the entry that follows it, and of every later entry. -/
theorem hash_sort_nonincreasing (s : State) (L : List Nat) (n : Nat)
    (hit : hash_iter s = some L) (hne : L ≠ []) (hcnt : hash_count s s.word_table = some n) :
    ∃ s1 L1, hash_sort s = some s1 ∧ hash_iter s1 = some L1 ∧
      L1.Chain' (fun a b => count_of s1.heap a ≥ count_of s1.heap b) ∧
      L1.Pairwise (fun a b => count_of s1.heap a ≥ count_of s1.heap b) := by
  obtain ⟨tbl, hst, _⟩ := table_of_hash_count hit hne hcnt
  obtain ⟨s1, L1, hrun, herase, hseg, ⟨_, hsorted, _, _⟩, _⟩ := hash_sort_spec hit hne hst
  have hpw : L1.Pairwise (fun a b => count_of s1.heap a ≥ count_of s1.heap b) := by
    refine hsorted.imp ?_
    intro a b hab
    rw [count_of_eq_of_erase_nw herase, count_of_eq_of_erase_nw herase]
    exact hab
  exact ⟨s1, L1, hrun, hash_iter_of_seg hseg, List.Pairwise.chain' hpw, hpw⟩

theorem hash_sort_nonincreasing_witness :
    hash_iter sample_index = some [0, 1, 2] ∧ [0, 1, 2] ≠ [] ∧
    hash_count sample_index sample_index.word_table = some 3 ∧
    ∃ s1 L1, hash_sort sample_index = some s1 ∧ hash_iter s1 = some L1 ∧
      L1.Chain' (fun a b => count_of s1.heap a ≥ count_of s1.heap b) ∧
      L1.Pairwise (fun a b => count_of s1.heap a ≥ count_of s1.heap b) :=
  ⟨by decide, by decide, by decide,
    hash_sort_nonincreasing sample_index [0, 1, 2] 3 (by decide) (by decide) (by decide)⟩

/-- C7: `hash_sort` only reorders.  For every index (iteration yields `L`,
`hash_count` is `n`) `hash_sort` returns; the sequence iterated afterwards is a
permutation of `L` without repetition, every heap object keeps its key and its
count, no object is created or freed, and `hash_count` is still `n`. -/
theorem hash_sort_permutation (s : State) (L : List Nat) (n : Nat)
    (hit : hash_iter s = some L) (hcnt : hash_count s s.word_table = some n) :
    ∃ s1 L1, hash_sort s = some s1 ∧ hash_iter s1 = some L1 ∧
      L1.Perm L ∧ L1.Nodup ∧
      (∀ a, key_of s1.heap a = key_of s.heap a ∧ count_of s1.heap a = count_of s.heap a) ∧
      s1.heap.length = s.heap.length ∧
      hash_count s1 s1.word_table = some n := by
  by_cases hne : L = []
  · subst hne
    exact ⟨s, [], hash_sort_empty hit, hit, List.Perm.refl _, List.nodup_nil,
      fun a => ⟨rfl, rfl⟩, rfl, hcnt⟩
  · obtain ⟨tbl, hst, hnum⟩ := table_of_hash_count hit hne hcnt
    obtain ⟨s1, L1, hrun, herase, hseg, ⟨hperm, _, _, _⟩, hs1⟩ := hash_sort_spec hit hne hst
    refine ⟨s1, L1, hrun, hash_iter_of_seg hseg, hperm, Seg_nodup hseg,
      fun a => ⟨key_of_eq_of_erase_nw herase a, count_of_eq_of_erase_nw herase a⟩, ?_, ?_⟩
    · have := congrArg List.length herase
      simpa [erase_nw] using this
    · have hne1 : L1 ≠ [] := fun e => hne (by rw [e] at hperm; exact hperm.symm.eq_nil)
      rw [hs1]
      cases L1 with
      | nil => exact absurd rfl hne1
      | cons a L1 => simp [hash_count, hnum]

theorem hash_sort_permutation_witness :
    hash_iter sample_index = some [0, 1, 2] ∧
    hash_count sample_index sample_index.word_table = some 3 ∧
    ∃ s1 L1, hash_sort sample_index = some s1 ∧ hash_iter s1 = some L1 ∧
      L1.Perm [0, 1, 2] ∧ L1.Nodup ∧
      (∀ a, key_of s1.heap a = key_of sample_index.heap a ∧
        count_of s1.heap a = count_of sample_index.heap a) ∧
      s1.heap.length = sample_index.heap.length ∧
      hash_count s1 s1.word_table = some 3 :=
  ⟨by decide, by decide,
    hash_sort_permutation sample_index [0, 1, 2] 3 (by decide) (by decide)⟩

/-- C8: `hash_sort` is idempotent.  For every index (iteration yields `L`,
`hash_count` is defined) `hash_sort` returns, `hash_sort` applied to the sorted
index returns as well, and the iteration sequence after the second sort is
the iteration sequence after the first: the same entries at the same
positions. -/
theorem hash_sort_idempotent (s : State) (L : List Nat) (n : Nat)
    (hit : hash_iter s = some L) (hcnt : hash_count s s.word_table = some n) :
    ∃ s1 s2 L1, hash_sort s = some s1 ∧ hash_sort s1 = some s2 ∧
      hash_iter s1 = some L1 ∧ hash_iter s2 = some L1 := by
  by_cases hne : L = []
  · subst hne
    exact ⟨s, s, [], hash_sort_empty hit, hash_sort_empty hit, hit, hit⟩
  · obtain ⟨tbl, hst, _⟩ := table_of_hash_count hit hne hcnt
    obtain ⟨s1, L1, hrun, herase, hseg, ⟨hperm, hsorted, _, _⟩, hs1⟩ :=
      hash_sort_spec hit hne hst
    have hst1 : s1.table = some { tbl with tail := L1.getLast? } := by rw [hs1]
    have hne1 : L1 ≠ [] := fun e => hne (by rw [e] at hperm; exact hperm.symm.eq_nil)
    have hit1 := hash_iter_of_seg hseg
    have hsorted1 : L1.Pairwise (fun a b => count_of s1.heap a ≥ count_of s1.heap b) := by
      refine hsorted.imp ?_
      intro a b hab
      rw [count_of_eq_of_erase_nw herase, count_of_eq_of_erase_nw herase]
      exact hab
    obtain ⟨s2, L2, hrun2, _, hseg2, ⟨_, _, _, hid⟩, _⟩ := hash_sort_spec hit1 hne1 hst1
    have hL2 : L2 = L1 := hid hsorted1
    subst hL2
    exact ⟨s1, s2, L2, hrun, hrun2, hit1, hash_iter_of_seg hseg2⟩

theorem hash_sort_idempotent_witness :
    hash_iter sample_index = some [0, 1, 2] ∧
    hash_count sample_index sample_index.word_table = some 3 ∧
    ∃ s1 s2 L1, hash_sort sample_index = some s1 ∧ hash_sort s1 = some s2 ∧
      hash_iter s1 = some L1 ∧ hash_iter s2 = some L1 :=
  ⟨by decide, by decide,
    hash_sort_idempotent sample_index [0, 1, 2] 3 (by decide) (by decide)⟩

/-- C9: adding the keys "a", "b", "a", "c", "b", "a" in that order to the empty
index of the program start gives `hash_count() == 3`, `find_word` finds "a",
"b", "c" with counts 3, 2, 1, and after `hash_sort` the iteration yields
"a", "b", "c" in that order (with those counts). -/
theorem scenario_abacba :
    (add_words initial scenario_keys).bind (fun s => hash_count s s.word_table) = some 3 ∧
    (add_words initial scenario_keys).bind
      (fun s => (find_word s [97]).map (Option.map (count_of s.heap))) = some (some 3) ∧
    (add_words initial scenario_keys).bind
      (fun s => (find_word s [98]).map (Option.map (count_of s.heap))) = some (some 2) ∧
    (add_words initial scenario_keys).bind
      (fun s => (find_word s [99]).map (Option.map (count_of s.heap))) = some (some 1) ∧
    (add_words initial scenario_keys).bind (fun s => (hash_sort s).bind report) =
      some [([97], 3), ([98], 2), ([99], 1)] := by
  refine ⟨by decide, by decide, by decide, by decide, by decide⟩

theorem valid_scenario_keys : ∀ k ∈ scenario_keys, ValidKey k := by
  intro k hk
  simp only [scenario_keys, List.mem_cons, List.mem_singleton, List.not_mem_nil, or_false] at hk
  rcases hk with rfl | rfl | rfl | rfl | rfl | rfl <;>
    exact ⟨by decide, by decide, by decide⟩

theorem valid_twelve_keys : ∀ k ∈ twelve_keys, ValidKey k := by
  intro k hk
  simp only [twelve_keys, List.mem_cons, List.mem_singleton, List.not_mem_nil, or_false] at hk
  rcases hk with rfl | rfl | rfl | rfl | rfl | rfl | rfl | rfl | rfl | rfl | rfl | rfl <;>
    exact ⟨by decide, by decide, by decide⟩

theorem count_one_of_nodup : ∀ (ks : List CString), ks.Nodup → ∀ k ∈ ks, ks.count k = 1
  | [], _, k, hk => by simp at hk
  | x :: ks, hnd, k, hk => by
    have hx : x ∉ ks := (List.nodup_cons.1 hnd).1
    rw [List.count_cons]
    by_cases hxk : x = k
    · subst hxk
      simp [List.count_eq_zero_of_not_mem hx]
    · have hkks : k ∈ ks := by
        rcases List.mem_cons.1 hk with e | e
        · exact absurd e.symm hxk
        · exact e
      simp [hxk, count_one_of_nodup ks (List.nodup_cons.1 hnd).2 k hkks]

theorem repeated_key_spec {n : Nat} (hn : IsPow2Cap n) {k : CString} (hk : ValidKey k)
    {N : Nat} (hN : 1 ≤ N) :
    ∃ s, add_words (init_state n) (List.replicate N k) = some s ∧
      hash_count s s.word_table = some 1 ∧ report s = some [(k, N % UINT_MOD)] ∧
      ∃ p, find_word s k = some (some p) ∧ key_of s.heap p = k ∧
        count_of s.heap p = N % UINT_MOD := by
  have hv : ∀ x ∈ List.replicate N k, ValidKey x := by
    intro x hx
    rw [List.eq_of_mem_replicate hx]
    exact hk
  have hkmod : k.length < UINT_MOD := by
    have := hk.2.2
    unfold KEY_MAX_LEN at this; unfold UINT_MOD; omega
  obtain ⟨s, L, hrun, _, _, hcnt, hrep, _⟩ := report_after_add_words hn hv
  obtain ⟨s2, hrun2, _, hfind⟩ := find_after_add_words hn hv hk.1 hkmod
  have hs2 : s2 = s := by
    rw [hrun] at hrun2
    exact (Option.some.inj hrun2).symm
  subst hs2
  have hc : List.count k (List.replicate N k) = N := List.count_replicate_self _ _
  rw [first_occurrences_replicate k N hN] at hcnt hrep
  rw [hc] at hfind
  refine ⟨s2, hrun, by simpa using hcnt, by simpa [hc] using hrep, hfind hN⟩

/-! ## Claims on add_word and hash_add_str -/

/-- C1 (amended): for every sequence of `add_word` calls on an empty index
(initial bucket count a power of two up to `BUCKET_NUM_MAX`) whose keys have
length between 1 and `KEY_MAX_LEN` and no NUL byte, and for every NUL-free key
`k` shorter than 2^32 bytes: all the calls return; `find_word(k)` returns
`NULL` when `k` never occurs in the sequence; and when `k` occurs it returns
the entry whose key is `k` and whose count is the number of occurrences of `k`
modulo 2^32 (the counter is an `unsigned`). -/
theorem find_word_after_add_words (n : Nat) (hn : IsPow2Cap n) (ks : List CString)
    (hv : ∀ k ∈ ks, ValidKey k) (k : CString) (hk0 : (0 : Byte) ∉ k)
    (hklen : k.length < UINT_MOD) :
    ∃ s, add_words (init_state n) ks = some s ∧
      (ks.count k = 0 → find_word s k = some none) ∧
      (1 ≤ ks.count k → ∃ p, find_word s k = some (some p) ∧ key_of s.heap p = k ∧
        count_of s.heap p = ks.count k % UINT_MOD) :=
  find_after_add_words hn hv hk0 hklen

theorem find_word_after_add_words_witness :
    IsPow2Cap 32 ∧ (∀ k ∈ scenario_keys, ValidKey k) ∧ (0 : Byte) ∉ ([97] : CString) ∧
    ([97] : CString).length < UINT_MOD ∧
    ∃ s, add_words (init_state 32) scenario_keys = some s ∧
      (scenario_keys.count [97] = 0 → find_word s [97] = some none) ∧
      (1 ≤ scenario_keys.count [97] → ∃ p, find_word s [97] = some (some p) ∧
        key_of s.heap p = [97] ∧
        count_of s.heap p = scenario_keys.count [97] % UINT_MOD) :=
  ⟨isPow2Cap_32, valid_scenario_keys, by decide, by decide,
    find_word_after_add_words 32 isPow2Cap_32 scenario_keys valid_scenario_keys [97]
      (by decide) (by decide)⟩

/-- C1 as stated fails twice.  After 2^32 calls `add_word("a")` on the empty
index of the program start, `find_word("a")` returns an entry whose count is
0, while "a" occurs 2^32 times in the sequence.  And after the single call
`add_word("a")`, `find_word` on the key of 2^32 + 1 bytes "aa...a", which
never occurs in the sequence, returns the entry of "a" instead of `NULL`: the
key length is cut to an `unsigned`. -/
theorem find_word_wraps_and_truncates :
    (add_words initial (List.replicate 4294967296 [97])).bind
      (fun s => (find_word s [97]).map (Option.map (count_of s.heap))) = some (some 0) ∧
    (List.replicate 4294967296 ([97] : CString)).count [97] = 4294967296 ∧
    (add_words initial [[97]]).bind
      (fun s => find_word s (97 :: List.replicate 4294967296 97)) = some (some 0) ∧
    (97 :: List.replicate 4294967296 (97 : Byte)) ∉ ([[97]] : List CString) := by
  obtain ⟨s, hrun, _, _, p, hfind, _, hcp⟩ :=
    repeated_key_spec isPow2Cap_32 validKey_a (N := 4294967296) (by norm_num)
  have hrun1 : add_words initial (List.replicate 4294967296 [97]) = some s := hrun
  have h0 : 4294967296 % UINT_MOD = 0 := by unfold UINT_MOD; norm_num
  refine ⟨?_, List.count_replicate_self _ _, ?_, ?_⟩
  · rw [hrun1, Option.some_bind, hfind, Option.map_some', Option.map_some', hcp, h0]
  · have hlong : ∀ s : State, find_word s (97 :: List.replicate 4294967296 97) =
        find_word s [97] := by
      intro s
      refine find_word_long_key s 97 (by decide) _ ?_ (List.length_replicate _ _)
      intro hm
      exact absurd (List.eq_of_mem_replicate hm) (by decide)
    have hd : (add_words initial [[97]]).bind (fun s => find_word s [97]) = some (some 0) := by
      decide
    have hfun : (fun s : State => find_word s (97 :: List.replicate 4294967296 97)) =
        (fun s : State => find_word s [97]) := funext hlong
    rw [hfun]
    exact hd
  · intro hm
    have h1 := congrArg List.length (List.mem_singleton.1 hm)
    rw [List.length_cons, List.length_replicate] at h1
    exact absurd h1 (by decide)

/-- C2 (amended): for every NUL-free key `k` of length between 1 and
`KEY_MAX_LEN` and every `N >= 1`, `N` calls `add_word(k)` on an empty index
(initial bucket count a power of two up to `BUCKET_NUM_MAX`) all return and
yield an index with `hash_count() == 1` whose single entry has key `k` and
count `N` modulo 2^32. -/
theorem add_word_repeated (n : Nat) (hn : IsPow2Cap n) (k : CString) (hk : ValidKey k)
    (N : Nat) (hN : 1 ≤ N) :
    ∃ s, add_words (init_state n) (List.replicate N k) = some s ∧
      hash_count s s.word_table = some 1 ∧ report s = some [(k, N % UINT_MOD)] := by
  obtain ⟨s, h1, h2, h3, _⟩ := repeated_key_spec hn hk hN
  exact ⟨s, h1, h2, h3⟩

theorem add_word_repeated_witness :
    IsPow2Cap 32 ∧ ValidKey [97] ∧ 1 ≤ 3 ∧
    ∃ s, add_words (init_state 32) (List.replicate 3 [97]) = some s ∧
      hash_count s s.word_table = some 1 ∧ report s = some [([97], 3 % UINT_MOD)] :=
  ⟨isPow2Cap_32, validKey_a, by decide,
    add_word_repeated 32 isPow2Cap_32 [97] validKey_a 3 (by decide)⟩

/-- C2 as stated fails twice: `add_word` on the empty key (length 0, at most
`KEY_MAX_LEN`) does not return normally, the histogram slot `w_lengths[0 - 1]`
being outside the array; and 2^32 calls `add_word("a")` leave the single entry
with count 0, not 2^32. -/
theorem add_word_repeated_fails :
    ([] : CString).length ≤ KEY_MAX_LEN ∧ add_word initial [] = none ∧
    (add_words initial (List.replicate 4294967296 [97])).bind report = some [([97], 0)] := by
  obtain ⟨s, hrun, _, hrep, _⟩ :=
    repeated_key_spec isPow2Cap_32 validKey_a (N := 4294967296) (by norm_num)
  have hrun1 : add_words initial (List.replicate 4294967296 [97]) = some s := hrun
  have h0 : 4294967296 % UINT_MOD = 0 := by unfold UINT_MOD; norm_num
  refine ⟨by decide, by decide, ?_⟩
  rw [hrun1, Option.some_bind, hrep, h0]

/-- C3 (amended): for every list of pairwise distinct NUL-free keys, each of
length between 1 and `KEY_MAX_LEN`, however long (so also long enough to force
resizes), adding each key once with `add_word` to an empty index (initial
bucket count a power of two up to `BUCKET_NUM_MAX`) returns every time and
yields `hash_count()` equal to the number of keys, and the iteration yields
the keys in order, each with count 1. -/
theorem add_distinct_words (n : Nat) (hn : IsPow2Cap n) (ks : List CString)
    (hv : ∀ k ∈ ks, ValidKey k) (hnd : ks.Nodup) :
    ∃ s, add_words (init_state n) ks = some s ∧
      hash_count s s.word_table = some ks.length ∧
      report s = some (ks.map (fun k => (k, 1))) := by
  obtain ⟨s, L, hrun, _, _, hcnt, hrep, _⟩ := report_after_add_words hn hv
  rw [first_occurrences_of_nodup ks hnd] at hcnt hrep
  refine ⟨s, hrun, hcnt, ?_⟩
  rw [hrep]
  congr 1
  apply List.map_congr_left
  intro k hk
  rw [count_one_of_nodup ks hnd k hk]
  rfl

theorem add_distinct_words_witness :
    IsPow2Cap 1 ∧ (∀ k ∈ twelve_keys, ValidKey k) ∧ twelve_keys.Nodup ∧
    (∃ s, add_words (init_state 1) twelve_keys = some s ∧
      hash_count s s.word_table = some twelve_keys.length ∧
      report s = some (twelve_keys.map (fun k => (k, 1)))) ∧
    (add_words (init_state 1) twelve_keys).bind (fun s => s.table.map (fun t => t.count)) =
      some 2 :=
  ⟨isPow2Cap_1, valid_twelve_keys, by decide,
    add_distinct_words 1 isPow2Cap_1 twelve_keys valid_twelve_keys (by decide), by decide⟩

/-- C3 as stated fails: the one-element list holding the empty key is a list
of pairwise distinct keys of length at most `KEY_MAX_LEN`, and `add_word` on it
does not return normally (histogram slot `w_lengths[0 - 1]`), so no
`hash_count()` results. -/
theorem add_distinct_words_empty_key :
    ([[]] : List CString).Nodup ∧ (∀ k ∈ ([[]] : List CString), k.length ≤ KEY_MAX_LEN) ∧
    (add_words initial [[]]).bind (fun s => hash_count s s.word_table) = none := by
  refine ⟨by decide, by decide, by decide⟩

/-- C4 (amended): for every sequence of `add_word` calls on an empty index
(initial bucket count a power of two up to `BUCKET_NUM_MAX`) with NUL-free keys
of length between 1 and `KEY_MAX_LEN`, all calls return and iterating with
`hash_get_next` before any sort yields entries whose keys are the distinct
keys of the sequence in order of first occurrence: no key twice, exactly the
keys of the sequence, and a key comes earlier exactly as its first occurrence
in the sequence does; whatever collisions and resizes happened. -/
theorem iteration_first_occurrence_order (n : Nat) (hn : IsPow2Cap n) (ks : List CString)
    (hv : ∀ k ∈ ks, ValidKey k) :
    ∃ s L, add_words (init_state n) ks = some s ∧ hash_iter s = some L ∧
      L.map (key_of s.heap) = first_occurrences ks ∧
      (first_occurrences ks).Nodup ∧ (∀ k, k ∈ first_occurrences ks ↔ k ∈ ks) ∧
      (first_occurrences ks).Pairwise (fun a b => first_index a ks < first_index b ks) := by
  obtain ⟨s, L, hrun, _, hit, _, _, hkeys⟩ := report_after_add_words hn hv
  exact ⟨s, L, hrun, hit, hkeys, nodup_first_occurrences ks, mem_first_occurrences ks,
    pairwise_first_occurrences ks⟩

theorem iteration_first_occurrence_order_witness :
    IsPow2Cap 32 ∧ (∀ k ∈ scenario_keys, ValidKey k) ∧
    (∃ s L, add_words (init_state 32) scenario_keys = some s ∧ hash_iter s = some L ∧
      L.map (key_of s.heap) = first_occurrences scenario_keys ∧
      (first_occurrences scenario_keys).Nodup ∧
      (∀ k, k ∈ first_occurrences scenario_keys ↔ k ∈ scenario_keys) ∧
      (first_occurrences scenario_keys).Pairwise
        (fun a b => first_index a scenario_keys < first_index b scenario_keys)) ∧
    first_occurrences scenario_keys = [[97], [98], [99]] :=
  ⟨isPow2Cap_32, valid_scenario_keys,
    iteration_first_occurrence_order 32 isPow2Cap_32 scenario_keys valid_scenario_keys,
    by decide⟩

/-- C4 as stated fails: for the sequence holding only the empty key (length 0,
at most `KEY_MAX_LEN`) `add_word` does not return normally (histogram slot
`w_lengths[0 - 1]`), so there is no index to iterate. -/
theorem iteration_empty_key :
    (∀ k ∈ ([[]] : List CString), k.length ≤ KEY_MAX_LEN) ∧
    (add_words initial [[]]).bind hash_iter = none := by
  refine ⟨by decide, by decide⟩

theorem tableOK_sample_fresh : TableOK sample_fresh [] :=
  ⟨isPow2Cap_32, rfl, fun h => absurd rfl h⟩

/-- C10: `hash_add_str` adds the item exactly when `keylen <= KEY_MAX_LEN`.
For every index `s` with entries `L` (also the empty one), every allocated
item that is not yet in the index, every key and every `keylen`: either
`keylen <= KEY_MAX_LEN` and the call returns an index in which the item is
added and counted (the iteration yields `L` followed by the item,
`hash_count()` is one more, the item is on the chain of its bucket, every key
and count is as before), or `keylen > KEY_MAX_LEN` and the call returns the
state unchanged as a whole. -/
theorem hash_add_str_key_length (s : State) (L : List Nat) (item : Nat) (wi : word)
    (key : CString) (keylen : Nat)
    (hok : TableOK s L) (hitem : item ∉ L) (hwi : s.heap[item]? = some wi) :
    hash_iter s = some L ∧ hash_count s s.word_table = some L.length ∧
    ((keylen ≤ KEY_MAX_LEN ∧
        ∃ s1, hash_add_str s key item keylen = some s1 ∧
          hash_iter s1 = some (L ++ [item]) ∧
          hash_count s1 s1.word_table = some (L.length + 1) ∧
          TableOK s1 (L ++ [item]) ∧
          ∀ a, key_of s1.heap a = key_of s.heap a ∧ count_of s1.heap a = count_of s.heap a) ∨
      (KEY_MAX_LEN < keylen ∧ hash_add_str s key item keylen = some s)) := by
  refine ⟨hash_iter_of_seg hok.2.1, hash_count_of_TableOK hok, ?_⟩
  by_cases hlen : keylen ≤ KEY_MAX_LEN
  · left
    obtain ⟨s1, hrun, hok1, hinfo, hinfoi, _⟩ := hash_add_str_spec key hok hitem hwi hlen
    refine ⟨hlen, s1, hrun, hash_iter_of_seg hok1.2.1, ?_, hok1, ?_⟩
    · rw [hash_count_of_TableOK hok1]; simp
    · intro a
      by_cases ha : a = item
      · subst ha
        rw [key_of_of_info hinfoi, count_of_of_info hinfoi, key_of_get hwi, count_of_get hwi]
        exact ⟨rfl, rfl⟩
      · exact ⟨key_of_eq_of_info (hinfo a ha), count_of_eq_of_info (hinfo a ha)⟩
  · right
    have hgt : keylen > KEY_MAX_LEN := by omega
    refine ⟨hgt, ?_⟩
    simp only [hash_add_str]
    rw [if_pos hgt]

theorem hash_add_str_key_length_witness :
    TableOK sample_fresh [] ∧ (0 : Nat) ∉ ([] : List Nat) ∧
    sample_fresh.heap[0]? = some sample_word ∧
    (∃ s1, hash_add_str sample_fresh (List.replicate 512 97) 0 512 = some s1 ∧
      hash_iter s1 = some [0] ∧ hash_count s1 s1.word_table = some 1) ∧
    hash_add_str sample_fresh (List.replicate 513 97) 0 513 = some sample_fresh := by
  refine ⟨tableOK_sample_fresh, by decide, by decide, ?_, ?_⟩
  · rcases (hash_add_str_key_length sample_fresh [] 0 sample_word (List.replicate 512 97) 512
      tableOK_sample_fresh (by decide) (by decide)).2.2 with h | h
    · obtain ⟨_, s1, h1, h2, h3, _⟩ := h
      exact ⟨s1, h1, h2, h3⟩
    · exact absurd h.1 (by decide)
  · rcases (hash_add_str_key_length sample_fresh [] 0 sample_word (List.replicate 513 97) 513
      tableOK_sample_fresh (by decide) (by decide)).2.2 with h | h
    · exact absurd h.1 (by decide)
    · exact h.2

/-! ## Frame of hash_expand_buckets -/

theorem rehash_chain_frame (c : Nat) : ∀ (fuel : Nat) (h : Heap) (nb : List hash_bucket)
    (chh : Option Nat) (h1 : Heap) (nb1 : List hash_bucket),
    rehash_chain c fuel h nb chh = some (h1, nb1) →
    erase_nx h1 = erase_nx h ∧ nb1.length = nb.length := by
  intro fuel
  induction fuel with
  | zero => intro h nb chh h1 nb1 hr; simp [rehash_chain] at hr
  | succ fuel ih =>
    intro h nb chh h1 nb1 hr
    cases chh with
    | none =>
      simp only [rehash_chain, Option.some.injEq, Prod.mk.injEq] at hr
      obtain ⟨e1, e2⟩ := hr
      subst e1 e2
      exact ⟨rfl, rfl⟩
    | some a =>
      simp only [rehash_chain] at hr
      cases hw : h[a]? with
      | none => simp [hw] at hr
      | some w =>
        simp only [hw] at hr
        cases hb : nb[hash_get_index w.hh.hash ((c * 2) % ULONG_MOD)]? with
        | none => simp [hb] at hr
        | some b =>
          simp only [hb] at hr
          obtain ⟨e1, e2⟩ := ih _ _ _ _ _ hr
          refine ⟨e1.trans (erase_nx_set _ hw), ?_⟩
          rw [e2, List.length_set]

theorem rehash_buckets_frame (old : List hash_bucket) (c : Nat) : ∀ (n bkt_i : Nat) (h : Heap)
    (nb : List hash_bucket) (h1 : Heap) (nb1 : List hash_bucket),
    rehash_buckets old c n bkt_i h nb = some (h1, nb1) →
    erase_nx h1 = erase_nx h ∧ nb1.length = nb.length := by
  intro n
  induction n with
  | zero =>
    intro bkt_i h nb h1 nb1 hr
    simp only [rehash_buckets, Option.some.injEq, Prod.mk.injEq] at hr
    obtain ⟨e1, e2⟩ := hr
    subst e1 e2
    exact ⟨rfl, rfl⟩
  | succ n ih =>
    intro bkt_i h nb h1 nb1 hr
    simp only [rehash_buckets] at hr
    cases hb : old[bkt_i]? with
    | none => simp [hb] at hr
    | some b =>
      simp only [hb] at hr
      cases hc : rehash_chain c (h.length + 1) h nb b.head with
      | none => simp [hc] at hr
      | some r =>
        obtain ⟨h2, nb2⟩ := r
        simp only [hc] at hr
        obtain ⟨e1, e2⟩ := rehash_chain_frame c _ _ _ _ _ _ hc
        obtain ⟨e3, e4⟩ := ih _ _ _ _ _ hr
        exact ⟨e3.trans e1, e4.trans e2⟩

theorem hash_expand_buckets_frame {s s1 : State} (hr : hash_expand_buckets s = some s1) :
    ∃ t t1, s.table = some t ∧ s1.table = some t1 ∧ t1.tail = t.tail ∧ t1.num = t.num ∧
      erase_nx s1.heap = erase_nx s.heap ∧
      s1 = { s with heap := s1.heap, table := s1.table, FLAG_EXPAND := s1.FLAG_EXPAND } ∧
      (BUCKET_NUM_MAX ≤ t.count → s1 = { s with FLAG_EXPAND := 0 }) ∧
      (t.count < BUCKET_NUM_MAX → s1.FLAG_EXPAND = s.FLAG_EXPAND ∧
        t1.count = (t.count * 2) % ULONG_MOD ∧
        t1.buckets.length = (if (2 * t.count) % ULONG_MOD > BUCKET_NUM_MAX then BUCKET_NUM_MAX
          else (2 * t.count) % ULONG_MOD)) := by
  unfold hash_expand_buckets at hr
  split at hr
  · exact absurd hr (by simp)
  · rename_i t ht
    simp only at hr
    split at hr
    · rename_i hmax
      have e : s1 = { s with FLAG_EXPAND := 0 } := (Option.some.inj hr).symm
      subst e
      exact ⟨t, t, ht, ht, rfl, rfl, rfl, rfl, fun _ => rfl, fun h => absurd hmax (by omega)⟩
    · rename_i hmax
      split at hr
      · exact absurd hr (by simp)
      · rename_i h2 nb2 hb
        have e := (Option.some.inj hr).symm
        subst e
        obtain ⟨e1, e2⟩ := rehash_buckets_frame _ _ _ _ _ _ _ _ hb
        refine ⟨t, _, ht, rfl, rfl, rfl, e1, rfl, fun h => absurd h hmax,
          fun _ => ⟨rfl, rfl, ?_⟩⟩
        simpa using e2

theorem get_nw_of_erase_nx {h h1 : Heap} (he : erase_nx h1 = erase_nx h) (a : Nat) :
    (h1[a]?).map nw = (h[a]?).map nw := by
  have := congrArg (fun g : Heap => (g[a]?).map nw) he
  simpa [erase_nx, List.getElem?_map, Function.comp_def, nw, word.set_next] using this

theorem iter_loop_congr {s s1 : State} (hwt : s1.word_table = s.word_table)
    (he : erase_nx s1.heap = erase_nx s.heap) :
    ∀ (fuel : Nat) (p : Option Nat), iter_loop s1 fuel p = iter_loop s fuel p := by
  intro fuel
  induction fuel with
  | zero => intro p; rfl
  | succ fuel ih =>
    intro p
    cases p with
    | none => rfl
    | some a =>
      have hg : hash_get_next s1 s1.word_table (some a) = hash_get_next s s.word_table (some a) := by
        rw [hwt]
        cases hw : s.word_table with
        | none => rfl
        | some hd =>
          have := get_nw_of_erase_nx he a
          simp only [hash_get_next]
          cases h1 : s1.heap[a]? <;> cases h2 : s.heap[a]? <;> simp_all [nw]
      simp only [iter_loop, hg]
      cases hash_get_next s s.word_table (some a) with
      | none => rfl
      | some w1 => simp only [ih]

theorem hash_iter_congr {s s1 : State} (hwt : s1.word_table = s.word_table)
    (he : erase_nx s1.heap = erase_nx s.heap) : hash_iter s1 = hash_iter s := by
  have hlen : s1.heap.length = s.heap.length := by
    simpa [erase_nx] using congrArg List.length he
  have hg : hash_get_next s1 s1.word_table none = hash_get_next s s.word_table none := by
    rw [hwt]; cases s.word_table <;> rfl
  simp only [hash_iter, hg, hlen]
  cases hash_get_next s s.word_table none with
  | none => rfl
  | some w => exact iter_loop_congr hwt he _ _

/-! ## Invariant of reachable states -/

theorem get_of_erase_nw_eq {h h1 : Heap} (he : erase_nw h1 = erase_nw h) {a : Nat} {w : word}
    (hw : h[a]? = some w) :
    ∃ w1, h1[a]? = some w1 ∧ w1.set_next_w none = w.set_next_w none := by
  have := congrArg (fun g : Heap => g[a]?) he
  simp only [erase_nw, List.getElem?_map, hw, Option.map_some'] at this
  cases h1a : h1[a]? with
  | none => simp [h1a] at this
  | some w1 => exact ⟨w1, rfl, by simpa [h1a] using this⟩

theorem set_next_w_none_fields {w w1 : word} (h : w1.set_next_w none = w.set_next_w none) :
    w1.key = w.key ∧ w1.count = w.count ∧ w1.hh.next = w.hh.next ∧
    w1.hh.hash = w.hh.hash ∧ w1.hh.keylen = w.hh.keylen := by
  cases w with
  | mk k c hh =>
    cases w1 with
    | mk k1 c1 hh1 =>
      cases hh; cases hh1
      simp only [word.set_next_w, word.mk.injEq, hash_handle.mk.injEq] at h
      simp [h.1, h.2.1, h.2.2.1, h.2.2.2]

theorem info_of_eq_of_erase_nw {h h1 : Heap} (he : erase_nw h1 = erase_nw h) (a : Nat) :
    info_of h1 a = info_of h a := by
  cases hw : h[a]? with
  | none =>
    have hlen : h1.length = h.length := by simpa [erase_nw] using congrArg List.length he
    have : h1[a]? = none := by
      rw [List.getElem?_eq_none_iff] at hw ⊢; omega
    simp [info_of, hw, this]
  | some w =>
    obtain ⟨w1, hw1, hf⟩ := get_of_erase_nw_eq he hw
    obtain ⟨f1, f2, _, f4, f5⟩ := set_next_w_none_fields hf
    simp [info_of, hw, hw1, f1, f2, f4, f5]

theorem KeysOK_perm {h : Heap} {L L1 : List Nat} (hp : L1.Perm L) (hk : KeysOK h L) :
    KeysOK h L1 :=
  ⟨fun a ha => hk.1 a (hp.subset ha), fun a ha b hb => hk.2 a (hp.subset ha) b (hp.subset hb)⟩

theorem hash_sort_inv {s : State} {L : List Nat} (hinv : Inv s L) :
    ∃ s1 L1, hash_sort s = some s1 ∧ Inv s1 L1 ∧ L1.Perm L ∧
      erase_nw s1.heap = erase_nw s.heap ∧ s1.FLAG_EXPAND = s.FLAG_EXPAND ∧
      (s1.word_table = none ↔ s.word_table = none) ∧
      (∀ t, s.table = some t → ∃ t1, s1.table = some t1 ∧ t1.buckets = t.buckets ∧
        t1.count = t.count ∧ t1.num = t.num) ∧
      (s.table = none → s1.table = none) := by
  obtain ⟨hok, hkeys, hhist⟩ := hinv
  have hit := hash_iter_of_seg hok.2.1
  by_cases hL : L = []
  · subst hL
    exact ⟨s, [], hash_sort_empty hit, ⟨hok, hkeys, hhist⟩, List.Perm.refl _, rfl, rfl, Iff.rfl,
      fun t ht => ⟨t, ht, rfl, rfl, rfl⟩, fun h => h⟩
  · obtain ⟨t, hst, htail, hnum, hcap, hbk⟩ := hok.2.2 hL
    obtain ⟨s1, L1, hrun, herase, hseg, ⟨hperm, _, _, _⟩, hs1⟩ := hash_sort_spec hit hL hst
    have hne1 : L1 ≠ [] := fun e => hL (by rw [e] at hperm; exact hperm.symm.eq_nil)
    have hst1 : s1.table = some { t with tail := L1.getLast? } := by rw [hs1]
    have hwt1 : s1.word_table = L1.head? := by rw [hs1]
    have hbic : s1.BUCKET_INIT_COUNT = s.BUCKET_INIT_COUNT := by rw [hs1]
    have hinfo : ∀ a, info_of s1.heap a = info_of s.heap a :=
      fun a => info_of_eq_of_erase_nw herase a
    refine ⟨s1, L1, hrun, ⟨⟨?_, hseg, ?_⟩, ?_, ?_⟩, hperm, herase, by rw [hs1], ?_, ?_, ?_⟩
    · rw [hbic]; exact hok.1
    · intro _
      refine ⟨_, hst1, rfl, ?_, hcap, ?_⟩
      · show t.num = L1.length
        rw [hnum, hperm.length_eq]
      · show BucketsOK (hash_of s1.heap) s1.heap t.buckets t.count (fun a => a ∈ L1)
        refine BucketsOK_congr (fun a => (hperm.mem_iff).symm) ?_
        refine BucketsOK_frame ?_ ?_ hbk
        · intro a _ w hw
          obtain ⟨w1, hw1, hf⟩ := get_of_erase_nw_eq herase hw
          exact ⟨w1, hw1, (set_next_w_none_fields hf).2.2.1⟩
        · intro a ha
          obtain ⟨w, hw⟩ := Seg_valid hok.2.1 ha
          obtain ⟨w1, hw1, hf⟩ := get_of_erase_nw_eq herase hw
          rw [hash_of_get hw1, hash_of_get hw, (set_next_w_none_fields hf).2.2.2.1]
    · exact KeysOK_perm hperm (KeysOK_of_info (fun a _ => hinfo a) hkeys)
    · intro a ha
      have e1 : s1.w_lengths = s.w_lengths := by rw [hs1]
      have e2 : s1.w_lengths_size = s.w_lengths_size := by rw [hs1]
      rw [e1] at ha; rw [e2]; exact hhist a ha
    · have hwt : s.word_table ≠ none := by
        intro e
        have hs := hok.2.1
        rw [e] at hs
        exact hL (Seg_none_nil hs)
      constructor
      · intro e
        rw [hwt1] at e
        cases L1 with
        | nil => exact absurd rfl hne1
        | cons a L1 => simp at e
      · intro e; exact absurd e hwt
    · intro t0 ht0
      rw [hst] at ht0
      have : t = t0 := Option.some.inj ht0
      subst this
      exact ⟨_, hst1, rfl, rfl, rfl⟩
    · intro e; rw [hst] at e; exact absurd e (by simp)

theorem add_word_long {s : State} {L : List Nat} {k : CString} (hinv : Inv s L)
    (hk : WordKey k) (hlong : KEY_MAX_LEN < k.length) :
    ∃ s1, add_word s k = some s1 ∧ Inv s1 L ∧ view s1.heap L = view s.heap L ∧
      s1.table = s.table ∧ s1.word_table = s.word_table ∧ s1.FLAG_EXPAND = s.FLAG_EXPAND := by
  obtain ⟨hok, hkeys, hhist⟩ := hinv
  obtain ⟨hnul, hk1, hkmod⟩ := hk
  have hsl : strlen k % UINT_MOD = k.length := by
    rw [strlen_of_nonul k hnul, Nat.mod_eq_of_lt hkmod]
  obtain ⟨r, hfind, hsome, _⟩ := find_word_spec hok hkeys hnul hkmod
  have hr : r = none := by
    cases r with
    | none => rfl
    | some p =>
      obtain ⟨hp, hkp⟩ := hsome p rfl
      obtain ⟨w, hw⟩ := Seg_valid hok.2.1 hp
      have := (hkeys.1 p hp w hw).2.2.2
      rw [← key_of_get hw, hkp] at this
      omega
  subst hr
  obtain ⟨sa, hsa⟩ : ∃ sa : State, sa =
      if k.length > s.w_length_max then { s with w_length_max := k.length } else s := ⟨_, rfl⟩
  have hsa_heap : sa.heap = s.heap := by rw [hsa]; split <;> rfl
  have hsa_tab : sa.table = s.table := by rw [hsa]; split <;> rfl
  have hsa_wt : sa.word_table = s.word_table := by rw [hsa]; split <;> rfl
  have hsa_bic : sa.BUCKET_INIT_COUNT = s.BUCKET_INIT_COUNT := by rw [hsa]; split <;> rfl
  have hsa_flag : sa.FLAG_EXPAND = s.FLAG_EXPAND := by rw [hsa]; split <;> rfl
  have hsa_hist : HistOK sa := by
    rw [hsa]; split
    · exact hhist
    · exact hhist
  obtain ⟨sb, hrunb, hhistb, hsb⟩ := add_word_length_spec hsa_hist hk1 hkmod
  have hsb_heap : sb.heap = s.heap := by rw [hsb]; exact hsa_heap
  obtain ⟨w0, hw0⟩ : ∃ w0 : word, w0 =
      { key := k, count := 1, hh := { next := none, next_w := none, hash := 0, keylen := 0 } } :=
    ⟨_, rfl⟩
  obtain ⟨sc, hsc⟩ : ∃ sc : State, sc = { sb with heap := sb.heap ++ [w0] } := ⟨_, rfl⟩
  have hsc_heap : sc.heap = s.heap ++ [w0] := by rw [hsc, ← hsb_heap]
  have hvalid : ∀ a ∈ L, a < s.heap.length := by
    intro a ha
    obtain ⟨w, hw⟩ := Seg_valid hok.2.1 ha
    exact (List.getElem?_eq_some_iff.1 hw).1
  have hokc : TableOK sc L := by
    refine TableOK_frame (s := s) ?_ ?_ ?_ ?_ hok
    · intro a _ w hw
      exact ⟨w, by rw [hsc_heap]; exact get_append_old _ hw, rfl, rfl, rfl⟩
    · rw [hsc, hsb]; exact hsa_tab
    · rw [hsc, hsb]; exact hsa_wt
    · rw [hsc, hsb]; exact hsa_bic
  have hinfoL : ∀ a ∈ L, info_of sc.heap a = info_of s.heap a := by
    intro a ha
    rw [hsc_heap]
    exact info_of_append_old _ (hvalid a ha)
  refine ⟨sc, ?_, ⟨hokc, KeysOK_of_info hinfoL hkeys, ?_⟩, ?_, ?_, ?_, ?_⟩
  · simp only [add_word, hfind, hsl, ← hsa, hrunb, strcpy_of_nonul k hnul]
    rw [← hw0, hsb_heap]
    have : ({ sb with heap := s.heap ++ [w0] } : State) = sc := by rw [hsc, hsb_heap]
    rw [this]
    simp only [hash_add_str]
    rw [if_pos hlong]
  · intro a ha
    have e1 : sc.w_lengths = sb.w_lengths := by rw [hsc]
    have e2 : sc.w_lengths_size = sb.w_lengths_size := by rw [hsc]
    rw [e1] at ha; rw [e2]; exact hhistb a ha
  · exact view_congr (fun a ha =>
      ⟨key_of_eq_of_info (hinfoL a ha), count_of_eq_of_info (hinfoL a ha)⟩)
  · rw [hsc, hsb]; exact hsa_tab
  · rw [hsc, hsb]; exact hsa_wt
  · rw [hsc, hsb]; exact hsa_flag

theorem add_word_inv {s : State} {L : List Nat} {k : CString} (hinv : Inv s L)
    (hk : WordKey k) : ∃ s1 L1, add_word s k = some s1 ∧ Inv s1 L1 := by
  by_cases hlong : KEY_MAX_LEN < k.length
  · obtain ⟨s1, h1, h2, _⟩ := add_word_long hinv hk hlong
    exact ⟨s1, L, h1, h2⟩
  · obtain ⟨s1, L1, h1, h2, _⟩ := add_word_spec hinv (k := k) ⟨hk.1, hk.2.1, by omega⟩
    exact ⟨s1, L1, h1, h2⟩

theorem run_ops_inv : ∀ (ops : List Op) (s : State) (L : List Nat),
    Inv s L → (∀ op ∈ ops, OpOK op) → ∃ s1 L1, run_ops s ops = some s1 ∧ Inv s1 L1
  | [], s, L, hinv, _ => ⟨s, L, rfl, hinv⟩
  | op :: ops, s, L, hinv, hv => by
    have hop := hv op (List.mem_cons_self _ _)
    have hstep : ∃ s1 L1, run_op s op = some s1 ∧ Inv s1 L1 := by
      cases op with
      | add k => exact add_word_inv hinv hop
      | sort =>
        obtain ⟨s1, L1, h1, h2, _⟩ := hash_sort_inv hinv
        exact ⟨s1, L1, h1, h2⟩
    obtain ⟨s1, L1, h1, h2⟩ := hstep
    obtain ⟨s2, L2, g1, g2⟩ := run_ops_inv ops s1 L1 h2 (fun x hx => hv x (List.mem_cons_of_mem _ hx))
    exact ⟨s2, L2, by simp only [run_ops, h1]; exact g1, g2⟩

/-! ## The expand flag and the growth locks -/

theorem rehash_chain_locks (c : Nat) : ∀ (fuel : Nat) (h : Heap) (nb : List hash_bucket)
    (chh : Option Nat) (h1 : Heap) (nb1 : List hash_bucket),
    rehash_chain c fuel h nb chh = some (h1, nb1) → LocksExact nb → LocksExact nb1 := by
  intro fuel
  induction fuel with
  | zero => intro h nb chh h1 nb1 hr; simp [rehash_chain] at hr
  | succ fuel ih =>
    intro h nb chh h1 nb1 hr hl
    cases chh with
    | none =>
      simp only [rehash_chain, Option.some.injEq, Prod.mk.injEq] at hr
      obtain ⟨_, e2⟩ := hr
      subst e2
      exact hl
    | some a =>
      simp only [rehash_chain] at hr
      cases hw : h[a]? with
      | none => simp [hw] at hr
      | some w =>
        simp only [hw] at hr
        cases hb : nb[hash_get_index w.hh.hash ((c * 2) % ULONG_MOD)]? with
        | none => simp [hb] at hr
        | some b =>
          simp only [hb] at hr
          refine ih _ _ _ _ _ hr ?_
          intro b1 hb1
          rcases List.mem_or_eq_of_mem_set hb1 with hm | he
          · exact hl b1 hm
          · have hbm : b ∈ nb := List.getElem?_mem hb
            have := hl b hbm
            subst he
            simp only
            by_cases hge : b.num + 1 ≥ BUCKET_NUM_TRESH
            · simp only [if_pos hge]
              exact ⟨fun _ => hge, fun _ => by decide⟩
            · simp only [if_neg hge]
              constructor
              · intro hne
                have := this.1 hne
                omega
              · intro h2
                exact absurd h2 hge

theorem rehash_buckets_locks (old : List hash_bucket) (c : Nat) : ∀ (n bkt_i : Nat) (h : Heap)
    (nb : List hash_bucket) (h1 : Heap) (nb1 : List hash_bucket),
    rehash_buckets old c n bkt_i h nb = some (h1, nb1) → LocksExact nb → LocksExact nb1 := by
  intro n
  induction n with
  | zero =>
    intro bkt_i h nb h1 nb1 hr hl
    simp only [rehash_buckets, Option.some.injEq, Prod.mk.injEq] at hr
    obtain ⟨_, e2⟩ := hr
    subst e2
    exact hl
  | succ n ih =>
    intro bkt_i h nb h1 nb1 hr hl
    simp only [rehash_buckets] at hr
    cases hb : old[bkt_i]? with
    | none => simp [hb] at hr
    | some b =>
      simp only [hb] at hr
      cases hc : rehash_chain c (h.length + 1) h nb b.head with
      | none => simp [hc] at hr
      | some r =>
        obtain ⟨h2, nb2⟩ := r
        simp only [hc] at hr
        exact ih _ _ _ _ _ hr (rehash_chain_locks c _ _ _ _ _ _ hc hl)

theorem locksExact_replicate (n : Nat) : LocksExact (List.replicate n empty_bucket) := by
  intro b hb
  have := List.eq_of_mem_replicate hb
  subst this
  simp [empty_bucket, BUCKET_NUM_TRESH]

theorem hash_expand_buckets_locks {s s1 : State} {t : hash_table}
    (hr : hash_expand_buckets s = some s1) (hst : s.table = some t)
    (hlt : t.count < BUCKET_NUM_MAX) :
    ∃ t1, s1.table = some t1 ∧ LocksExact t1.buckets := by
  unfold hash_expand_buckets at hr
  split at hr
  · exact absurd hr (by simp)
  · rename_i t0 ht
    have : t0 = t := Option.some.inj (ht.symm.trans hst)
    subst this
    simp only at hr
    split at hr
    · rename_i hmax; omega
    · split at hr
      · exact absurd hr (by simp)
      · rename_i h nb hrb
        have e := Option.some.inj hr
        subst e
        exact ⟨_, rfl, rehash_buckets_locks _ _ _ _ _ _ _ _ hrb (locksExact_replicate _)⟩

/-- The bucket that `hash_add_to_bkt` makes of `b` when it links `hh`. -/
theorem hash_add_to_bkt_step {s s1 : State} {t : hash_table} {b : hash_bucket} {bkt hh : Nat}
    (hst : s.table = some t) (hb : t.buckets[bkt]? = some b)
    (hr : hash_add_to_bkt s bkt hh = some s1) :
    ∃ t1, s1.table = some t1 ∧ s1.word_table = s.word_table ∧
      (¬ (b.num + 1 ≥ BUCKET_NUM_TRESH ∧ b.noexpand = 0 ∧ s.FLAG_EXPAND ≠ 0) →
        s1.FLAG_EXPAND = s.FLAG_EXPAND ∧ t1.count = t.count ∧
        t1.buckets = t.buckets.set bkt { b with num := b.num + 1, head := some hh }) ∧
      ((b.num + 1 ≥ BUCKET_NUM_TRESH ∧ b.noexpand = 0 ∧ s.FLAG_EXPAND ≠ 0) →
        (BUCKET_NUM_MAX ≤ t.count → s1.FLAG_EXPAND = 0 ∧ t1.count = t.count ∧
          t1.buckets = t.buckets.set bkt { b with num := b.num + 1, head := some hh }) ∧
        (t.count < BUCKET_NUM_MAX → s1.FLAG_EXPAND = s.FLAG_EXPAND ∧
          t1.count = (t.count * 2) % ULONG_MOD ∧ LocksExact t1.buckets)) := by
  unfold hash_add_to_bkt at hr
  simp only [hst, hb] at hr
  cases hw : s.heap[hh]? with
  | none => simp [hw] at hr
  | some w =>
    simp only [hw] at hr
    by_cases htr : b.num + 1 ≥ BUCKET_NUM_TRESH ∧ b.noexpand = 0 ∧ s.FLAG_EXPAND ≠ 0
    · rw [if_pos htr] at hr
      obtain ⟨t0, t1, ht0, ht1, _, _, _, hshape, hmax, hlt⟩ := hash_expand_buckets_frame hr
      simp only [Option.some.injEq] at ht0
      have hwt : s1.word_table = s.word_table := by rw [hshape]
      refine ⟨t1, ht1, hwt, fun hn => absurd htr hn, fun _ => ⟨?_, ?_⟩⟩
      · intro hge
        have hge0 : BUCKET_NUM_MAX ≤ t0.count := by rw [← ht0]; exact hge
        have e := hmax hge0
        rw [e] at ht1
        simp only [Option.some.injEq] at ht1
        refine ⟨by rw [e], ?_, ?_⟩
        · rw [← ht1]
        · rw [← ht1]
      · intro hl
        have hl0 : t0.count < BUCKET_NUM_MAX := by rw [← ht0]; exact hl
        obtain ⟨e1, e2, _⟩ := hlt hl0
        obtain ⟨t2, ht2, hlocks⟩ := hash_expand_buckets_locks hr rfl hl
        have : t2 = t1 := Option.some.inj (ht2.symm.trans ht1)
        subst this
        refine ⟨e1, ?_, hlocks⟩
        rw [e2, ← ht0]
    · rw [if_neg htr] at hr
      have e := Option.some.inj hr
      subst e
      exact ⟨_, rfl, rfl, fun _ => ⟨rfl, rfl, rfl⟩, fun h => absurd h htr⟩

theorem hash_add_to_bkt_some {s s1 : State} {t : hash_table} {bkt hh : Nat}
    (hst : s.table = some t) (hr : hash_add_to_bkt s bkt hh = some s1) :
    ∃ b, t.buckets[bkt]? = some b := by
  unfold hash_add_to_bkt at hr
  simp only [hst] at hr
  cases hb : t.buckets[bkt]? with
  | none => simp [hb] at hr
  | some b => exact ⟨b, rfl⟩

theorem hash_add_str_step {s s1 : State} {key : CString} {item keylen : Nat}
    (hlen : keylen ≤ KEY_MAX_LEN) (hr : hash_add_str s key item keylen = some s1) :
    LinkStep s s1 (hash_jen key keylen) item := by
  have hnlen : ¬ keylen > KEY_MAX_LEN := by omega
  have tail : ∀ (sl : State) (tl : hash_table), sl.table = some tl →
      sl.FLAG_EXPAND = s.FLAG_EXPAND → sl.word_table ≠ none →
      (match sl.table, sl.heap[item]? with
        | some table, some w =>
          hash_add_to_bkt
            { sl with heap := sl.heap.set item
                        { w with hh := { w.hh with keylen := keylen,
                                                   hash := hash_jen key keylen,
                                                   next_w := none } },
                      table := some { table with num := table.num + 1 } }
            (hash_get_index (hash_jen key keylen) table.count) item
        | _, _ => none) = some s1 →
      ∃ b t1, tl.buckets[hash_get_index (hash_jen key keylen) tl.count]? = some b ∧
      s1.table = some t1 ∧ s1.word_table ≠ none ∧
      (¬ (b.num + 1 ≥ BUCKET_NUM_TRESH ∧ b.noexpand = 0 ∧ s.FLAG_EXPAND ≠ 0) →
        s1.FLAG_EXPAND = s.FLAG_EXPAND ∧ t1.count = tl.count ∧
        t1.buckets = tl.buckets.set (hash_get_index (hash_jen key keylen) tl.count)
          { b with num := b.num + 1, head := some item }) ∧
      ((b.num + 1 ≥ BUCKET_NUM_TRESH ∧ b.noexpand = 0 ∧ s.FLAG_EXPAND ≠ 0) →
        (BUCKET_NUM_MAX ≤ tl.count → s1.FLAG_EXPAND = 0 ∧ t1.count = tl.count ∧
          t1.buckets = tl.buckets.set (hash_get_index (hash_jen key keylen) tl.count)
            { b with num := b.num + 1, head := some item }) ∧
        (tl.count < BUCKET_NUM_MAX → s1.FLAG_EXPAND = s.FLAG_EXPAND ∧
          t1.count = (tl.count * 2) % ULONG_MOD ∧ LocksExact t1.buckets)) := by
    intro sl tl hsl hflag hwt h
    simp only [hsl] at h
    cases hw : sl.heap[item]? with
    | none => simp [hw] at h
    | some w =>
      simp only [hw] at h
      obtain ⟨b, hb⟩ := hash_add_to_bkt_some (t := { tl with num := tl.num + 1 }) rfl h
      obtain ⟨t1, ht1, hwt1, hno, hyes⟩ :=
        hash_add_to_bkt_step (t := { tl with num := tl.num + 1 }) rfl hb h
      refine ⟨b, t1, hb, ht1, ?_, ?_, ?_⟩
      · rw [hwt1]; exact hwt
      · intro hn
        have := hno (by rw [hflag]; exact hn)
        exact ⟨this.1.trans hflag, this.2.1, this.2.2⟩
      · intro hy
        have := hyes (by rw [hflag]; exact hy)
        refine ⟨fun hge => ?_, fun hl => ?_⟩
        · exact this.1 hge
        · have h3 := this.2 hl
          exact ⟨h3.1.trans hflag, h3.2.1, h3.2.2⟩
  unfold hash_add_str at hr
  rw [if_neg hnlen] at hr
  simp only at hr
  split at hr
  · exact absurd hr (by simp)
  · rename_i sl hlinked
    split at hlinked
    · rename_i hwt
      have e := Option.some.inj hlinked
      subst e
      obtain ⟨b, t1, h1, h2, h3, h4, h5⟩ :=
        tail (hash_create_table { s with word_table := some item } item)
          { count := s.BUCKET_INIT_COUNT, num := 0, tail := some item,
            buckets := List.replicate s.BUCKET_INIT_COUNT empty_bucket } rfl rfl
          (by simp [hash_create_table]) hr
      exact ⟨_, _, b, t1, fun _ => ⟨rfl, rfl⟩, fun h => absurd hwt h, h1, h2, h3, h4, h5⟩
    · rename_i hd hwt
      split at hlinked
      · exact absurd hlinked (by simp)
      · rename_i t hst
        split at hlinked
        · exact absurd hlinked (by simp)
        · rename_i tl htl
          split at hlinked
          · exact absurd hlinked (by simp)
          · rename_i h hm
            have e := Option.some.inj hlinked
            subst e
            obtain ⟨b, t1, h1, h2, h3, h4, h5⟩ :=
              tail { s with heap := h, table := some { t with tail := some item } }
                { t with tail := some item } rfl rfl (by simp [hwt]) hr
            exact ⟨_, _, b, t1, fun h => by simp [hwt] at h, fun _ => ⟨t, hst, rfl, rfl⟩,
              h1, h2, h3, h4, h5⟩

theorem add_word_length_frame {s s1 : State} {len : Nat}
    (hr : add_word_length s len = some s1) :
    s1.heap = s.heap ∧ s1.table = s.table ∧ s1.word_table = s.word_table ∧
    s1.BUCKET_INIT_COUNT = s.BUCKET_INIT_COUNT ∧ s1.FLAG_EXPAND = s.FLAG_EXPAND := by
  unfold add_word_length at hr
  simp only at hr
  split at hr
  · exact absurd hr (by simp)
  · split at hr
    · exact absurd hr (by simp)
    · have e := Option.some.inj hr
      subst e
      simp only
      split
      · split <;> exact ⟨rfl, rfl, rfl, rfl, rfl⟩
      · exact ⟨rfl, rfl, rfl, rfl, rfl⟩

theorem add_word_found_frame {s s1 : State} {k : CString} {p : Nat}
    (hfind : find_word s k = some (some p)) (hr : add_word s k = some s1) :
    s1.table = s.table ∧ s1.word_table = s.word_table ∧ s1.FLAG_EXPAND = s.FLAG_EXPAND := by
  simp only [add_word, hfind] at hr
  split at hr
  · exact absurd hr (by simp)
  · have e := Option.some.inj hr
    subst e
    exact ⟨rfl, rfl, rfl⟩

theorem add_word_new_step {s s1 : State} {k : CString}
    (hfind : find_word s k = some none) (hr : add_word s k = some s1) :
    ∃ sc, sc.table = s.table ∧ sc.word_table = s.word_table ∧
      sc.FLAG_EXPAND = s.FLAG_EXPAND ∧ sc.BUCKET_INIT_COUNT = s.BUCKET_INIT_COUNT ∧
      hash_add_str sc (strcpy k) s.heap.length (strlen k % UINT_MOD) = some s1 := by
  simp only [add_word, hfind] at hr
  split at hr
  · exact absurd hr (by simp)
  · rename_i s2 h2
    obtain ⟨e1, e2, e3, e4, e5⟩ := add_word_length_frame h2
    have hsa : ∀ (x : State), (if strlen k % UINT_MOD > s.w_length_max then
        ({ s with w_length_max := strlen k % UINT_MOD } : State) else s) = x →
        x.heap = s.heap ∧ x.table = s.table ∧ x.word_table = s.word_table ∧
        x.BUCKET_INIT_COUNT = s.BUCKET_INIT_COUNT ∧ x.FLAG_EXPAND = s.FLAG_EXPAND := by
      intro x hx
      subst hx
      split <;> exact ⟨rfl, rfl, rfl, rfl, rfl⟩
    obtain ⟨f1, f2, f3, f4, f5⟩ := hsa _ rfl
    have hlen : s2.heap.length = s.heap.length := by rw [e1, f1]
    rw [hlen] at hr
    refine ⟨_, ?_, ?_, ?_, ?_, hr⟩
    · exact e2.trans f2
    · exact e3.trans f3
    · exact e5.trans f5
    · exact e4.trans f4

theorem LinkStep_congr {s sc s1 : State} {hash item : Nat} (h : LinkStep sc s1 hash item)
    (e1 : sc.table = s.table) (e2 : sc.word_table = s.word_table)
    (e3 : sc.FLAG_EXPAND = s.FLAG_EXPAND) (e4 : sc.BUCKET_INIT_COUNT = s.BUCKET_INIT_COUNT) :
    LinkStep s s1 hash item := by
  unfold LinkStep at h ⊢
  rw [e1, e2, e3, e4] at h
  exact h

theorem FlagOK_congr {s s1 : State} (h : FlagOK s) (e1 : s1.table = s.table)
    (e2 : s1.word_table = s.word_table) (e3 : s1.FLAG_EXPAND = s.FLAG_EXPAND) : FlagOK s1 := by
  unfold FlagOK at h ⊢
  rw [e1, e2, e3]
  exact h

/-- The two ways `add_word` ends: the table, the head and the expand flag are
left alone (a key already present, or a key longer than `KEY_MAX_LEN`), or a
new entry is linked. -/
theorem add_word_cases {s s1 : State} {L : List Nat} {k : CString} (hinv : Inv s L)
    (hk : WordKey k) (hr : add_word s k = some s1) :
    (¬ (find_word s k = some none ∧ k.length ≤ KEY_MAX_LEN) ∧
      s1.table = s.table ∧ s1.word_table = s.word_table ∧ s1.FLAG_EXPAND = s.FLAG_EXPAND) ∨
    (find_word s k = some none ∧ k.length ≤ KEY_MAX_LEN ∧
      LinkStep s s1 (hash_jen k k.length) s.heap.length) := by
  obtain ⟨hnul, hk1, hkmod⟩ := hk
  have hsl : strlen k % UINT_MOD = k.length := by
    rw [strlen_of_nonul k hnul, Nat.mod_eq_of_lt hkmod]
  by_cases hlong : KEY_MAX_LEN < k.length
  · obtain ⟨s2, h1, _, _, h4, h5, h6⟩ := add_word_long hinv ⟨hnul, hk1, hkmod⟩ hlong
    have : s2 = s1 := Option.some.inj (h1.symm.trans hr)
    subst this
    exact Or.inl ⟨fun h => by omega, h4, h5, h6⟩
  · obtain ⟨r, hfind, _, _⟩ := find_word_spec hinv.1 hinv.2.1 hnul hkmod
    cases r with
    | some p =>
      exact Or.inl ⟨fun h => by rw [hfind] at h; simp at h, add_word_found_frame hfind hr⟩
    | none =>
      obtain ⟨sc, e1, e2, e3, e4, hadd⟩ := add_word_new_step hfind hr
      rw [hsl, strcpy_of_nonul k hnul] at hadd
      exact Or.inr ⟨hfind, by omega,
        LinkStep_congr (hash_add_str_step (by omega) hadd) e1 e2 e3 e4⟩

theorem FlagOK_of_LinkStep {s s1 : State} {hash item : Nat} (hflag : FlagOK s)
    (h : LinkStep s s1 hash item) : FlagOK s1 := by
  obtain ⟨f1, f2, f3⟩ := hflag
  obtain ⟨bs, cnt, b, t1, hnone, hsome, hb, ht1, hwt1, hno, hyes⟩ := h
  have hP : ∀ b1 ∈ bs, (b1.noexpand ≠ 0 → BUCKET_NUM_TRESH ≤ b1.num) ∧
      (s.FLAG_EXPAND ≠ 0 → b1.noexpand = 0 → b1.num < BUCKET_NUM_TRESH) := by
    intro b1 hb1
    by_cases hwt : s.word_table = none
    · rw [(hnone hwt).1] at hb1
      have := List.eq_of_mem_replicate hb1
      subst this
      simp [empty_bucket, BUCKET_NUM_TRESH]
    · obtain ⟨t, hst, e1, _⟩ := hsome hwt
      rw [e1] at hb1
      exact f3 t hst b1 hb1
  have hcnt : s.FLAG_EXPAND = 0 → BUCKET_NUM_MAX ≤ cnt := by
    intro h0
    by_cases hwt : s.word_table = none
    · exact absurd h0 (f1 hwt).2
    · obtain ⟨t, hst, _, e2⟩ := hsome hwt
      rw [e2]
      exact f2 h0 t hst
  have hbm : b ∈ bs := List.getElem?_mem hb
  have hset : ∀ b1 ∈ bs.set (hash_get_index hash cnt)
      { b with num := b.num + 1, head := some item },
      (b1.noexpand ≠ 0 → BUCKET_NUM_TRESH ≤ b1.num) := by
    intro b1 hb1 hne
    rcases List.mem_or_eq_of_mem_set hb1 with hm | he
    · exact (hP b1 hm).1 hne
    · subst he
      have := (hP b hbm).1 hne
      show BUCKET_NUM_TRESH ≤ b.num + 1
      omega
  refine ⟨fun h => absurd h hwt1, ?_, ?_⟩
  · intro h0 t ht
    have : t = t1 := Option.some.inj (ht.symm.trans ht1)
    subst this
    by_cases htr : b.num + 1 ≥ BUCKET_NUM_TRESH ∧ b.noexpand = 0 ∧ s.FLAG_EXPAND ≠ 0
    · obtain ⟨hmax, hlt⟩ := hyes htr
      by_cases hge : BUCKET_NUM_MAX ≤ cnt
      · rw [(hmax hge).2.1]; exact hge
      · have := (hlt (by omega)).1
        rw [h0] at this
        exact absurd this.symm htr.2.2
    · obtain ⟨e1, e2, _⟩ := hno htr
      rw [e2]
      exact hcnt (e1 ▸ h0)
  · intro t ht b1 hb1
    have : t = t1 := Option.some.inj (ht.symm.trans ht1)
    subst this
    by_cases htr : b.num + 1 ≥ BUCKET_NUM_TRESH ∧ b.noexpand = 0 ∧ s.FLAG_EXPAND ≠ 0
    · obtain ⟨hmax, hlt⟩ := hyes htr
      by_cases hge : BUCKET_NUM_MAX ≤ cnt
      · obtain ⟨e1, _, e3⟩ := hmax hge
        rw [e3] at hb1
        exact ⟨hset b1 hb1, fun h => absurd e1 h⟩
      · obtain ⟨_, _, hlocks⟩ := hlt (by omega)
        have := hlocks b1 hb1
        refine ⟨this.1, fun _ h0 => ?_⟩
        by_contra hc
        exact (this.2 (by omega)) h0
    · obtain ⟨e1, _, e3⟩ := hno htr
      rw [e3] at hb1
      refine ⟨hset b1 hb1, ?_⟩
      intro hfl h0
      rw [e1] at hfl
      rcases List.mem_or_eq_of_mem_set hb1 with hm | he
      · exact (hP b1 hm).2 hfl h0
      · subst he
        by_contra hc
        have hc1 : ¬ (b.num + 1 < BUCKET_NUM_TRESH) := hc
        exact htr ⟨by omega, h0, hfl⟩

theorem FlagOK_add_word {s s1 : State} {L : List Nat} {k : CString} (hinv : Inv s L)
    (hflag : FlagOK s) (hk : WordKey k) (hr : add_word s k = some s1) : FlagOK s1 := by
  rcases add_word_cases hinv hk hr with ⟨_, e1, e2, e3⟩ | ⟨_, _, hl⟩
  · exact FlagOK_congr hflag e1 e2 e3
  · exact FlagOK_of_LinkStep hflag hl

theorem FlagOK_init (n : Nat) : FlagOK (init_state n) := by
  refine ⟨fun _ => ⟨rfl, by simp [init_state]⟩, fun h => by simp [init_state] at h, ?_⟩
  intro t ht
  simp [init_state] at ht

theorem FlagOK_hash_sort {s s1 : State} {L : List Nat} (hinv : Inv s L) (hflag : FlagOK s)
    (hr : hash_sort s = some s1) : FlagOK s1 := by
  obtain ⟨s2, L1, h1, _, _, _, hfl, hwt, hsome, hnone⟩ := hash_sort_inv hinv
  have : s2 = s1 := Option.some.inj (h1.symm.trans hr)
  subst this
  obtain ⟨f1, f2, f3⟩ := hflag
  refine ⟨?_, ?_, ?_⟩
  · intro h
    have hs := hwt.1 h
    exact ⟨hnone (f1 hs).1, by rw [hfl]; exact (f1 hs).2⟩
  · intro h0 t1 ht1
    rw [hfl] at h0
    cases hst : s.table with
    | none => rw [hnone hst] at ht1; exact absurd ht1 (by simp)
    | some t =>
      obtain ⟨t2, ht2, _, e2, _⟩ := hsome t hst
      have : t2 = t1 := Option.some.inj (ht2.symm.trans ht1)
      subst this
      rw [e2]; exact f2 h0 t hst
  · intro t1 ht1 b hb
    cases hst : s.table with
    | none => rw [hnone hst] at ht1; exact absurd ht1 (by simp)
    | some t =>
      obtain ⟨t2, ht2, e1, _, _⟩ := hsome t hst
      have : t2 = t1 := Option.some.inj (ht2.symm.trans ht1)
      subst this
      rw [e1] at hb
      rw [hfl]
      exact f3 t hst b hb

/-- Every sequence of operations runs to the end from a well-formed state, and
the final state is well formed. -/
theorem run_ops_reach : ∀ (ops : List Op) (s : State) (L : List Nat),
    Inv s L → FlagOK s → (∀ op ∈ ops, OpOK op) →
    ∃ s1 L1, run_ops s ops = some s1 ∧ Inv s1 L1 ∧ FlagOK s1
  | [], s, L, hinv, hflag, _ => ⟨s, L, rfl, hinv, hflag⟩
  | op :: ops, s, L, hinv, hflag, hv => by
    have hop := hv op (List.mem_cons_self _ _)
    have hstep : ∃ s1 L1, run_op s op = some s1 ∧ Inv s1 L1 ∧ FlagOK s1 := by
      cases op with
      | add k =>
        obtain ⟨s1, L1, h1, h2⟩ := add_word_inv hinv hop
        exact ⟨s1, L1, h1, h2, FlagOK_add_word hinv hflag hop h1⟩
      | sort =>
        obtain ⟨s1, L1, h1, h2, _⟩ := hash_sort_inv hinv
        exact ⟨s1, L1, h1, h2, FlagOK_hash_sort hinv hflag h1⟩
    obtain ⟨s1, L1, h1, h2, h3⟩ := hstep
    obtain ⟨s2, L2, g1, g2, g3⟩ :=
      run_ops_reach ops s1 L1 h2 h3 (fun x hx => hv x (List.mem_cons_of_mem _ hx))
    exact ⟨s2, L2, by simp only [run_ops, h1]; exact g1, g2, g3⟩

theorem reach_init {n : Nat} (hn : IsPow2Cap n) {ops : List Op} (hops : ∀ op ∈ ops, OpOK op)
    {s : State} (hs : run_ops (init_state n) ops = some s) :
    ∃ L, Inv s L ∧ FlagOK s := by
  obtain ⟨s1, L1, h1, h2, h3⟩ := run_ops_reach ops _ _ (Inv_init hn) (FlagOK_init n) hops
  have : s1 = s := Option.some.inj (h1.symm.trans hs)
  subst this
  exact ⟨L1, h2, h3⟩

/-! ## Lookups with arbitrary keys -/

theorem strlen_le_length : ∀ (k : CString), strlen k ≤ k.length
  | [] => Nat.le_refl _
  | c :: cs => by
    simp only [strlen, List.length_cons]
    split
    · omega
    · have := strlen_le_length cs; omega

theorem nonul_take : ∀ (k : CString) (m : Nat), m ≤ strlen k → (0 : Byte) ∉ k.take m
  | _, 0, _ => by simp
  | [], _ + 1, _ => by simp
  | c :: cs, m + 1, h => by
    simp only [strlen] at h
    by_cases hc : c = 0
    · simp [hc] at h
    · simp only [if_neg hc] at h
      have ih := nonul_take cs m (by omega)
      simp only [List.take_succ_cons, List.mem_cons, not_or]
      exact ⟨fun e => hc e.symm, ih⟩

theorem strncmp_eq_take : ∀ (m : Nat) (a k : CString),
    strncmp_eq a k m = strncmp_eq a (k.take m) m
  | 0, _, _ => by simp [strncmp_eq]
  | m + 1, a, [] => by simp
  | m + 1, a, c :: cs => by
    simp only [strncmp_eq, List.take_succ_cons, List.headD_cons, List.tail_cons]
    rw [strncmp_eq_take m a.tail cs]

theorem hash_jen_take (k : CString) (m : Nat) : hash_jen k m = hash_jen (k.take m) m := by
  have : (List.range m).foldl (fun hash i => hash_jen_round hash (k.getD i 0)) 0 =
      (List.range m).foldl (fun hash i => hash_jen_round hash ((k.take m).getD i 0)) 0 := by
    apply List.foldl_ext
    intro a i hi
    have hi1 : i < m := List.mem_range.1 hi
    simp only [List.getD_eq_getElem?_getD, List.getElem?_take, if_pos hi1]
  simp only [hash_jen, this]

/-- The lookup sees of its argument only the bytes before the first NUL, and of
their number only the value as an `unsigned`. -/
theorem find_word_take (s : State) (k : CString) :
    find_word s k = find_word s (k.take (strlen k % UINT_MOD)) ∧
    (0 : Byte) ∉ k.take (strlen k % UINT_MOD) ∧
    (k.take (strlen k % UINT_MOD)).length < UINT_MOD := by
  have hm : strlen k % UINT_MOD ≤ strlen k := Nat.mod_le _ _
  have hlt : strlen k % UINT_MOD < UINT_MOD := Nat.mod_lt _ (by unfold UINT_MOD; omega)
  have hnul := nonul_take k _ hm
  have hlen : (k.take (strlen k % UINT_MOD)).length = strlen k % UINT_MOD := by
    rw [List.length_take]
    have := strlen_le_length k
    omega
  refine ⟨?_, hnul, by rw [hlen]; exact hlt⟩
  have hl2 : strlen (k.take (strlen k % UINT_MOD)) % UINT_MOD = strlen k % UINT_MOD := by
    rw [strlen_of_nonul _ hnul, hlen, Nat.mod_mod]
  simp only [find_word, hash_find_str, hl2, ← hash_jen_take]
  cases s.word_table with
  | none => rfl
  | some hd =>
    simp only
    cases s.table with
    | none => rfl
    | some t =>
      simp only
      cases t.buckets[hash_get_index (hash_jen k (strlen k % UINT_MOD)) t.count]? with
      | none => rfl
      | some b => exact hash_find_in_bkt_congr (fun a => strncmp_eq_take _ a k) _ _

theorem Inv_hash_expand_buckets {s : State} {L : List Nat} (hinv : Inv s L) (hL : L ≠ []) :
    ∃ s1, hash_expand_buckets s = some s1 ∧ Inv s1 L ∧
      (∀ a, info_of s1.heap a = info_of s.heap a) := by
  obtain ⟨hok, hkeys, hhist⟩ := hinv
  obtain ⟨s1, hr, hok1, herase, hshape⟩ := hash_expand_buckets_spec hL hok
  have hinfo : ∀ a, info_of s1.heap a = info_of s.heap a :=
    fun a => info_of_eq_of_erase_nx herase a
  refine ⟨s1, hr, ⟨hok1, KeysOK_of_info (fun a _ => hinfo a) hkeys, ?_⟩, hinfo⟩
  intro a ha
  have e1 : s1.w_lengths = s.w_lengths := by rw [hshape]
  have e2 : s1.w_lengths_size = s.w_lengths_size := by rw [hshape]
  rw [e1] at ha; rw [e2]; exact hhist a ha

theorem find_word_unique {s s1 : State} {L : List Nat} (hinv : Inv s L) (hinv1 : Inv s1 L)
    (hkey : ∀ a ∈ L, key_of s1.heap a = key_of s.heap a) (k : CString) :
    ∃ r, find_word s k = some r ∧ find_word s1 k = some r := by
  obtain ⟨e, hnul, hlen⟩ := find_word_take s k
  obtain ⟨e1, _, _⟩ := find_word_take s1 k
  rw [e, e1]
  obtain ⟨r, hf, hsome, hnone⟩ := find_word_spec hinv.1 hinv.2.1 hnul hlen
  obtain ⟨r1, hf1, hsome1, hnone1⟩ := find_word_spec hinv1.1 hinv1.2.1 hnul hlen
  refine ⟨r, hf, ?_⟩
  rw [hf1]
  cases r with
  | none =>
    cases r1 with
    | none => rfl
    | some b =>
      obtain ⟨hb, hkb⟩ := hsome1 b rfl
      rw [hkey b hb] at hkb
      exact absurd hkb (hnone rfl b hb)
  | some a =>
    obtain ⟨ha, hka⟩ := hsome a rfl
    cases r1 with
    | none =>
      have := hnone1 rfl a ha
      rw [hkey a ha] at this
      exact absurd hka this
    | some b =>
      obtain ⟨hb, hkb⟩ := hsome1 b rfl
      rw [hkey b hb] at hkb
      rw [hinv.2.1.2 a ha b hb (hka.trans hkb.symm)]

/-! ## The sample index -/

theorem sample_ops_ok : ∀ op ∈ sample_ops, OpOK op := by
  intro op hop
  simp only [sample_ops, sample_keys, List.map_cons, List.map_nil, List.mem_cons,
    List.mem_singleton, List.not_mem_nil, or_false] at hop
  rcases hop with h | h | h | h | h | h <;> subst h <;>
    exact ⟨by decide, by decide, by decide⟩

theorem isPow2Cap_4 : IsPow2Cap 4 := ⟨2, by norm_num, by unfold BUCKET_NUM_MAX; omega⟩

theorem run_sample_ops : run_ops (init_state 4) sample_ops = some sample_index := by decide

theorem sample_index_ok : Inv sample_index [0, 1, 2] ∧ FlagOK sample_index := by
  obtain ⟨L, hinv, hflag⟩ := reach_init isPow2Cap_4 sample_ops_ok run_sample_ops
  have h1 := hash_iter_of_seg hinv.1.2.1
  have h2 : hash_iter sample_index = some [0, 1, 2] := by decide
  have : L = [0, 1, 2] := Option.some.inj (h1.symm.trans h2)
  subst this
  exact ⟨hinv, hflag⟩

/-! ## Claims on hash_expand_buckets -/

/-- C20 (amended): on a well-formed non-empty index `hash_expand_buckets`
returns, and it changes only the bucket array, the bucket count, the chain
links of the entries and the global `FLAG_EXPAND`: the head, the tail and the
entry total are the same, no entry is added or removed, every entry keeps its
key, count, stored hash and stored key length and every insertion-order link
`next_w`, so the iteration sequence is the same. `FLAG_EXPAND` is the same
whenever the bucket count is below `BUCKET_NUM_MAX`; when the bucket count is
at `BUCKET_NUM_MAX` the call clears `FLAG_EXPAND` and changes nothing else. -/
theorem hash_expand_buckets_frame_effect (s : State) (L : List Nat) (hok : TableOK s L)
    (hL : L ≠ []) :
    ∃ s1 t t1, hash_expand_buckets s = some s1 ∧ s.table = some t ∧ s1.table = some t1 ∧
      s1 = { s with heap := s1.heap, table := some { t with buckets := t1.buckets,
                                                             count := t1.count },
                    FLAG_EXPAND := s1.FLAG_EXPAND } ∧
      s1.word_table = s.word_table ∧ t1.tail = t.tail ∧ t1.num = t.num ∧
      s1.heap.length = s.heap.length ∧
      (∀ a, info_of s1.heap a = info_of s.heap a) ∧
      (∀ a : Nat, (s1.heap[a]?).map nw = (s.heap[a]?).map nw) ∧
      hash_iter s = some L ∧ hash_iter s1 = some L ∧
      (t.count < BUCKET_NUM_MAX → s1.FLAG_EXPAND = s.FLAG_EXPAND) ∧
      (BUCKET_NUM_MAX ≤ t.count → s1 = { s with FLAG_EXPAND := 0 }) := by
  obtain ⟨s1, hr, hok1, _, _⟩ := hash_expand_buckets_spec hL hok
  obtain ⟨t, t1, ht, ht1, htail, hnum, herase, hshape, hmax, hlt⟩ :=
    hash_expand_buckets_frame hr
  have hwt : s1.word_table = s.word_table := by rw [hshape]
  have hlen : s1.heap.length = s.heap.length := by
    simpa [erase_nx] using congrArg List.length herase
  have ht1eq : t1 = { t with buckets := t1.buckets, count := t1.count } := by
    cases t1
    simp only at htail hnum
    simp [htail, hnum]
  refine ⟨s1, t, t1, hr, ht, ht1, ?_, hwt, htail, hnum, hlen,
    fun a => info_of_eq_of_erase_nx herase a, fun a => get_nw_of_erase_nx herase a,
    hash_iter_of_seg hok.2.1, hash_iter_of_seg hok1.2.1, fun h => (hlt h).1, hmax⟩
  rw [← ht1eq, ← ht1]
  exact hshape

theorem hash_expand_buckets_frame_effect_witness :
    TableOK sample_index [0, 1, 2] ∧ [0, 1, 2] ≠ [] ∧
    ∃ s1 t t1, hash_expand_buckets sample_index = some s1 ∧ sample_index.table = some t ∧
      s1.table = some t1 ∧
      s1 = { sample_index with heap := s1.heap,
                               table := some { t with buckets := t1.buckets,
                                                      count := t1.count },
                               FLAG_EXPAND := s1.FLAG_EXPAND } ∧
      s1.word_table = sample_index.word_table ∧ t1.tail = t.tail ∧ t1.num = t.num ∧
      s1.heap.length = sample_index.heap.length ∧
      (∀ a, info_of s1.heap a = info_of sample_index.heap a) ∧
      (∀ a : Nat, (s1.heap[a]?).map nw = (sample_index.heap[a]?).map nw) ∧
      hash_iter sample_index = some [0, 1, 2] ∧ hash_iter s1 = some [0, 1, 2] ∧
      (t.count < BUCKET_NUM_MAX → s1.FLAG_EXPAND = sample_index.FLAG_EXPAND) ∧
      (BUCKET_NUM_MAX ≤ t.count → s1 = { sample_index with FLAG_EXPAND := 0 }) :=
  ⟨sample_index_ok.1.1, by decide,
    hash_expand_buckets_frame_effect sample_index [0, 1, 2] sample_index_ok.1.1 (by decide)⟩

/-- C12: in every state that satisfies the invariant of the index (every
reachable state does, and so does the state in which `hash_add_to_bkt` calls
`hash_expand_buckets`) with at least one entry, `hash_expand_buckets` returns,
and for every key `k` (any byte sequence) `hash_find_str` returns, after the
call, the result it returns before it: the same entry or NULL; the entry found
has the same key and the same count. -/
theorem hash_expand_buckets_preserves_find (s : State) (L : List Nat) (hinv : Inv s L)
    (hL : L ≠ []) :
    ∃ s1, hash_expand_buckets s = some s1 ∧
      ∀ k : CString, ∃ r, hash_find_str s s.word_table k = some r ∧
        hash_find_str s1 s1.word_table k = some r ∧
        ∀ p, r = some p → key_of s1.heap p = key_of s.heap p ∧
          count_of s1.heap p = count_of s.heap p := by
  obtain ⟨s1, hr, hinv1, hinfo⟩ := Inv_hash_expand_buckets hinv hL
  refine ⟨s1, hr, fun k => ?_⟩
  obtain ⟨r, h1, h2⟩ := find_word_unique hinv hinv1
    (fun a _ => key_of_eq_of_info (hinfo a)) k
  exact ⟨r, h1, h2, fun p _ => ⟨key_of_eq_of_info (hinfo p), count_of_eq_of_info (hinfo p)⟩⟩

theorem hash_expand_buckets_preserves_find_witness :
    Inv sample_index [0, 1, 2] ∧ [0, 1, 2] ≠ [] ∧
    ∃ s1, hash_expand_buckets sample_index = some s1 ∧
      ∀ k : CString, ∃ r, hash_find_str sample_index sample_index.word_table k = some r ∧
        hash_find_str s1 s1.word_table k = some r ∧
        ∀ p, r = some p → key_of s1.heap p = key_of sample_index.heap p ∧
          count_of s1.heap p = count_of sample_index.heap p :=
  ⟨sample_index_ok.1, by decide,
    hash_expand_buckets_preserves_find sample_index [0, 1, 2] sample_index_ok.1 (by decide)⟩

/-! ## The expand flag as a latch -/

theorem nil_iff_word_table {s : State} {L : List Nat} (hok : TableOK s L) :
    L = [] ↔ s.word_table = none := by
  have hseg := hok.2.1
  cases L with
  | nil => exact ⟨fun _ => hseg, fun _ => rfl⟩
  | cons a l =>
    have : s.word_table = some a := hseg.1
    simp [this]

theorem rehash_buckets_replicate (m c : Nat) (h : Heap) (nb : List hash_bucket) :
    ∀ (n bkt_i : Nat), bkt_i + n ≤ m →
    rehash_buckets (List.replicate m empty_bucket) c n bkt_i h nb = some (h, nb) := by
  intro n
  induction n with
  | zero => intro bkt_i _; rfl
  | succ n ih =>
    intro bkt_i hle
    have hget : (List.replicate m empty_bucket)[bkt_i]? = some empty_bucket := by
      rw [List.getElem?_replicate, if_pos (by omega)]
    have hc : rehash_chain c (h.length + 1) h nb empty_bucket.head = some (h, nb) := rfl
    simp only [rehash_buckets, hget, hc]
    exact ih (bkt_i + 1) (by omega)

theorem rehash_buckets_fail {old : List hash_bucket} {c n bkt_i : Nat} {h : Heap}
    {nb : List hash_bucket} {b : hash_bucket} (hb : old[bkt_i]? = some b)
    (hc : rehash_chain c (h.length + 1) h nb b.head = none) :
    rehash_buckets old c (n + 1) bkt_i h nb = none := by
  simp only [rehash_buckets, hb, hc]

theorem hash_jen_a : hash_jen [97] 1 = 29161854018 := by decide

theorem add_word_first_a (n : Nat) (hn : 0 < n) (hle : n ≤ ULONG_MOD) :
    add_word (init_state n) [97] = some
      { heap := [{ key := [97], count := 1,
                   hh := { next := none, next_w := none, hash := 29161854018, keylen := 1 } }],
        table := some { buckets := (List.replicate n empty_bucket).set
                          (hash_get_index 29161854018 n) { head := some 0, num := 1, noexpand := 0 },
                        tail := some 0, count := n, num := 1 },
        word_table := some 0, BUCKET_INIT_COUNT := n, FLAG_EXPAND := 1,
        w_length_max := 1, w_lengths_size := 15,
        w_lengths := some (1 :: List.replicate 14 0) } := by
  have h1 : strlen [97] % UINT_MOD = 1 := by decide
  have h2 : strcpy [97] = [97] := by decide
  have h3 : add_word_length { init_state n with w_length_max := 1 } 1 =
      some { init_state n with w_length_max := 1,
                               w_lengths := some (1 :: List.replicate 14 0) } := by
    simp [add_word_length, init_state, UINT_MOD, List.replicate]
  have hfind : find_word (init_state n) [97] = some none := rfl
  have hmax : (1 > (init_state n).w_length_max) := Nat.zero_lt_one
  have hlt := hash_get_index_lt 29161854018 n hn hle
  have hget : (List.replicate n empty_bucket)[hash_get_index 29161854018 n]? =
      some empty_bucket := by
    rw [List.getElem?_replicate, if_pos hlt]
  have hget2 : (List.replicate n ({ head := none, num := 0, noexpand := 0 } : hash_bucket))[
      hash_get_index 29161854018 n]? = some { head := none, num := 0, noexpand := 0 } := hget
  simp only [add_word, hfind, h1, h2, if_pos hmax, h3]
  simp [hash_add_str, init_state, hash_create_table, hash_jen_a, hash_add_to_bkt, hget, hget2,
    KEY_MAX_LEN, BUCKET_NUM_TRESH, empty_bucket, word.set_next]

theorem add_word_odd : add_word (init_state 1048577) [97] = some odd_index := by
  have hrep : List.replicate 1048577 empty_bucket =
      empty_bucket :: List.replicate 1048576 empty_bucket := List.replicate_succ _ 1048576
  have hidx : hash_get_index 29161854018 1048577 = 0 := by decide
  rw [add_word_first_a 1048577 (by decide) (by decide), hidx, hrep, List.set_cons_zero]
  rfl

theorem hash_jen_b : hash_jen [98] 1 = 30079156635 := by decide

theorem add_word_first_b (n : Nat) (hn : 0 < n) (hle : n ≤ ULONG_MOD) :
    add_word (init_state n) [98] = some
      { heap := [{ key := [98], count := 1,
                   hh := { next := none, next_w := none, hash := 30079156635, keylen := 1 } }],
        table := some { buckets := (List.replicate n empty_bucket).set
                          (hash_get_index 30079156635 n) { head := some 0, num := 1, noexpand := 0 },
                        tail := some 0, count := n, num := 1 },
        word_table := some 0, BUCKET_INIT_COUNT := n, FLAG_EXPAND := 1,
        w_length_max := 1, w_lengths_size := 15,
        w_lengths := some (1 :: List.replicate 14 0) } := by
  have h1 : strlen [98] % UINT_MOD = 1 := by decide
  have h2 : strcpy [98] = [98] := by decide
  have h3 : add_word_length { init_state n with w_length_max := 1 } 1 =
      some { init_state n with w_length_max := 1,
                               w_lengths := some (1 :: List.replicate 14 0) } := by
    simp [add_word_length, init_state, UINT_MOD, List.replicate]
  have hfind : find_word (init_state n) [98] = some none := rfl
  have hmax : (1 > (init_state n).w_length_max) := Nat.zero_lt_one
  have hlt := hash_get_index_lt 30079156635 n hn hle
  have hget : (List.replicate n empty_bucket)[hash_get_index 30079156635 n]? =
      some empty_bucket := by
    rw [List.getElem?_replicate, if_pos hlt]
  have hget2 : (List.replicate n ({ head := none, num := 0, noexpand := 0 } : hash_bucket))[
      hash_get_index 30079156635 n]? = some { head := none, num := 0, noexpand := 0 } := hget
  simp only [add_word, hfind, h1, h2, if_pos hmax, h3]
  simp [hash_add_str, init_state, hash_create_table, hash_jen_b, hash_add_to_bkt, hget, hget2,
    KEY_MAX_LEN, BUCKET_NUM_TRESH, empty_bucket, word.set_next]

theorem replicate_set_last {α : Type} (a b : α) : ∀ (n : Nat),
    (List.replicate (n + 1) a).set n b = List.replicate n a ++ [b]
  | 0 => rfl
  | n + 1 => by
    rw [List.replicate_succ, List.set_cons_succ, replicate_set_last a b n]
    rfl

theorem add_word_odd_b : add_word (init_state 1048577) [98] = some odd_index_b := by
  have hidx : hash_get_index 30079156635 1048577 = 1048576 := by decide
  rw [add_word_first_b 1048577 (by decide) (by decide), hidx]
  have := replicate_set_last empty_bucket
    ({ head := some 0, num := 1, noexpand := 0 } : hash_bucket) 1048576
  rw [this]
  rfl

theorem rehash_buckets_skip (old : List hash_bucket) (c : Nat) (h : Heap)
    (nb : List hash_bucket) : ∀ (n i : Nat),
    (∀ j, i ≤ j → j < i + n → ∃ b, old[j]? = some b ∧ b.head = none) →
    ∀ m, rehash_buckets old c (n + m) i h nb = rehash_buckets old c m (i + n) h nb := by
  intro n
  induction n with
  | zero => intro i _ m; simp
  | succ n ih =>
    intro i hpre m
    obtain ⟨b, hb, hhead⟩ := hpre i (Nat.le_refl _) (by omega)
    have e : n + 1 + m = (n + m) + 1 := by omega
    have hc : rehash_chain c (h.length + 1) h nb b.head = some (h, nb) := by
      rw [hhead]; rfl
    rw [e]
    simp only [rehash_buckets, hb, hc]
    rw [ih (i + 1) (fun j h1 h2 => hpre j (by omega) (by omega)) m]
    have e2 : i + 1 + n = i + (n + 1) := by omega
    rw [e2]

theorem hash_expand_buckets_single_last (n : Nat) (w : word) (b : hash_bucket) (s : State)
    (t : hash_table) (hst : s.table = some t)
    (hbk : t.buckets = List.replicate n empty_bucket ++ [b]) (hb : b.head = some 0)
    (hcnt : t.count = n + 1) (hlt : t.count < BUCKET_NUM_MAX) (hheap : s.heap = [w])
    (hnx : w.hh.next = none)
    (hidx : hash_get_index w.hh.hash ((t.count * 2) % ULONG_MOD) <
      (if (2 * t.count) % ULONG_MOD > BUCKET_NUM_MAX then BUCKET_NUM_MAX
        else (2 * t.count) % ULONG_MOD)) :
    ∃ s1, hash_expand_buckets s = some s1 := by
  obtain ⟨N, hN⟩ : ∃ N, N = (if (2 * t.count) % ULONG_MOD > BUCKET_NUM_MAX then BUCKET_NUM_MAX
        else (2 * t.count) % ULONG_MOD) := ⟨_, rfl⟩
  rw [← hN] at hidx
  have hold : ∀ j, 0 ≤ j → j < 0 + n → ∃ b1,
      (List.replicate n empty_bucket ++ [b])[j]? = some b1 ∧ b1.head = none := by
    intro j _ hj
    refine ⟨empty_bucket, ?_, rfl⟩
    rw [List.getElem?_append_left (by rw [List.length_replicate]; omega),
      List.getElem?_replicate, if_pos (by omega)]
  have hlast : (List.replicate n empty_bucket ++ [b])[0 + n]? = some b := by
    rw [List.getElem?_append_right (by rw [List.length_replicate]; omega),
      List.length_replicate]
    simp
  have hnb : (List.replicate N empty_bucket)[hash_get_index w.hh.hash
      ((t.count * 2) % ULONG_MOD)]? = some empty_bucket := by
    rw [List.getElem?_replicate, if_pos hidx]
  have hskip := rehash_buckets_skip (List.replicate n empty_bucket ++ [b]) t.count [w]
    (List.replicate N empty_bucket) n 0 hold 1
  have hmax : ¬ (t.count ≥ BUCKET_NUM_MAX) := by omega
  have hw0 : ([w] : Heap)[0]? = some w := rfl
  have hchain : ∃ r, rehash_chain t.count (([w] : Heap).length + 1) [w]
      (List.replicate N empty_bucket) b.head = some r := by
    rw [hb]
    simp only [List.length_singleton, rehash_chain, hw0, hnb, hnx]
    exact ⟨_, rfl⟩
  obtain ⟨r, hr⟩ := hchain
  have hone : ∃ r1, rehash_buckets (List.replicate n empty_bucket ++ [b]) t.count 1 (0 + n) [w]
      (List.replicate N empty_bucket) = some r1 := by
    simp only [rehash_buckets, hlast, hr]
    exact ⟨_, rfl⟩
  obtain ⟨r1, hr1⟩ := hone
  unfold hash_expand_buckets
  simp only [hst, if_neg hmax, ← hN, hbk, hheap]
  have e : rehash_buckets (List.replicate n empty_bucket ++ [b]) t.count t.count 0 [w]
      (List.replicate N empty_bucket) = some r1 := by
    rw [← hr1, ← hskip]
    have : t.count = n + 1 := hcnt
    rw [← this]
  rw [e]
  exact ⟨_, rfl⟩

theorem hash_expand_buckets_odd_b : ∃ s1, hash_expand_buckets odd_index_b = some s1 :=
  hash_expand_buckets_single_last 1048576
    { key := [98], count := 1,
      hh := { next := none, next_w := none, hash := 30079156635, keylen := 1 } }
    { head := some 0, num := 1, noexpand := 0 } odd_index_b
    { buckets := List.replicate 1048576 empty_bucket ++
        [{ head := some 0, num := 1, noexpand := 0 }],
      tail := some 0, count := 1048577, num := 1 }
    rfl rfl rfl rfl (by decide) rfl rfl (by decide)

theorem hash_expand_buckets_single_first (w : word) (b : hash_bucket)
    (rest : List hash_bucket) (s : State) (t : hash_table) (hst : s.table = some t)
    (hbk : t.buckets = b :: rest) (hb : b.head = some 0) (hpos : 0 < t.count)
    (hlt : t.count < BUCKET_NUM_MAX) (hheap : s.heap = [w])
    (hidx : (if (2 * t.count) % ULONG_MOD > BUCKET_NUM_MAX then BUCKET_NUM_MAX
        else (2 * t.count) % ULONG_MOD) ≤
      hash_get_index w.hh.hash ((t.count * 2) % ULONG_MOD)) :
    hash_expand_buckets s = none := by
  obtain ⟨N, hN⟩ : ∃ N, N = (if (2 * t.count) % ULONG_MOD > BUCKET_NUM_MAX then BUCKET_NUM_MAX
        else (2 * t.count) % ULONG_MOD) := ⟨_, rfl⟩
  rw [← hN] at hidx
  have hnb : (List.replicate N empty_bucket)[hash_get_index w.hh.hash
      ((t.count * 2) % ULONG_MOD)]? = none := by
    rw [List.getElem?_replicate, if_neg (by omega)]
  have hw0 : ([w] : Heap)[0]? = some w := rfl
  have hchain : rehash_chain t.count (([w] : Heap).length + 1) [w]
      (List.replicate N empty_bucket) b.head = none := by
    rw [hb]
    simp only [List.length_singleton, rehash_chain, hw0, hnb]
  obtain ⟨m, hm⟩ : ∃ m, t.count = m + 1 := ⟨t.count - 1, by omega⟩
  have hmax : ¬ (t.count ≥ BUCKET_NUM_MAX) := by omega
  have hfail : rehash_buckets (b :: rest) t.count t.count 0 [w]
      (List.replicate N empty_bucket) = none := by
    have := @rehash_buckets_fail (b :: rest) t.count m 0 [w] (List.replicate N empty_bucket) b
      (List.getElem?_cons_zero) hchain
    rw [← hm] at this
    exact this
  unfold hash_expand_buckets
  simp only [hst, if_neg hmax, ← hN, hbk, hheap, hfail]

theorem hash_expand_buckets_odd : hash_expand_buckets odd_index = none :=
  hash_expand_buckets_single_first
    { key := [97], count := 1,
      hh := { next := none, next_w := none, hash := 29161854018, keylen := 1 } }
    { head := some 0, num := 1, noexpand := 0 } (List.replicate 1048576 empty_bucket) odd_index
    { buckets := { head := some 0, num := 1, noexpand := 0 } ::
        List.replicate 1048576 empty_bucket,
      tail := some 0, count := 1048577, num := 1 }
    rfl rfl rfl (by decide) (by decide) rfl (by decide)

theorem hash_expand_buckets_count {s s1 : State} {t : hash_table} (hst : s.table = some t)
    (h2 : BUCKET_NUM_MAX < 2 * t.count) (hlt : t.count < BUCKET_NUM_MAX)
    (hr : hash_expand_buckets s = some s1) :
    ∃ t1, s1.table = some t1 ∧ t1.count = 2 * t.count ∧
      t1.buckets.length = BUCKET_NUM_MAX := by
  obtain ⟨t0, t1, ht0, ht1, _, _, _, _, _, h⟩ := hash_expand_buckets_frame hr
  have : t0 = t := Option.some.inj (ht0.symm.trans hst)
  subst this
  obtain ⟨_, e1, e2⟩ := h hlt
  have hmod : (2 * t0.count) % ULONG_MOD = 2 * t0.count := by
    apply Nat.mod_eq_of_lt
    unfold BUCKET_NUM_MAX at hlt
    unfold ULONG_MOD
    omega
  refine ⟨t1, ht1, ?_, ?_⟩
  · rw [e1, Nat.mul_comm, hmod]
  · rw [e2, hmod, if_pos h2]

/-! ## Claim on bucket counts that are not powers of two -/

/-- C19 (fails in the code): for a table whose bucket count `c` is below
`BUCKET_NUM_MAX` with `2 * c` above it, whenever `hash_expand_buckets` returns,
the bucket count is `2 * c`, not `BUCKET_NUM_MAX`, while the new bucket array
has `BUCKET_NUM_MAX` buckets, fewer than the count. With 1048577 initial
buckets, the index holding the word "b" is expanded to a count of 2097154 over
an array of 2097152 buckets; the index holding the word "a" has its entry
addressed at index 2097152 of that array, one past its end, and the call does
not return. -/
theorem hash_expand_buckets_count_exceeds_array :
    (∀ (s s1 : State) (t : hash_table), s.table = some t →
      BUCKET_NUM_MAX < 2 * t.count → t.count < BUCKET_NUM_MAX →
      hash_expand_buckets s = some s1 →
      ∃ t1, s1.table = some t1 ∧ t1.count = 2 * t.count ∧
        t1.buckets.length = BUCKET_NUM_MAX ∧ t1.buckets.length < t1.count ∧
        t1.count ≠ min (2 * t.count) BUCKET_NUM_MAX) ∧
    add_word (init_state 1048577) [98] = some odd_index_b ∧
    (∃ s1 t1, hash_expand_buckets odd_index_b = some s1 ∧ s1.table = some t1 ∧
      t1.count = 2097154 ∧ t1.buckets.length = 2097152) ∧
    add_word (init_state 1048577) [97] = some odd_index ∧
    hash_get_index 29161854018 2097154 = 2097152 ∧
    hash_expand_buckets odd_index = none := by
  have gen : ∀ (s s1 : State) (t : hash_table), s.table = some t →
      BUCKET_NUM_MAX < 2 * t.count → t.count < BUCKET_NUM_MAX →
      hash_expand_buckets s = some s1 →
      ∃ t1, s1.table = some t1 ∧ t1.count = 2 * t.count ∧
        t1.buckets.length = BUCKET_NUM_MAX ∧ t1.buckets.length < t1.count ∧
        t1.count ≠ min (2 * t.count) BUCKET_NUM_MAX := by
    intro s s1 t hst h2 hlt hr
    obtain ⟨t1, ht1, e1, e2⟩ := hash_expand_buckets_count hst h2 hlt hr
    refine ⟨t1, ht1, e1, e2, by omega, ?_⟩
    rw [e1, Nat.min_eq_right (by omega)]
    omega
  refine ⟨gen, add_word_odd_b, ?_, add_word_odd, by decide, hash_expand_buckets_odd⟩
  obtain ⟨s1, hr⟩ := hash_expand_buckets_odd_b
  obtain ⟨t1, ht1, e1, e2, _⟩ := gen odd_index_b s1
    { buckets := List.replicate 1048576 empty_bucket ++
        [{ head := some 0, num := 1, noexpand := 0 }],
      tail := some 0, count := 1048577, num := 1 } rfl (by decide) (by decide) hr
  exact ⟨s1, t1, hr, ht1, e1, e2⟩

/-! ## Counting the entries -/

theorem sum_map_add (f g : Nat → Nat) : ∀ (c : Nat),
    ((List.range c).map (fun i => f i + g i)).sum =
      ((List.range c).map f).sum + ((List.range c).map g).sum := by
  intro c
  induction c with
  | zero => rfl
  | succ c ih =>
    simp only [List.range_succ, List.map_append, List.sum_append, List.map_cons, List.map_nil,
      List.sum_cons, List.sum_nil, ih]
    omega

theorem sum_indicator (x : Nat) : ∀ (c : Nat),
    ((List.range c).map (fun i => if x = i then 1 else 0)).sum = if x < c then 1 else 0 := by
  intro c
  induction c with
  | zero => rfl
  | succ c ih =>
    simp only [List.range_succ, List.map_append, List.sum_append, List.map_cons, List.map_nil,
      List.sum_cons, List.sum_nil, ih]
    by_cases h1 : x < c
    · have h2 : x ≠ c := by omega
      have h3 : x < c + 1 := by omega
      simp [h1, h2, h3]
    · by_cases h2 : x = c
      · subst h2; simp
      · have h3 : ¬ x < c + 1 := by omega
        simp [h1, h2, h3]

theorem sum_countP_range (g : Nat → Nat) (c : Nat) : ∀ (L : List Nat),
    (∀ a ∈ L, g a < c) →
    ((List.range c).map (fun i => L.countP (fun a => decide (g a = i)))).sum = L.length := by
  intro L
  induction L with
  | nil => intro _; simp
  | cons a l ih =>
    intro hlt
    have e : (fun i => (a :: l).countP (fun a => decide (g a = i))) =
        (fun i => l.countP (fun a => decide (g a = i)) + (if g a = i then 1 else 0)) := by
      funext i
      rw [List.countP_cons]
      simp
    rw [e, sum_map_add, ih (fun b hb => hlt b (List.mem_cons_of_mem _ hb)), sum_indicator,
      if_pos (hlt a (List.mem_cons_self _ _))]
    rfl

theorem length_of_mem_iff {C L : List Nat} (p : Nat → Bool) (hC : C.Nodup) (hL : L.Nodup)
    (hmem : ∀ a, a ∈ C ↔ (a ∈ L ∧ p a = true)) : C.length = L.countP p := by
  have hperm : C.Perm (L.filter p) := by
    rw [List.perm_ext_iff_of_nodup hC (hL.filter _)]
    intro a
    rw [hmem a, List.mem_filter]
  rw [hperm.length_eq, List.countP_eq_length_filter]

/-- The `num` fields of the buckets add up to the number of entries. -/
theorem sum_bucket_num {H : Nat → Nat} {h : Heap} {bs : List hash_bucket} {cnt : Nat}
    {L : List Nat} (hbk : BucketsOK H h bs cnt (fun a => a ∈ L)) (hnd : L.Nodup)
    (h1 : 1 ≤ cnt) (h2 : cnt ≤ ULONG_MOD) :
    (bs.map (fun b => b.num)).sum = L.length := by
  obtain ⟨hlen, hb⟩ := hbk
  have hmap : bs.map (fun b => b.num) = (List.range cnt).map
      (fun i => L.countP (fun a => decide (hash_get_index (H a) cnt = i))) := by
    apply List.ext_getElem?
    intro i
    simp only [List.getElem?_map]
    by_cases hi : i < cnt
    · have hi1 : i < bs.length := by omega
      have hbi : bs[i]? = some bs[i] := List.getElem?_eq_getElem hi1
      obtain ⟨C, hseg, hnum, hmem⟩ := hb i _ hbi
      rw [hbi, List.getElem?_range hi]
      simp only [Option.map_some', Option.some.injEq]
      rw [hnum]
      apply length_of_mem_iff _ (Seg_nodup hseg) hnd
      intro a
      rw [hmem a]
      simp
    · have e1 : bs[i]? = none := List.getElem?_eq_none (by omega)
      have e2 : (List.range cnt)[i]? = none :=
        List.getElem?_eq_none (by rw [List.length_range]; omega)
      rw [e1, e2]
      rfl
  rw [hmap]
  exact sum_countP_range _ cnt L (fun a _ => hash_get_index_lt _ _ h1 h2)

theorem Seg_succ {nxt : word → Option Nat} {h : Heap} : ∀ (l : List Nat) (p : Option Nat)
    (i a : Nat), Seg nxt h p l none → l[i]? = some a →
    ∃ w, h[a]? = some w ∧ nxt w = l[i + 1]?
  | [], _, _, _, _, hi => by simp at hi
  | b :: l, p, 0, a, hs, hi => by
    obtain ⟨_, w, hw, hrest⟩ := hs
    have : b = a := by simpa using hi
    subst this
    exact ⟨w, hw, by rw [Seg_head hrest]; cases l <;> simp⟩
  | b :: l, p, i + 1, a, hs, hi => by
    obtain ⟨_, w, _, hrest⟩ := hs
    have hi1 : l[i]? = some a := by simpa using hi
    obtain ⟨w1, hw1, hn⟩ := Seg_succ l _ i a hrest hi1
    exact ⟨w1, hw1, by rw [hn]; simp⟩

theorem twelve_ops_ok : ∀ op ∈ twelve_ops, OpOK op := by
  intro op hop
  simp only [twelve_ops, List.mem_append, List.mem_map, List.mem_singleton] at hop
  rcases hop with ⟨k, hk, rfl⟩ | rfl
  · have := valid_twelve_keys k hk
    exact ⟨this.1, this.2.1, by
      have := this.2.2
      unfold KEY_MAX_LEN at this; unfold UINT_MOD; omega⟩
  · exact True.intro

theorem nine_ops_ok : ∀ op ∈ nine_ops, OpOK op := by
  intro op hop
  simp only [nine_ops, List.mem_map] at hop
  obtain ⟨k, hk, rfl⟩ := hop
  have := valid_twelve_keys k (List.mem_of_mem_take hk)
  exact ⟨this.1, this.2.1, by
    have := this.2.2
    unfold KEY_MAX_LEN at this; unfold UINT_MOD; omega⟩

theorem run_nine_ops : run_ops (init_state 1) nine_ops = some nine_index := by decide

/-! ## Claims on reachable index states -/

/-- C13: from the empty index with an initial bucket count that is a power of
two not above `BUCKET_NUM_MAX`, every sequence of `add_word` calls (on words,
of any length) and `hash_sort` calls runs to the end, and in the final state
the table, when it exists, has a bucket count that is a power of two and at
most `BUCKET_NUM_MAX`, and its bucket array has that many buckets. -/
theorem bucket_count_power_of_two (n : Nat) (hn : IsPow2Cap n) (ops : List Op)
    (hops : ∀ op ∈ ops, OpOK op) :
    ∃ s, run_ops (init_state n) ops = some s ∧
      ∀ t, s.table = some t →
        (∃ j, t.count = 2 ^ j) ∧ t.count ≤ BUCKET_NUM_MAX ∧ t.buckets.length = t.count := by
  obtain ⟨s, L, hrun, hinv, hflag⟩ :=
    run_ops_reach ops _ _ (Inv_init hn) (FlagOK_init n) hops
  refine ⟨s, hrun, fun t ht => ?_⟩
  by_cases hL : L = []
  · have := (hflag.1 ((nil_iff_word_table hinv.1).1 hL)).1
    rw [this] at ht
    exact absurd ht (by simp)
  · obtain ⟨t0, ht0, _, _, ⟨j, hj, hle⟩, hbk⟩ := hinv.1.2.2 hL
    have : t0 = t := Option.some.inj (ht0.symm.trans ht)
    subst this
    exact ⟨⟨j, hj⟩, hle, hbk.1⟩

theorem bucket_count_power_of_two_witness :
    IsPow2Cap 1 ∧ (∀ op ∈ twelve_ops, OpOK op) ∧
    (∃ s, run_ops (init_state 1) twelve_ops = some s ∧
      ∀ t, s.table = some t →
        (∃ j, t.count = 2 ^ j) ∧ t.count ≤ BUCKET_NUM_MAX ∧ t.buckets.length = t.count) ∧
    (run_ops (init_state 1) twelve_ops).bind (fun s => s.table.map (fun t => t.count)) =
      some 2 :=
  ⟨isPow2Cap_1, twelve_ops_ok, bucket_count_power_of_two 1 isPow2Cap_1 twelve_ops twelve_ops_ok,
    by decide⟩

/-- C14: from the empty index (initial bucket count a power of two not above
`BUCKET_NUM_MAX`), every sequence of `add_word` and `hash_sort` calls runs to
the end, and in the final state, with `L` the entries on the insertion-order
list walked from the head via `next_w`: `hash_count()` is the length of `L`;
and when the table exists its `num` is the length of `L`, the `num` fields of
its buckets add up to it, and every bucket heads a NULL-terminated chain whose
length is the bucket's `num`. -/
theorem entry_total_consistent (n : Nat) (hn : IsPow2Cap n) (ops : List Op)
    (hops : ∀ op ∈ ops, OpOK op) :
    ∃ s L, run_ops (init_state n) ops = some s ∧ Seg nw s.heap s.word_table L none ∧
      hash_count s s.word_table = some L.length ∧
      ∀ t, s.table = some t →
        t.num = L.length ∧ (t.buckets.map (fun b => b.num)).sum = t.num ∧
        ∀ b ∈ t.buckets, ∃ C, Seg nx s.heap b.head C none ∧ b.num = C.length := by
  obtain ⟨s, L, hrun, hinv, hflag⟩ :=
    run_ops_reach ops _ _ (Inv_init hn) (FlagOK_init n) hops
  refine ⟨s, L, hrun, hinv.1.2.1, hash_count_of_TableOK hinv.1, fun t ht => ?_⟩
  by_cases hL : L = []
  · have := (hflag.1 ((nil_iff_word_table hinv.1).1 hL)).1
    rw [this] at ht
    exact absurd ht (by simp)
  · obtain ⟨t0, ht0, _, hnum, hcap, hbk⟩ := hinv.1.2.2 hL
    have : t0 = t := Option.some.inj (ht0.symm.trans ht)
    subst this
    refine ⟨hnum, ?_, ?_⟩
    · rw [hnum]
      exact sum_bucket_num hbk (Seg_nodup hinv.1.2.1) hcap.pos hcap.le_ulong
    · intro b hb
      obtain ⟨i, hi⟩ := List.getElem?_of_mem hb
      obtain ⟨C, hseg, hlen, _⟩ := hbk.2 i b hi
      exact ⟨C, hseg, hlen⟩

theorem entry_total_consistent_witness :
    IsPow2Cap 1 ∧ (∀ op ∈ twelve_ops, OpOK op) ∧
    (∃ s L, run_ops (init_state 1) twelve_ops = some s ∧
      Seg nw s.heap s.word_table L none ∧
      hash_count s s.word_table = some L.length ∧
      ∀ t, s.table = some t →
        t.num = L.length ∧ (t.buckets.map (fun b => b.num)).sum = t.num ∧
        ∀ b ∈ t.buckets, ∃ C, Seg nx s.heap b.head C none ∧ b.num = C.length) ∧
    (run_ops (init_state 1) twelve_ops).bind (fun s => hash_count s s.word_table) = some 12 :=
  ⟨isPow2Cap_1, twelve_ops_ok, entry_total_consistent 1 isPow2Cap_1 twelve_ops twelve_ops_ok,
    by decide⟩

/-- C15: from the empty index (initial bucket count a power of two not above
`BUCKET_NUM_MAX`), every sequence of `add_word` and `hash_sort` calls (also the
empty sequence, which leaves the index empty) runs to the end, and in the final
state there is a list `L` without repetition such that `hash_get_next` called
with `out = NULL` yields the head, which is the first element of `L` (NULL
when `L` is empty); called with an element of `L` it yields that entry's
`next_w`, which is the next element of `L`, and NULL after the last one; `L`
has `hash_count()` elements and holds exactly the entries on the bucket chains
of the table, which exists whenever the head does (so `hash_elmt_from_hh` never
sees a NULL table). `hash_get_next` writes only `*out`: the model returns the
new cursor and no state. -/
theorem hash_get_next_walk (n : Nat) (hn : IsPow2Cap n) (ops : List Op)
    (hops : ∀ op ∈ ops, OpOK op) :
    ∃ s L, run_ops (init_state n) ops = some s ∧
      s.word_table = L.head? ∧
      hash_get_next s s.word_table none = some L.head? ∧
      (∀ (i a : Nat), L[i]? = some a →
        (s.heap[a]?).map nw = some L[i + 1]? ∧
        hash_get_next s s.word_table (some a) = some L[i + 1]?) ∧
      L.Nodup ∧ hash_count s s.word_table = some L.length ∧ hash_iter s = some L ∧
      (s.word_table ≠ none → ∃ t, s.table = some t ∧
        ∀ a, a ∈ L ↔ ∃ (i : Nat) (b : hash_bucket) (C : List Nat), t.buckets[i]? = some b ∧ Seg nx s.heap b.head C none ∧ a ∈ C) := by
  obtain ⟨s, L, hrun, hinv, _⟩ :=
    run_ops_reach ops _ _ (Inv_init hn) (FlagOK_init n) hops
  have hseg := hinv.1.2.1
  have hhead : s.word_table = L.head? := Seg_head hseg
  refine ⟨s, L, hrun, hhead, ?_, ?_, Seg_nodup hseg, hash_count_of_TableOK hinv.1,
    hash_iter_of_seg hseg, ?_⟩
  · cases hwt : s.word_table with
    | none => rw [← hhead, hwt]; rfl
    | some hd => rw [← hhead, hwt]; rfl
  · intro i a hi
    obtain ⟨w, hw, hn⟩ := Seg_succ L _ i a hseg hi
    refine ⟨by rw [hw]; simp [hn], ?_⟩
    cases hwt : s.word_table with
    | none =>
      rw [hwt] at hseg
      rw [Seg_none_nil hseg] at hi
      simp at hi
    | some hd =>
      simp only [hash_get_next, hw]
      exact congrArg some hn
  · intro hwt
    have hL : L ≠ [] := fun h => hwt ((nil_iff_word_table hinv.1).1 h)
    obtain ⟨t, ht, _, _, hcap, hbk⟩ := hinv.1.2.2 hL
    refine ⟨t, ht, fun a => ⟨fun ha => ?_, fun ⟨i, b, C, hb, hC, ha⟩ => ?_⟩⟩
    · have hidx : hash_get_index (hash_of s.heap a) t.count < t.buckets.length := by
        rw [hbk.1]; exact hash_get_index_lt _ _ hcap.pos hcap.le_ulong
      have hb := List.getElem?_eq_getElem hidx
      obtain ⟨C, hC, _, hmem⟩ := hbk.2 _ _ hb
      exact ⟨_, _, C, hb, hC, (hmem a).2 ⟨ha, rfl⟩⟩
    · obtain ⟨C1, hC1, _, hmem⟩ := hbk.2 i b hb
      have : C = C1 := Seg_det hC hC1
      subst this
      exact ((hmem a).1 ha).1

theorem hash_get_next_walk_witness :
    IsPow2Cap 1 ∧ (∀ op ∈ twelve_ops, OpOK op) ∧
    (∃ s L, run_ops (init_state 1) twelve_ops = some s ∧
      s.word_table = L.head? ∧
      hash_get_next s s.word_table none = some L.head? ∧
      (∀ (i a : Nat), L[i]? = some a →
        (s.heap[a]?).map nw = some L[i + 1]? ∧
        hash_get_next s s.word_table (some a) = some L[i + 1]?) ∧
      L.Nodup ∧ hash_count s s.word_table = some L.length ∧ hash_iter s = some L ∧
      (s.word_table ≠ none → ∃ t, s.table = some t ∧
        ∀ a, a ∈ L ↔ ∃ (i : Nat) (b : hash_bucket) (C : List Nat), t.buckets[i]? = some b ∧ Seg nx s.heap b.head C none ∧
          a ∈ C)) ∧
    (run_ops (init_state 1) twelve_ops).bind hash_iter =
      some [0, 1, 2, 3, 4, 5, 6, 7, 8, 9, 10, 11] :=
  ⟨isPow2Cap_1, twelve_ops_ok, hash_get_next_walk 1 isPow2Cap_1 twelve_ops twelve_ops_ok,
    by decide⟩

/-- C11: in every state reachable from the empty index (initial bucket count a
power of two not above `BUCKET_NUM_MAX`) by `add_word` and `hash_sort` calls,
`add_word` of a key that is not in the index (NUL-free, 1 to `KEY_MAX_LEN`
bytes) returns, and the table exists afterwards. When the index was empty the
table is created with `BUCKET_INIT_COUNT` buckets. Otherwise, with `C` the
chain of the bucket that the key's hash addresses, the new bucket count is
twice the old one if and only if the chain reaches `BUCKET_NUM_TRESH` entries
with the new one (`C.length + 1 = BUCKET_NUM_TRESH`) and the old bucket count
is below `BUCKET_NUM_MAX`; in every other case it is the old bucket count. -/
theorem add_word_doubles_iff (n : Nat) (hn : IsPow2Cap n) (ops : List Op)
    (hops : ∀ op ∈ ops, OpOK op) (s : State) (hs : run_ops (init_state n) ops = some s)
    (k : CString) (hk : ValidKey k) (hnew : find_word s k = some none) :
    ∃ s1 t1, add_word s k = some s1 ∧ s1.table = some t1 ∧
      (s.table = none → t1.count = s.BUCKET_INIT_COUNT) ∧
      ∀ t, s.table = some t →
        ∃ b C, t.buckets[hash_get_index (hash_jen k k.length) t.count]? = some b ∧
          Seg nx s.heap b.head C none ∧
          (t1.count = 2 * t.count ↔
            (C.length + 1 = BUCKET_NUM_TRESH ∧ t.count < BUCKET_NUM_MAX)) ∧
          (¬ (C.length + 1 = BUCKET_NUM_TRESH ∧ t.count < BUCKET_NUM_MAX) →
            t1.count = t.count) := by
  obtain ⟨L, hinv, hflag⟩ := reach_init hn hops hs
  have hwk : WordKey k := ⟨hk.1, hk.2.1, by
    have := hk.2.2
    unfold KEY_MAX_LEN at this; unfold UINT_MOD; omega⟩
  obtain ⟨s1, L1, hr, _⟩ := add_word_inv hinv hwk
  rcases add_word_cases hinv hwk hr with ⟨hno, _⟩ | ⟨_, _, hl⟩
  · exact absurd ⟨hnew, hk.2.2⟩ hno
  · obtain ⟨bs, cnt, b, t1, hnone, hsome, hb, ht1, _, hnotr, htr⟩ := hl
    refine ⟨s1, t1, hr, ht1, ?_, ?_⟩
    · intro hst
      have hL : L = [] := by
        by_contra hL
        obtain ⟨t, ht, _⟩ := hinv.1.2.2 hL
        rw [hst] at ht
        exact absurd ht (by simp)
      obtain ⟨e1, e2⟩ := hnone ((nil_iff_word_table hinv.1).1 hL)
      rw [e1, e2] at hb
      have hbm : b ∈ List.replicate s.BUCKET_INIT_COUNT empty_bucket := List.getElem?_mem hb
      have hbe := List.eq_of_mem_replicate hbm
      have hnt : ¬ (b.num + 1 ≥ BUCKET_NUM_TRESH ∧ b.noexpand = 0 ∧ s.FLAG_EXPAND ≠ 0) := by
        rw [hbe]
        intro h
        have := h.1
        simp [empty_bucket, BUCKET_NUM_TRESH] at this
      rw [(hnotr hnt).2.1, e2]
    · intro t hst
      have hwt : s.word_table ≠ none := by
        intro h
        have := (hflag.1 h).1
        rw [hst] at this
        exact absurd this (by simp)
      have hL : L ≠ [] := fun h => hwt ((nil_iff_word_table hinv.1).1 h)
      obtain ⟨t0, ht0, e1, e2⟩ := hsome hwt
      have : t0 = t := Option.some.inj (ht0.symm.trans hst)
      subst this
      obtain ⟨t2, ht2, _, _, hcap, hbk⟩ := hinv.1.2.2 hL
      have : t2 = t0 := Option.some.inj (ht2.symm.trans hst)
      subst this
      rw [e1, e2] at hb
      obtain ⟨C, hC, hnum, _⟩ := hbk.2 _ b hb
      have hbm : b ∈ t2.buckets := List.getElem?_mem hb
      obtain ⟨f3a, f3b⟩ := hflag.2.2 t2 hst b hbm
      have f2 := hflag.2.1
      have hpos := hcap.pos
      have hmod : (t2.count * 2) % ULONG_MOD = 2 * t2.count := by
        rw [Nat.mul_comm]
        apply Nat.mod_eq_of_lt
        obtain ⟨j, _, hle⟩ := hcap
        unfold BUCKET_NUM_MAX at hle
        unfold ULONG_MOD
        omega
      have hyes : (C.length + 1 = BUCKET_NUM_TRESH ∧ t2.count < BUCKET_NUM_MAX) →
          t1.count = 2 * t2.count := by
        intro ⟨hc, hlt⟩
        have hne : b.noexpand = 0 := by
          by_contra hne
          have := f3a hne
          omega
        have hfl : s.FLAG_EXPAND ≠ 0 := by
          intro h0
          have := f2 h0 t2 hst
          omega
        have := (htr ⟨by omega, hne, hfl⟩).2 (by rw [e2]; exact hlt)
        rw [this.2.1, e2, hmod]
      have hno : ¬ (C.length + 1 = BUCKET_NUM_TRESH ∧ t2.count < BUCKET_NUM_MAX) →
          t1.count = t2.count := by
        intro hn
        by_cases htrig : b.num + 1 ≥ BUCKET_NUM_TRESH ∧ b.noexpand = 0 ∧ s.FLAG_EXPAND ≠ 0
        · have hlt := f3b htrig.2.2 htrig.2.1
          have hge : BUCKET_NUM_MAX ≤ t2.count := by
            by_contra hc
            exact hn ⟨by omega, by omega⟩
          rw [((htr htrig).1 (by rw [e2]; exact hge)).2.1, e2]
        · rw [(hnotr htrig).2.1, e2]
      refine ⟨b, C, hb, hC, ⟨fun h => ?_, hyes⟩, hno⟩
      by_contra hn
      have := hno hn
      omega

theorem add_word_doubles_iff_witness :
    IsPow2Cap 1 ∧ (∀ op ∈ nine_ops, OpOK op) ∧
    run_ops (init_state 1) nine_ops = some nine_index ∧ ValidKey [106] ∧
    find_word nine_index [106] = some none ∧
    (∃ s1 t1, add_word nine_index [106] = some s1 ∧ s1.table = some t1 ∧
      (nine_index.table = none → t1.count = nine_index.BUCKET_INIT_COUNT) ∧
      ∀ t, nine_index.table = some t →
        ∃ b C, t.buckets[hash_get_index (hash_jen [106] ([106] : CString).length) t.count]? =
            some b ∧
          Seg nx nine_index.heap b.head C none ∧
          (t1.count = 2 * t.count ↔
            (C.length + 1 = BUCKET_NUM_TRESH ∧ t.count < BUCKET_NUM_MAX)) ∧
          (¬ (C.length + 1 = BUCKET_NUM_TRESH ∧ t.count < BUCKET_NUM_MAX) →
            t1.count = t.count)) ∧
    nine_index.table.map (fun t => t.count) = some 1 ∧
    (add_word nine_index [106]).bind (fun s => s.table.map (fun t => t.count)) = some 2 :=
  ⟨isPow2Cap_1, nine_ops_ok, run_nine_ops, ⟨by decide, by decide, by decide⟩, by decide,
    add_word_doubles_iff 1 isPow2Cap_1 nine_ops nine_ops_ok nine_index run_nine_ops [106]
      ⟨by decide, by decide, by decide⟩ (by decide),
    by decide, by decide⟩

/-! ## Claims on parse_word -/

/-- C17 (fails in the code): the token made of an apostrophe, "A" and "b"
(bytes 39, 65, 98, none of them a delimiter of `strtok`) is accepted by
`parse_word`, and the word handed to `add_word` is "Ab". After `(*word)++` for
the leading apostrophe the loop index still advances, so the byte 65 is never
examined: it is not passed to `add_letter` and stays in the word, although it
is alphabetic and `cp1250_tolower` maps it to 97. -/
theorem parse_word_skips_letter :
    (∀ c ∈ ([39, 65, 98] : List Byte), c ∉ delimiters) ∧
    parse_word [39, 65, 98, 0] 0 = some ([39, 65, 98, 0], 1, [([98], 98)], true) ∧
    parsed_word [39, 65, 98, 0] 0 = some [65, 98] ∧
    cp1250_isalpha 65 = true ∧ cp1250_tolower 65 = 97 ∧ cp1250_tolower 65 ≠ 65 :=
  ⟨by simp [delimiters], rfl, by decide, by decide, by decide, by decide⟩

/-- C18 (fails in the code): `parse_word` accepts the token of two apostrophes
followed by "ab" and hands the word of one apostrophe followed by "ab" to
`add_word` (the index advances past the second apostrophe after `(*word)++`
for the first); it accepts the token "ab" followed by two apostrophes and
hands "ab" followed by one apostrophe to `add_word` (only the position of the
last outer delimiter is cut). The apostrophe is an outer delimiter and no
delimiter of `strtok`. An apostrophe between two letters is kept: the token
"a", apostrophe, "b" is handed on as it is. -/
theorem parse_word_keeps_outer_delimiter :
    is_delimiter_outer 39 = true ∧ (39 : Byte) ∉ delimiters ∧
    parsed_word [39, 39, 97, 98, 0] 0 = some [39, 97, 98] ∧
    parsed_word [97, 98, 39, 39, 0] 0 = some [97, 98, 39] ∧
    parsed_word [97, 39, 98, 0] 0 = some [97, 39, 98] :=
  ⟨by decide, by decide, by decide, by decide, by decide⟩

/-! ## Frame of hash_sort on the hash part -/

theorem get_none_of_erase_nw_eq {h h1 : Heap} (he : erase_nw h1 = erase_nw h) {a : Nat}
    (hw : h[a]? = none) : h1[a]? = none := by
  have hlen : h1.length = h.length := by simpa [erase_nw] using congrArg List.length he
  rw [List.getElem?_eq_none_iff] at hw ⊢
  omega

theorem hash_find_in_bkt_erase_nw {h h1 : Heap} (he : erase_nw h1 = erase_nw h)
    (k : CString) (n : Nat) : ∀ (fuel : Nat) (p : Option Nat),
    hash_find_in_bkt h1 k n fuel p = hash_find_in_bkt h k n fuel p := by
  intro fuel
  induction fuel with
  | zero => intro p; rfl
  | succ fuel ih =>
    intro p
    cases p with
    | none => rfl
    | some a =>
      simp only [hash_find_in_bkt]
      cases hw : h[a]? with
      | none => rw [get_none_of_erase_nw_eq he hw]
      | some w =>
        obtain ⟨w1, hw1, hf⟩ := get_of_erase_nw_eq he hw
        obtain ⟨f1, _, f3, _, f5⟩ := set_next_w_none_fields hf
        rw [hw1]
        simp only [f1, f3, f5, ih]

/-- What `hash_sort` leaves alone, for any index whose order list is
NULL-terminated and whose table exists when the list is not empty. -/
theorem hash_sort_frame {s : State} {L : List Nat} {n : Nat}
    (hit : hash_iter s = some L) (hcnt : hash_count s s.word_table = some n) :
    ∃ s1, hash_sort s = some s1 ∧ erase_nw s1.heap = erase_nw s.heap ∧
      (s1.word_table = none ↔ s.word_table = none) ∧
      (∀ t, s.table = some t → ∃ t1, s1.table = some t1 ∧ t1.buckets = t.buckets ∧
        t1.count = t.count ∧ t1.num = t.num) ∧
      (s.table = none → s1.table = none) := by
  by_cases hne : L = []
  · subst hne
    exact ⟨s, hash_sort_empty hit, rfl, Iff.rfl, fun t ht => ⟨t, ht, rfl, rfl, rfl⟩, fun h => h⟩
  · obtain ⟨tbl, hst, _⟩ := table_of_hash_count hit hne hcnt
    obtain ⟨s1, L1, hrun, herase, hseg, ⟨hperm, _, _, _⟩, hs1⟩ := hash_sort_spec hit hne hst
    have hne1 : L1 ≠ [] := fun e => hne (by rw [e] at hperm; exact hperm.symm.eq_nil)
    have hst1 : s1.table = some { tbl with tail := L1.getLast? } := by rw [hs1]
    have hwt1 : s1.word_table = L1.head? := by rw [hs1]
    have hwt : s.word_table ≠ none := by
      intro e
      have hs := seg_of_hash_iter hit
      rw [e] at hs
      exact hne (Seg_none_nil hs)
    refine ⟨s1, hrun, herase, ?_, ?_, ?_⟩
    · constructor
      · intro e
        rw [hwt1] at e
        cases L1 with
        | nil => exact absurd rfl hne1
        | cons a L1 => simp at e
      · intro e; exact absurd e hwt
    · intro t0 ht0
      rw [hst] at ht0
      have : tbl = t0 := Option.some.inj ht0
      subst this
      exact ⟨_, hst1, rfl, rfl, rfl⟩
    · intro e; rw [hst] at e; exact absurd e (by simp)

theorem hash_find_str_congr {s s1 : State} (herase : erase_nw s1.heap = erase_nw s.heap)
    (hwt : s1.word_table = none ↔ s.word_table = none)
    (hsome : ∀ t, s.table = some t → ∃ t1, s1.table = some t1 ∧ t1.buckets = t.buckets ∧
        t1.count = t.count ∧ t1.num = t.num)
    (hnone : s.table = none → s1.table = none) (k : CString) :
    hash_find_str s1 s1.word_table k = hash_find_str s s.word_table k := by
  have hlen : s1.heap.length = s.heap.length := by
    simpa [erase_nw] using congrArg List.length herase
  cases hw : s.word_table with
  | none => rw [hwt.2 hw]; rfl
  | some hd =>
    cases hw1 : s1.word_table with
    | none => rw [hwt.1 hw1] at hw; exact absurd hw (by simp)
    | some hd1 =>
      simp only [hash_find_str]
      cases hst : s.table with
      | none => rw [hnone hst]
      | some t =>
        obtain ⟨t1, ht1, e1, e2, _⟩ := hsome t hst
        rw [ht1]
        simp only [e1, e2, hlen]
        cases t.buckets[hash_get_index (hash_jen k (strlen k % UINT_MOD)) t.count]? with
        | none => rfl
        | some b => exact hash_find_in_bkt_erase_nw herase _ _ _ _

/-! ## Claims on the index after hash_sort -/

/-- C24: `hash_sort` leaves the hash part of the index untouched. For every
index (iteration yields `L`, `hash_count` is `n`) `hash_sort` returns; the
table has the same bucket array (every bucket's head, num and noexpand), the
same bucket count and the same entry total; no object is created or freed and
every entry keeps its chain link `next`, its stored hash, its stored key
length, its key and its count; the head is NULL afterwards exactly when it was
before; and for every key `k` (any byte sequence) `hash_find_str` through the
new head returns what it returned through the old head before the sort. -/
theorem hash_sort_keeps_hash_part (s : State) (L : List Nat) (n : Nat)
    (hit : hash_iter s = some L) (hcnt : hash_count s s.word_table = some n) :
    ∃ s1, hash_sort s = some s1 ∧
      (∀ t, s.table = some t → ∃ t1, s1.table = some t1 ∧ t1.buckets = t.buckets ∧
        t1.count = t.count ∧ t1.num = t.num) ∧
      s1.heap.length = s.heap.length ∧
      (∀ (a : Nat) (w : word), s.heap[a]? = some w → ∃ w1, s1.heap[a]? = some w1 ∧
        w1.hh.next = w.hh.next ∧ w1.hh.hash = w.hh.hash ∧ w1.hh.keylen = w.hh.keylen ∧
        w1.key = w.key ∧ w1.count = w.count) ∧
      (s1.word_table = none ↔ s.word_table = none) ∧
      ∀ k : CString, hash_find_str s1 s1.word_table k = hash_find_str s s.word_table k := by
  obtain ⟨s1, hrun, herase, hwt, hsome, hnone⟩ := hash_sort_frame hit hcnt
  refine ⟨s1, hrun, hsome, ?_, ?_, hwt, fun k => hash_find_str_congr herase hwt hsome hnone k⟩
  · simpa [erase_nw] using congrArg List.length herase
  · intro a w hw
    obtain ⟨w1, hw1, hf⟩ := get_of_erase_nw_eq herase hw
    obtain ⟨f1, f2, f3, f4, f5⟩ := set_next_w_none_fields hf
    exact ⟨w1, hw1, f3, f4, f5, f1, f2⟩

theorem hash_sort_keeps_hash_part_witness :
    hash_iter sample_index = some [0, 1, 2] ∧
    hash_count sample_index sample_index.word_table = some 3 ∧
    (∃ s1, hash_sort sample_index = some s1 ∧
      (∀ t, sample_index.table = some t → ∃ t1, s1.table = some t1 ∧
        t1.buckets = t.buckets ∧ t1.count = t.count ∧ t1.num = t.num) ∧
      s1.heap.length = sample_index.heap.length ∧
      (∀ (a : Nat) (w : word), sample_index.heap[a]? = some w → ∃ w1, s1.heap[a]? = some w1 ∧
        w1.hh.next = w.hh.next ∧ w1.hh.hash = w.hh.hash ∧ w1.hh.keylen = w.hh.keylen ∧
        w1.key = w.key ∧ w1.count = w.count) ∧
      (s1.word_table = none ↔ sample_index.word_table = none) ∧
      ∀ k : CString, hash_find_str s1 s1.word_table k =
        hash_find_str sample_index sample_index.word_table k) ∧
    (hash_sort sample_index).bind hash_iter = some [2, 1, 0] :=
  ⟨by decide, by decide,
    hash_sort_keeps_hash_part sample_index [0, 1, 2] 3 (by decide) (by decide), by decide⟩

/-- C21: from the empty index (initial bucket count a power of two not above
`BUCKET_NUM_MAX`), every sequence of `add_word` and `hash_sort` calls runs to
the end, and in the final state every entry `a` of the index (the iteration
sequence `L`) has a stored hash equal to `hash_jen` of its key and stored key
length, a stored key length that is the length of its key and at most
`KEY_MAX_LEN`; the table exists, `hash_get_index` of the stored hash and the
bucket count is below the bucket count, the bucket at that index heads a
NULL-terminated chain that holds `a`, and a NULL-terminated chain of any
bucket holds `a` only if it is that bucket, and holds no entry twice. -/
theorem entry_hash_and_chain (n : Nat) (hn : IsPow2Cap n) (ops : List Op)
    (hops : ∀ op ∈ ops, OpOK op) :
    ∃ s L, run_ops (init_state n) ops = some s ∧ hash_iter s = some L ∧
      ∀ a ∈ L, ∃ w t, s.heap[a]? = some w ∧ s.table = some t ∧
        w.hh.hash = hash_jen w.key w.hh.keylen ∧ w.hh.keylen = w.key.length ∧
        w.hh.keylen ≤ KEY_MAX_LEN ∧
        hash_get_index w.hh.hash t.count < t.count ∧
        (∃ b C, t.buckets[hash_get_index w.hh.hash t.count]? = some b ∧
          Seg nx s.heap b.head C none ∧ a ∈ C) ∧
        ∀ (i : Nat) (b : hash_bucket) (C : List Nat), t.buckets[i]? = some b →
          Seg nx s.heap b.head C none →
          (a ∈ C ↔ i = hash_get_index w.hh.hash t.count) ∧ C.Nodup := by
  obtain ⟨s, L, hrun, hinv, _⟩ :=
    run_ops_reach ops _ _ (Inv_init hn) (FlagOK_init n) hops
  obtain ⟨hok, hkeys, _⟩ := hinv
  refine ⟨s, L, hrun, hash_iter_of_seg hok.2.1, fun a ha => ?_⟩
  have hL : L ≠ [] := fun h => by rw [h] at ha; simp at ha
  obtain ⟨t, ht, _, _, hcap, hbk⟩ := hok.2.2 hL
  obtain ⟨w, hw⟩ := Seg_valid hok.2.1 ha
  obtain ⟨k1, k2, _, k4⟩ := hkeys.1 a ha w hw
  have hH : hash_of s.heap a = w.hh.hash := hash_of_get hw
  have hlt : hash_get_index w.hh.hash t.count < t.count :=
    hash_get_index_lt _ _ hcap.pos hcap.le_ulong
  have hidx : hash_get_index w.hh.hash t.count < t.buckets.length := by rw [hbk.1]; exact hlt
  have hb := List.getElem?_eq_getElem hidx
  obtain ⟨C0, hC0, _, hmem0⟩ := hbk.2 _ _ hb
  refine ⟨w, t, hw, ht, k1, k2, by rw [k2]; exact k4, hlt,
    ⟨_, C0, hb, hC0, (hmem0 a).2 ⟨ha, by rw [hH]⟩⟩, fun i b C hbi hC => ?_⟩
  obtain ⟨C1, hC1, _, hmem⟩ := hbk.2 i b hbi
  have : C = C1 := Seg_det hC hC1
  subst this
  refine ⟨⟨fun h => ?_, fun h => ?_⟩, Seg_nodup hC⟩
  · rw [← hH]; exact ((hmem a).1 h).2.symm
  · exact (hmem a).2 ⟨ha, by rw [hH]; exact h.symm⟩

theorem entry_hash_and_chain_witness :
    IsPow2Cap 1 ∧ (∀ op ∈ twelve_ops, OpOK op) ∧
    (∃ s L, run_ops (init_state 1) twelve_ops = some s ∧ hash_iter s = some L ∧
      ∀ a ∈ L, ∃ w t, s.heap[a]? = some w ∧ s.table = some t ∧
        w.hh.hash = hash_jen w.key w.hh.keylen ∧ w.hh.keylen = w.key.length ∧
        w.hh.keylen ≤ KEY_MAX_LEN ∧
        hash_get_index w.hh.hash t.count < t.count ∧
        (∃ b C, t.buckets[hash_get_index w.hh.hash t.count]? = some b ∧
          Seg nx s.heap b.head C none ∧ a ∈ C) ∧
        ∀ (i : Nat) (b : hash_bucket) (C : List Nat), t.buckets[i]? = some b →
          Seg nx s.heap b.head C none →
          (a ∈ C ↔ i = hash_get_index w.hh.hash t.count) ∧ C.Nodup) ∧
    (run_ops (init_state 1) twelve_ops).bind hash_iter =
      some [0, 1, 2, 3, 4, 5, 6, 7, 8, 9, 10, 11] :=
  ⟨isPow2Cap_1, twelve_ops_ok, entry_hash_and_chain 1 isPow2Cap_1 twelve_ops twelve_ops_ok,
    by decide⟩

/-- C23 (amended): for every non-empty well-formed index and every key `k`
that is not in it, NUL-free and of length between 1 and `KEY_MAX_LEN`:
`hash_sort` returns; afterwards the iteration sequence `L1` is a permutation of
the old one with non-increasing counts, the head is its first entry and the
tail of the table its last; `add_word(k)` then returns, and the iteration
sequence is `L1` followed by the one new entry, whose key is `k` and whose
count is 1; every entry of `L1` keeps its key and count, and `hash_count()` is
one more than before. -/
theorem sort_then_add_word (s : State) (L : List Nat) (k : CString) (hinv : Inv s L)
    (hL : L ≠ []) (hk : ValidKey k) (hnew : ∀ a ∈ L, key_of s.heap a ≠ k) :
    ∃ s1 L1 t1 s2, hash_sort s = some s1 ∧ hash_iter s1 = some L1 ∧ L1.Perm L ∧
      L1.Pairwise (fun a b => count_of s1.heap a ≥ count_of s1.heap b) ∧
      s1.word_table = L1.head? ∧ s1.table = some t1 ∧ t1.tail = L1.getLast? ∧
      add_word s1 k = some s2 ∧ hash_iter s2 = some (L1 ++ [s1.heap.length]) ∧
      s1.heap.length ∉ L1 ∧
      key_of s2.heap s1.heap.length = k ∧ count_of s2.heap s1.heap.length = 1 ∧
      (∀ a ∈ L1, key_of s2.heap a = key_of s1.heap a ∧
        count_of s2.heap a = count_of s1.heap a) ∧
      hash_count s2 s2.word_table = some (L.length + 1) := by
  obtain ⟨s1, L1, hrun, hinv1, hperm, herase, _⟩ := hash_sort_inv hinv
  have hL1 : L1 ≠ [] := fun e => hL (by rw [e] at hperm; exact hperm.symm.eq_nil)
  obtain ⟨t1, ht1, htail, _⟩ := hinv1.1.2.2 hL1
  have hcount : ∀ a, count_of s1.heap a = count_of s.heap a :=
    fun a => count_of_eq_of_erase_nw herase a
  have hsorted : L1.Pairwise (fun a b => count_of s1.heap a ≥ count_of s1.heap b) := by
    obtain ⟨t, hst, _⟩ := hinv.1.2.2 hL
    obtain ⟨s1b, L1b, hrunb, _, hsegb, ⟨_, hp, _, _⟩, _⟩ :=
      hash_sort_spec (hash_iter_of_seg hinv.1.2.1) hL hst
    have e : s1b = s1 := Option.some.inj (hrunb.symm.trans hrun)
    subst e
    have : L1b = L1 := Seg_det hsegb hinv1.1.2.1
    subst this
    refine hp.imp ?_
    intro a b hab
    rw [hcount a, hcount b]
    exact hab
  have hnew1 : ∀ a ∈ L1, key_of s1.heap a ≠ k := by
    intro a ha
    rw [key_of_eq_of_erase_nw herase a]
    exact hnew a (hperm.subset ha)
  have hkmod : k.length < UINT_MOD := by
    have := hk.2.2
    unfold KEY_MAX_LEN at this; unfold UINT_MOD; omega
  obtain ⟨r, hfind, hsome, _⟩ := find_word_spec hinv1.1 hinv1.2.1 hk.1 hkmod
  have hr : r = none := by
    cases r with
    | none => rfl
    | some p =>
      obtain ⟨hp, hkp⟩ := hsome p rfl
      exact absurd hkp (hnew1 p hp)
  subst hr
  obtain ⟨s2, hadd, hinv2, hview⟩ := add_word_new hinv1 hk hnew1 hfind
  have hvalid : s1.heap.length ∉ L1 := by
    intro hmem
    obtain ⟨w, hw⟩ := Seg_valid hinv1.1.2.1 hmem
    exact Nat.lt_irrefl _ (List.getElem?_eq_some_iff.1 hw).1
  rw [bump_of_not_mem k _ (by
    intro x hx
    simp only [view, List.mem_map] at hx
    obtain ⟨a, ha, rfl⟩ := hx
    exact hnew1 a ha)] at hview
  simp only [view, List.map_append, List.map_cons, List.map_nil] at hview
  obtain ⟨hv1, hv2⟩ := List.append_inj hview (by simp)
  have hv3 : (key_of s2.heap s1.heap.length, count_of s2.heap s1.heap.length) = (k, 1) := by
    simpa using hv2
  have hv4 := List.map_inj_left.1 hv1
  refine ⟨s1, L1, t1, s2, hrun, hash_iter_of_seg hinv1.1.2.1, hperm, hsorted,
    Seg_head hinv1.1.2.1, ht1, htail, hadd, hash_iter_of_seg hinv2.1.2.1, hvalid,
    (Prod.mk.inj hv3).1, (Prod.mk.inj hv3).2, ?_, ?_⟩
  · intro a ha
    have := hv4 a ha
    exact ⟨(Prod.mk.inj this).1, (Prod.mk.inj this).2⟩
  · rw [hash_count_of_TableOK hinv2.1, List.length_append, hperm.length_eq]
    rfl

theorem sort_then_add_word_witness :
    Inv sample_index [0, 1, 2] ∧ ValidKey [100] ∧
    (∀ a ∈ [0, 1, 2], key_of sample_index.heap a ≠ [100]) ∧
    (∃ s1 L1 t1 s2, hash_sort sample_index = some s1 ∧ hash_iter s1 = some L1 ∧
      L1.Perm [0, 1, 2] ∧
      L1.Pairwise (fun a b => count_of s1.heap a ≥ count_of s1.heap b) ∧
      s1.word_table = L1.head? ∧ s1.table = some t1 ∧ t1.tail = L1.getLast? ∧
      add_word s1 [100] = some s2 ∧ hash_iter s2 = some (L1 ++ [s1.heap.length]) ∧
      s1.heap.length ∉ L1 ∧
      key_of s2.heap s1.heap.length = [100] ∧ count_of s2.heap s1.heap.length = 1 ∧
      (∀ a ∈ L1, key_of s2.heap a = key_of s1.heap a ∧
        count_of s2.heap a = count_of s1.heap a) ∧
      hash_count s2 s2.word_table = some (([0, 1, 2] : List Nat).length + 1)) ∧
    ((hash_sort sample_index).bind (fun s => add_word s [100])).bind report =
      some [([97], 3), ([98], 2), ([99], 1), ([100], 1)] :=
  ⟨sample_index_ok.1, ⟨by decide, by decide, by decide⟩, by decide,
    sort_then_add_word sample_index [0, 1, 2] [100] sample_index_ok.1 (by decide)
      ⟨by decide, by decide, by decide⟩ (by decide),
    by decide⟩

/-- C23 as stated fails: the empty key has length 0, at most `KEY_MAX_LEN`, and
is not in the sample index; after `hash_sort`, `add_word` with it does not
return normally (histogram slot `w_lengths[0 - 1]`), so there is no iteration
sequence. -/
theorem sort_then_add_word_empty_key :
    hash_iter sample_index = some [0, 1, 2] ∧
    (∀ a ∈ [0, 1, 2], key_of sample_index.heap a ≠ []) ∧
    ([] : CString).length ≤ KEY_MAX_LEN ∧
    (∃ s1, hash_sort sample_index = some s1 ∧ find_word s1 [] = some none ∧
      add_word s1 [] = none) := by
  refine ⟨by decide, by decide, by decide, ?_⟩
  have h : (hash_sort sample_index).isSome = true := by decide
  obtain ⟨s1, hs1⟩ := Option.isSome_iff_exists.1 h
  refine ⟨s1, hs1, ?_, ?_⟩
  · have : (hash_sort sample_index).bind (fun s => find_word s []) = some none := by decide
    rw [hs1] at this
    exact this
  · have : (hash_sort sample_index).bind (fun s => add_word s []) = none := by decide
    rw [hs1] at this
    exact this

/-! ## The growth lock -/

theorem locked_ops_ok : ∀ op ∈ locked_ops, OpOK op := by
  intro op hop
  simp only [locked_ops, odd_hash_keys, List.map_cons, List.map_nil, List.mem_cons,
    List.mem_singleton, List.not_mem_nil, or_false] at hop
  rcases hop with h | h | h | h | h | h | h | h | h | h <;> subst h <;>
    exact ⟨by decide, by decide, by decide⟩

theorem run_locked_ops : run_ops (init_state 1) locked_ops = some locked_index := by decide

theorem locked_index_ok : Inv locked_index [0, 1, 2, 3, 4, 5, 6, 7, 8, 9] := by
  obtain ⟨L, hinv, _⟩ := reach_init isPow2Cap_1 locked_ops_ok run_locked_ops
  have h1 := hash_iter_of_seg hinv.1.2.1
  have h2 : hash_iter locked_index = some [0, 1, 2, 3, 4, 5, 6, 7, 8, 9] := by decide
  have : L = [0, 1, 2, 3, 4, 5, 6, 7, 8, 9] := Option.some.inj (h1.symm.trans h2)
  subst this
  exact hinv

theorem locks_after_expand {s0 : State} {L0 : List Nat} {t0 : hash_table}
    (hok : TableOK s0 L0) (hL0 : L0 ≠ []) (ht0 : s0.table = some t0)
    (hlt : t0.count < BUCKET_NUM_MAX) :
    ∃ s1 t1, hash_expand_buckets s0 = some s1 ∧ s1.table = some t1 ∧
      t1.count = 2 * t0.count ∧
      ∀ b1 ∈ t1.buckets, ∃ C, Seg nx s1.heap b1.head C none ∧ b1.num = C.length ∧
        (b1.noexpand ≠ 0 ↔ BUCKET_NUM_TRESH ≤ C.length) := by
  obtain ⟨s1, hr, hok1, _, _⟩ := hash_expand_buckets_spec hL0 hok
  obtain ⟨t1, ht1, hlocks⟩ := hash_expand_buckets_locks hr ht0 hlt
  obtain ⟨ta, tb, hta, htb, _, _, _, _, _, hfr⟩ := hash_expand_buckets_frame hr
  have e1 : ta = t0 := Option.some.inj (hta.symm.trans ht0)
  have e2 : tb = t1 := Option.some.inj (htb.symm.trans ht1)
  subst e1 e2
  obtain ⟨tc, htc, _, _, hcap, _⟩ := hok.2.2 hL0
  have e3 : tc = ta := Option.some.inj (htc.symm.trans ht0)
  subst e3
  obtain ⟨td, htd, _, _, _, hbk⟩ := hok1.2.2 hL0
  have e4 : td = tb := Option.some.inj (htd.symm.trans ht1)
  subst e4
  refine ⟨s1, td, hr, ht1, ?_, ?_⟩
  · rw [(hfr hlt).2.1, mul_two_mod_ulong hcap, Nat.mul_comm]
  · intro b1 hb1
    obtain ⟨i, hi⟩ := List.getElem?_of_mem hb1
    obtain ⟨C, hC, hnum, _⟩ := hbk.2 i b1 hi
    refine ⟨C, hC, hnum, ?_⟩
    rw [← hnum]
    exact hlocks b1 hb1

theorem add_word_locked {s : State} {L : List Nat} {t : hash_table} {b : hash_bucket}
    {k : CString} (hinv : Inv s L) (hL : L ≠ []) (hst : s.table = some t) (hk : ValidKey k)
    (hnew : find_word s k = some none)
    (hb : t.buckets[hash_get_index (hash_jen k k.length) t.count]? = some b)
    (hlock : b.noexpand ≠ 0) :
    ∃ s1 t1 b1, add_word s k = some s1 ∧ s1.table = some t1 ∧ t1.count = t.count ∧
      t1.buckets.length = t.buckets.length ∧ s1.FLAG_EXPAND = s.FLAG_EXPAND ∧
      t1.buckets[hash_get_index (hash_jen k k.length) t.count]? = some b1 ∧
      b1.noexpand = b.noexpand ∧ b1.num = b.num + 1 ∧ b1.head = some s.heap.length := by
  have hwk : WordKey k := ⟨hk.1, hk.2.1, by
    have := hk.2.2
    unfold KEY_MAX_LEN at this; unfold UINT_MOD; omega⟩
  have hwt : s.word_table ≠ none := fun h => hL ((nil_iff_word_table hinv.1).2 h)
  obtain ⟨s1, L1, hr, _⟩ := add_word_inv hinv hwk
  rcases add_word_cases hinv hwk hr with ⟨hno, _⟩ | ⟨_, _, hl⟩
  · exact absurd ⟨hnew, hk.2.2⟩ hno
  · obtain ⟨bs, cnt, b0, t1, _, hsome, hb0, ht1, _, hnotr, _⟩ := hl
    obtain ⟨ta, hta, e1, e2⟩ := hsome hwt
    have : ta = t := Option.some.inj (hta.symm.trans hst)
    subst this
    rw [e1, e2] at hb0
    have : b0 = b := Option.some.inj (hb0.symm.trans hb)
    subst this
    obtain ⟨f1, f2, f3⟩ := hnotr (fun h => hlock h.2.1)
    have hidx : hash_get_index (hash_jen k k.length) ta.count < ta.buckets.length :=
      (List.getElem?_eq_some_iff.1 hb).1
    obtain ⟨b1, hb1⟩ : ∃ b1 : hash_bucket, b1 =
        { b0 with num := b0.num + 1, head := some s.heap.length } := ⟨_, rfl⟩
    rw [← hb1] at f3
    refine ⟨s1, t1, b1, hr, ht1, by rw [f2, e2], by rw [f3, List.length_set, e1], f1, ?_,
      by rw [hb1], by rw [hb1], by rw [hb1]⟩
    rw [f3, e1, e2]
    exact List.getElem?_set_self hidx

/-- C22: (a) on a well-formed non-empty index `s0` whose bucket count is below
`BUCKET_NUM_MAX`, `hash_expand_buckets` returns with twice the bucket count,
and every bucket of the rebuilt array heads a NULL-terminated chain, has the
chain's length as `num`, and has `noexpand` set exactly when that length is at
least `BUCKET_NUM_TRESH`. (b) In a well-formed non-empty index `s`, `add_word`
of a new key (NUL-free, 1 to `KEY_MAX_LEN` bytes) addressed to a bucket `b`
whose `noexpand` is set returns with the same bucket count, the same array
length and the same expand flag; the bucket holds one entry more, headed by the
new one, and its `noexpand` is still set, so the same holds for the next
insertion, whatever the length of the chain. -/
theorem growth_lock (s0 : State) (L0 : List Nat) (t0 : hash_table) (hok : TableOK s0 L0)
    (hL0 : L0 ≠ []) (ht0 : s0.table = some t0) (hlt : t0.count < BUCKET_NUM_MAX)
    (s : State) (L : List Nat) (t : hash_table) (b : hash_bucket) (k : CString)
    (hinv : Inv s L) (hL : L ≠ []) (hst : s.table = some t) (hk : ValidKey k)
    (hnew : find_word s k = some none)
    (hb : t.buckets[hash_get_index (hash_jen k k.length) t.count]? = some b)
    (hlock : b.noexpand ≠ 0) :
    (∃ s1 t1, hash_expand_buckets s0 = some s1 ∧ s1.table = some t1 ∧
      t1.count = 2 * t0.count ∧
      ∀ b1 ∈ t1.buckets, ∃ C, Seg nx s1.heap b1.head C none ∧ b1.num = C.length ∧
        (b1.noexpand ≠ 0 ↔ BUCKET_NUM_TRESH ≤ C.length)) ∧
    (∃ s1 t1 b1, add_word s k = some s1 ∧ s1.table = some t1 ∧ t1.count = t.count ∧
      t1.buckets.length = t.buckets.length ∧ s1.FLAG_EXPAND = s.FLAG_EXPAND ∧
      t1.buckets[hash_get_index (hash_jen k k.length) t.count]? = some b1 ∧
      b1.noexpand = b.noexpand ∧ b1.num = b.num + 1 ∧ b1.head = some s.heap.length) :=
  ⟨locks_after_expand hok hL0 ht0 hlt, add_word_locked hinv hL hst hk hnew hb hlock⟩

theorem growth_lock_witness :
    TableOK locked_index [0, 1, 2, 3, 4, 5, 6, 7, 8, 9] ∧
    locked_index.table = some
      { buckets := [{ head := none, num := 0, noexpand := 0 },
                    { head := some 0, num := 10, noexpand := 1 }],
        tail := some 9, count := 2, num := 10 } ∧
    find_word locked_index [113] = some none ∧
    hash_get_index (hash_jen [113] ([113] : CString).length) 2 = 1 ∧
    ((∃ s1 t1, hash_expand_buckets locked_index = some s1 ∧ s1.table = some t1 ∧
      t1.count = 2 * 2 ∧
      ∀ b1 ∈ t1.buckets, ∃ C, Seg nx s1.heap b1.head C none ∧ b1.num = C.length ∧
        (b1.noexpand ≠ 0 ↔ BUCKET_NUM_TRESH ≤ C.length)) ∧
    (∃ s1 t1 b1, add_word locked_index [113] = some s1 ∧ s1.table = some t1 ∧
      t1.count = 2 ∧ t1.buckets.length = 2 ∧
      s1.FLAG_EXPAND = locked_index.FLAG_EXPAND ∧
      t1.buckets[hash_get_index (hash_jen [113] ([113] : CString).length) 2]? = some b1 ∧
      b1.noexpand = 1 ∧ b1.num = 10 + 1 ∧ b1.head = some locked_index.heap.length)) :=
  ⟨locked_index_ok.1, by decide, by decide, by decide,
    growth_lock locked_index [0, 1, 2, 3, 4, 5, 6, 7, 8, 9]
      { buckets := [{ head := none, num := 0, noexpand := 0 },
                    { head := some 0, num := 10, noexpand := 1 }],
        tail := some 9, count := 2, num := 10 }
      locked_index_ok.1 (by decide) (by decide) (by decide)
      locked_index [0, 1, 2, 3, 4, 5, 6, 7, 8, 9]
      { buckets := [{ head := none, num := 0, noexpand := 0 },
                    { head := some 0, num := 10, noexpand := 1 }],
        tail := some 9, count := 2, num := 10 }
      { head := some 0, num := 10, noexpand := 1 } [113]
      locked_index_ok (by decide) (by decide) ⟨by decide, by decide, by decide⟩ (by decide)
      (by decide) (by decide)⟩

/-! ## The initial bucket count -/

theorem spread_step (y w m : Nat)
    (h : ∀ i, w.testBit i = true ↔ ∃ j, j < m ∧ y.testBit (i + j) = true) :
    ∀ i, (w ||| (w >>> m)).testBit i = true ↔ ∃ j, j < 2 * m ∧ y.testBit (i + j) = true := by
  intro i
  rw [Nat.testBit_or, Nat.testBit_shiftRight, Bool.or_eq_true, h i, h (m + i)]
  constructor
  · rintro (⟨j, hj, hb⟩ | ⟨j, hj, hb⟩)
    · exact ⟨j, by omega, hb⟩
    · refine ⟨m + j, by omega, ?_⟩
      have e : i + (m + j) = m + i + j := by omega
      rw [e]; exact hb
  · rintro ⟨j, hj, hb⟩
    by_cases hjm : j < m
    · exact Or.inl ⟨j, hjm, hb⟩
    · refine Or.inr ⟨j - m, by omega, ?_⟩
      have e : m + i + (j - m) = i + j := by omega
      rw [e]; exact hb

/-- The five or-shifts of the bit-smearing step set bit `i` exactly when one of
the bits `i` to `i + 31` of the operand is set. -/
theorem spread32 (y : Nat) :
    ∀ i, (((((y ||| (y >>> 1)) ||| ((y ||| (y >>> 1)) >>> 2)) |||
        (((y ||| (y >>> 1)) ||| ((y ||| (y >>> 1)) >>> 2)) >>> 4)) |||
        ((((y ||| (y >>> 1)) ||| ((y ||| (y >>> 1)) >>> 2)) |||
        (((y ||| (y >>> 1)) ||| ((y ||| (y >>> 1)) >>> 2)) >>> 4)) >>> 8)) |||
        (((((y ||| (y >>> 1)) ||| ((y ||| (y >>> 1)) >>> 2)) |||
        (((y ||| (y >>> 1)) ||| ((y ||| (y >>> 1)) >>> 2)) >>> 4)) |||
        ((((y ||| (y >>> 1)) ||| ((y ||| (y >>> 1)) >>> 2)) |||
        (((y ||| (y >>> 1)) ||| ((y ||| (y >>> 1)) >>> 2)) >>> 4)) >>> 8)) >>> 16)).testBit i
        = true ↔ ∃ j, j < 32 ∧ y.testBit (i + j) = true := by
  have h0 : ∀ i, y.testBit i = true ↔ ∃ j, j < 1 ∧ y.testBit (i + j) = true := by
    intro i
    constructor
    · intro h; exact ⟨0, by omega, h⟩
    · rintro ⟨j, hj, hb⟩
      have : j = 0 := by omega
      subst this
      exact hb
  have h1 := spread_step y _ 1 h0
  have h2 := spread_step y _ 2 h1
  have h3 := spread_step y _ 4 h2
  have h4 := spread_step y _ 8 h3
  exact spread_step y _ 16 h4

theorem smear_eq (x : Nat) (h1 : 1 ≤ x) (h2 : x < ULONG_MOD) :
    ∃ z, smear x = (z + 1) % ULONG_MOD ∧
      ∀ i, z.testBit i = true ↔ ∃ j, j < 32 ∧ (x - 1).testBit (i + j) = true := by
  have e : (x + ULONG_MOD - 1) % ULONG_MOD = x - 1 := by
    have : x + ULONG_MOD - 1 = (x - 1) + ULONG_MOD := by omega
    rw [this, Nat.add_mod_right, Nat.mod_eq_of_lt (by omega)]
  refine ⟨_, ?_, spread32 (x - 1)⟩
  simp only [smear, e]

theorem testBit_false_of_lt {y k i : Nat} (hy : y < 2 ^ k) (hi : k ≤ i) :
    y.testBit i = false := by
  by_contra h
  have h1 : y.testBit i = true := by simpa using h
  have h2 := Nat.testBit_implies_ge h1
  have h3 : 2 ^ k ≤ 2 ^ i := Nat.pow_le_pow_right (by omega) hi
  omega

/-- The bit-smearing step yields the least power of two that is not below its
operand, for every operand from 1 to 2^32. -/
theorem smear_pow2 (x : Nat) (h1 : 1 ≤ x) (h2 : x ≤ 2 ^ 32) :
    ∃ j, smear x = 2 ^ j ∧ x ≤ 2 ^ j ∧ 2 ^ j < 2 * x ∧ j ≤ 32 := by
  have hx : x < ULONG_MOD := by unfold ULONG_MOD; omega
  obtain ⟨z, hz, hbits⟩ := smear_eq x h1 hx
  by_cases hy : x - 1 = 0
  · have hz0 : z = 0 := by
      apply Nat.eq_of_testBit_eq
      intro i
      rw [Nat.zero_testBit]
      by_contra h
      have h3 : z.testBit i = true := by simpa using h
      obtain ⟨j, _, hb⟩ := (hbits i).1 h3
      rw [hy, Nat.zero_testBit] at hb
      exact absurd hb (by simp)
    refine ⟨0, ?_, by omega, by omega, by omega⟩
    rw [hz, hz0]
    unfold ULONG_MOD
    norm_num
  · obtain ⟨t, ht, hmsb⟩ := Nat.exists_most_significant_bit hy
    have hge := Nat.testBit_implies_ge ht
    have hlt : x - 1 < 2 ^ (t + 1) :=
      Nat.lt_pow_two_of_testBit _ (fun i hi => hmsb i (by omega))
    have ht31 : t < 32 := by
      by_contra h
      have : 2 ^ 32 ≤ 2 ^ t := Nat.pow_le_pow_right (by omega) (by omega)
      omega
    have hzeq : z = 2 ^ (t + 1) - 1 := by
      apply Nat.eq_of_testBit_eq
      intro i
      rw [Nat.testBit_two_pow_sub_one]
      by_cases hi : i < t + 1
      · rw [decide_eq_true hi]
        exact (hbits i).2 ⟨t - i, by omega, by
          have : i + (t - i) = t := by omega
          rw [this]; exact ht⟩
      · rw [decide_eq_false hi]
        by_contra h
        have h3 : z.testBit i = true := by simpa using h
        obtain ⟨j, _, hb⟩ := (hbits i).1 h3
        rw [hmsb (i + j) (by omega)] at hb
        exact absurd hb (by simp)
    have hpos : 1 ≤ 2 ^ (t + 1) := Nat.one_le_two_pow
    have hle : 2 ^ (t + 1) ≤ 2 ^ 32 := Nat.pow_le_pow_right (by omega) (by omega)
    refine ⟨t + 1, ?_, by omega, ?_, by omega⟩
    · rw [hz, hzeq]
      have : 2 ^ (t + 1) - 1 + 1 = 2 ^ (t + 1) := by omega
      rw [this]
      apply Nat.mod_eq_of_lt
      unfold ULONG_MOD
      omega
    · rw [pow_succ]
      omega

/-- Above 2^32 the bit-smearing step yields a value above `BUCKET_NUM_MAX`
that fits a `long`. -/
theorem smear_big (x : Nat) (h1 : 2 ^ 32 < x) (h2 : x ≤ 2 ^ 59) :
    BUCKET_NUM_MAX < smear x ∧ smear x < 2 ^ 63 := by
  have hx : x < ULONG_MOD := by unfold ULONG_MOD; omega
  obtain ⟨z, hz, hbits⟩ := smear_eq x (by omega) hx
  have hy : x - 1 ≠ 0 := by omega
  obtain ⟨t, ht, hmsb⟩ := Nat.exists_most_significant_bit hy
  have hlt : x - 1 < 2 ^ (t + 1) :=
    Nat.lt_pow_two_of_testBit _ (fun i hi => hmsb i (by omega))
  have ht32 : 32 ≤ t := by
    by_contra h
    have : 2 ^ (t + 1) ≤ 2 ^ 32 := Nat.pow_le_pow_right (by omega) (by omega)
    omega
  have hzt : z.testBit t = true := (hbits t).2 ⟨0, by omega, ht⟩
  have hzge := Nat.testBit_implies_ge hzt
  have h232 : 2 ^ 32 ≤ 2 ^ t := Nat.pow_le_pow_right (by omega) ht32
  have hzlt : z < 2 ^ 59 := by
    apply Nat.lt_pow_two_of_testBit
    intro i hi
    by_contra h
    have h3 : z.testBit i = true := by simpa using h
    obtain ⟨j, _, hb⟩ := (hbits i).1 h3
    have : (x - 1).testBit (i + j) = false :=
      testBit_false_of_lt (k := 59) (by omega) (by omega)
    rw [this] at hb
    exact absurd hb (by simp)
  have hmod : (z + 1) % ULONG_MOD = z + 1 := by
    apply Nat.mod_eq_of_lt
    unfold ULONG_MOD
    omega
  rw [hz, hmod]
  unfold BUCKET_NUM_MAX
  constructor <;> omega

theorem bit_length_aux_spec : ∀ (fuel n : Nat), n ≤ fuel → n ≠ 0 →
    2 ^ (bit_length_aux fuel n - 1) ≤ n ∧ n < 2 ^ bit_length_aux fuel n ∧
    1 ≤ bit_length_aux fuel n := by
  intro fuel
  induction fuel with
  | zero => intro n h1 h2; omega
  | succ fuel ih =>
    intro n h1 h2
    simp only [bit_length_aux, if_neg h2]
    by_cases hh : n / 2 = 0
    · have hn1 : n = 1 := by omega
      subst hn1
      cases fuel with
      | zero => simp [bit_length_aux]
      | succ f => simp [bit_length_aux]
    · obtain ⟨a, b, c⟩ := ih (n / 2) (by omega) hh
      obtain ⟨m, hm⟩ : ∃ m, bit_length_aux fuel (n / 2) = m + 1 :=
        ⟨bit_length_aux fuel (n / 2) - 1, by omega⟩
      rw [hm] at a b ⊢
      simp only [Nat.add_sub_cancel] at a ⊢
      refine ⟨?_, ?_, by omega⟩
      · rw [pow_succ]; omega
      · rw [pow_succ]; omega

theorem bit_length_spec (n : Nat) (hn : n ≠ 0) :
    2 ^ (bit_length n - 1) ≤ n ∧ n < 2 ^ bit_length n ∧ 1 ≤ bit_length n :=
  bit_length_aux_spec n n (Nat.le_refl _) hn

theorem round_to_le (p n : Nat) : round_to p n ≤ 2 * n := by
  by_cases hn : n = 0
  · subst hn
    have : bit_length 0 = 0 := rfl
    unfold round_to
    simp only [this]
    rw [if_pos (Nat.zero_le _)]
  unfold round_to
  simp only
  split
  · omega
  · rename_i hbits
    obtain ⟨hlo, hhi, hone⟩ := bit_length_spec n hn
    obtain ⟨B, hB⟩ : ∃ B, B = bit_length n := ⟨_, rfl⟩
    rw [← hB] at hlo hhi hone hbits ⊢
    obtain ⟨sh, hsh⟩ : ∃ sh, sh = B - p := ⟨_, rfl⟩
    rw [← hsh]
    have hsum : p + sh = B := by omega
    have hpow : 2 ^ p * 2 ^ sh = 2 ^ B := by rw [← pow_add, hsum]
    have hq : n / 2 ^ sh < 2 ^ p := by
      rw [Nat.div_lt_iff_lt_mul (Nat.two_pow_pos sh), hpow]
      exact hhi
    have hq1 : (if n % 2 ^ sh > 2 ^ (sh - 1) ∨ (n % 2 ^ sh = 2 ^ (sh - 1) ∧ n / 2 ^ sh % 2 = 1)
        then n / 2 ^ sh + 1 else n / 2 ^ sh) ≤ 2 ^ p := by
      split <;> omega
    have hB1 : 2 ^ B = 2 * 2 ^ (B - 1) := by
      have : B = (B - 1) + 1 := by omega
      rw [this, pow_succ]
      simp only [Nat.add_sub_cancel]
      omega
    calc _ ≤ 2 ^ p * 2 ^ sh := Nat.mul_le_mul_right _ hq1
      _ = 2 ^ B := hpow
      _ = 2 * 2 ^ (B - 1) := hB1
      _ ≤ 2 * n := by omega

theorem guess_estimate_le (count : Nat) (h : count < 2 ^ 63) : guess_estimate count ≤ 2 ^ 59 := by
  unfold guess_estimate
  simp only
  have h1 := round_to_le 24 (count / 8)
  have h2 := round_to_le 53 (round_to 24 (count / 8) * double_0_05)
  have h3 := round_to_le 24
    ((round_to 53 (round_to 24 (count / 8) * double_0_05) + 2 ^ 57 - 1) / 2 ^ 57)
  have hc : count / 8 < 2 ^ 60 := by omega
  unfold double_0_05 at h2 h3 ⊢
  have hN : round_to 24 (count / 8) * 7205759403792794 ≤ 2 ^ 61 * 7205759403792794 := by
    apply Nat.mul_le_mul_right
    omega
  have hdiv : (round_to 53 (round_to 24 (count / 8) * 7205759403792794) + 2 ^ 57 - 1) / 2 ^ 57
      ≤ 2 ^ 58 := by
    apply Nat.div_le_of_le_mul
    norm_num at h2 hN ⊢
    omega
  omega

theorem long_to_unsigned_nat (v : Nat) : long_to_unsigned (v : Int) = v % UINT_MOD := by
  unfold long_to_unsigned
  rw [← Int.natCast_mod, Int.toNat_natCast]

theorem hash_set_count_nat (s : State) (v : Nat) :
    hash_set_count s (v : Int) =
      if v = 0 ∨ v > BUCKET_NUM_MAX then s
      else { s with BUCKET_INIT_COUNT := v % UINT_MOD } := by
  unfold hash_set_count
  rw [long_to_unsigned_nat]
  by_cases h : v = 0 ∨ v > BUCKET_NUM_MAX
  · have h1 : (v : Int) = 0 ∨ (v : Int) > (BUCKET_NUM_MAX : Int) := by
      rcases h with h | h
      · left; exact_mod_cast h
      · right; exact_mod_cast h
    rw [if_pos h, if_pos h1]
  · have h1 : ¬ ((v : Int) = 0 ∨ (v : Int) > (BUCKET_NUM_MAX : Int)) := by
      intro h2
      apply h
      rcases h2 with h2 | h2
      · left; exact_mod_cast h2
      · right; exact_mod_cast h2
    rw [if_neg h, if_neg h1]

theorem ulong_to_long_small (u : Nat) (h : u < 2 ^ 63) : ulong_to_long u = (u : Int) := by
  unfold ulong_to_long
  rw [if_pos h]

theorem pow2_least {x j : Nat} (h2 : 2 ^ j < 2 * x) : ∀ i, x ≤ 2 ^ i → 2 ^ j ≤ 2 ^ i := by
  intro i hi
  by_contra hc
  have hlt : 2 ^ i < 2 ^ j := by omega
  have hij : i < j := (Nat.pow_lt_pow_iff_right (by omega)).1 hlt
  have : 2 ^ (i + 1) ≤ 2 ^ j := Nat.pow_le_pow_right (by omega) hij
  rw [pow_succ] at this
  omega

theorem exists_pow2_ge (x : Nat) (hx : 1 ≤ x) : ∃ j, x ≤ 2 ^ j ∧ 2 ^ j < 2 * x := by
  have h1 := Nat.lt_size_self (x - 1)
  by_cases h0 : (x - 1).size = 0
  · refine ⟨0, ?_, by omega⟩
    rw [h0] at h1
    omega
  · have h2 : 2 ^ ((x - 1).size - 1) ≤ x - 1 := Nat.lt_size.1 (by omega)
    refine ⟨(x - 1).size, by omega, ?_⟩
    have : (x - 1).size = ((x - 1).size - 1) + 1 := by omega
    rw [this, pow_succ]
    omega

theorem not_isPow2Cap_3 : ¬ IsPow2Cap 3 := by
  rintro ⟨j, hj, _⟩
  rcases j with _ | j
  · simp at hj
  · rw [pow_succ] at hj
    omega

theorem hash_guess_count_spec (s : State) (count : Int) (h0 : 0 ≤ count)
    (h1 : count < 2 ^ 63) :
    ∃ s1, hash_guess_count s count = some s1 ∧
      ((guess_estimate count.toNat ≤ 32 ∨ count ≤ 32) → s1 = s) ∧
      ((32 < guess_estimate count.toNat ∧ 32 < count) →
        ∃ j, guess_estimate count.toNat ≤ 2 ^ j ∧
          (∀ i, guess_estimate count.toNat ≤ 2 ^ i → 2 ^ j ≤ 2 ^ i) ∧
          (BUCKET_NUM_MAX < 2 ^ j → s1 = s) ∧
          (2 ^ j ≤ BUCKET_NUM_MAX →
            s1 = { s with BUCKET_INIT_COUNT := 2 ^ j } ∧ 64 ≤ 2 ^ j)) := by
  have hneg : ¬ count < 0 := by omega
  obtain ⟨est, hest⟩ : ∃ est, est = guess_estimate count.toNat := ⟨_, rfl⟩
  have hbound : est ≤ 2 ^ 59 := by
    rw [hest]
    apply guess_estimate_le
    omega
  by_cases hsmall : est ≤ 32 ∨ count ≤ 32
  · refine ⟨s, ?_, fun _ => rfl, fun h => ?_⟩
    · unfold hash_guess_count
      rw [if_neg hneg]
      simp only
      rw [← hest, if_pos hsmall]
    · rw [← hest] at h
      omega
  · have hrun : hash_guess_count s count =
        some (hash_set_count s (ulong_to_long (smear est))) := by
      unfold hash_guess_count
      rw [if_neg hneg]
      simp only
      rw [← hest, if_neg hsmall]
    refine ⟨_, hrun, fun h => ?_, fun _ => ?_⟩
    · rw [← hest] at h
      exact absurd h hsmall
    · rw [← hest]
      by_cases h32 : est ≤ 2 ^ 32
      · obtain ⟨j, hj, hle, hlt, hj32⟩ := smear_pow2 est (by omega) h32
        have hpow : 2 ^ j ≤ 2 ^ 32 := Nat.pow_le_pow_right (by omega) hj32
        refine ⟨j, hle, pow2_least hlt, ?_, ?_⟩
        · intro hmax
          rw [hj, ulong_to_long_small _ (by omega), hash_set_count_nat,
            if_pos (Or.inr hmax)]
        · intro hmax
          have hne : ¬ (2 ^ j = 0 ∨ 2 ^ j > BUCKET_NUM_MAX) := by
            have := Nat.two_pow_pos j
            omega
          have hmod : 2 ^ j % UINT_MOD = 2 ^ j := by
            apply Nat.mod_eq_of_lt
            unfold BUCKET_NUM_MAX at hmax
            unfold UINT_MOD
            omega
          rw [hj, ulong_to_long_small _ (by omega), hash_set_count_nat, if_neg hne, hmod]
          refine ⟨rfl, ?_⟩
          have h6 : 6 ≤ j := by
            by_contra hc
            have : 2 ^ j ≤ 2 ^ 5 := Nat.pow_le_pow_right (by omega) (by omega)
            omega
          have : 2 ^ 6 ≤ 2 ^ j := Nat.pow_le_pow_right (by omega) h6
          omega
      · obtain ⟨hbig, hlong⟩ := smear_big est (by omega) hbound
        obtain ⟨j, hle, hlt⟩ := exists_pow2_ge est (by omega)
        refine ⟨j, hle, pow2_least hlt, ?_, ?_⟩
        · intro _
          rw [ulong_to_long_small _ hlong, hash_set_count_nat, if_pos (Or.inr hbig)]
        · intro hmax
          unfold BUCKET_NUM_MAX at hmax
          omega

/-! ## Claims on the initial bucket count -/

/-- C25: `hash_guess_count` only ever changes the initial bucket count to a
power of two. For every input size `count` from 0 to `LONG_MAX`, with the
estimate `count_u` computed in IEEE 754 `float` and `double` arithmetic, the
call returns; it returns the state unchanged when the estimate or the size is
at most 32; otherwise, with `2 ^ j` the least power of two not below the
estimate, it returns the state unchanged when `2 ^ j` is above
`BUCKET_NUM_MAX`, and else sets `BUCKET_INIT_COUNT` to `2 ^ j`, at least 64,
and changes nothing else. The bit-smearing step (decrement, or-shifts by 1, 2,
4, 8, 16, increment) yields the least power of two not below `x` for every `x`
with `32 < x` and `x` at most 2^32. -/
theorem hash_guess_count_power_of_two (s : State) (count : Int) (h0 : 0 ≤ count)
    (h1 : count < 2 ^ 63) :
    (∃ s1, hash_guess_count s count = some s1 ∧
      ((guess_estimate count.toNat ≤ 32 ∨ count ≤ 32) → s1 = s) ∧
      ((32 < guess_estimate count.toNat ∧ 32 < count) →
        ∃ j, guess_estimate count.toNat ≤ 2 ^ j ∧
          (∀ i, guess_estimate count.toNat ≤ 2 ^ i → 2 ^ j ≤ 2 ^ i) ∧
          (BUCKET_NUM_MAX < 2 ^ j → s1 = s) ∧
          (2 ^ j ≤ BUCKET_NUM_MAX →
            s1 = { s with BUCKET_INIT_COUNT := 2 ^ j } ∧ 64 ≤ 2 ^ j))) ∧
    ∀ x, 32 < x → x ≤ 2 ^ 32 →
      ∃ j, smear x = 2 ^ j ∧ x ≤ 2 ^ j ∧ ∀ i, x ≤ 2 ^ i → 2 ^ j ≤ 2 ^ i := by
  refine ⟨hash_guess_count_spec s count h0 h1, fun x hx1 hx2 => ?_⟩
  obtain ⟨j, hj, hle, hlt, _⟩ := smear_pow2 x (by omega) hx2
  exact ⟨j, hj, hle, pow2_least hlt⟩

theorem hash_guess_count_power_of_two_witness :
    (0 : Int) ≤ 100000 ∧ (100000 : Int) < 2 ^ 63 ∧
    ((∃ s1, hash_guess_count initial 100000 = some s1 ∧
      ((guess_estimate (100000 : Int).toNat ≤ 32 ∨ (100000 : Int) ≤ 32) → s1 = initial) ∧
      ((32 < guess_estimate (100000 : Int).toNat ∧ 32 < (100000 : Int)) →
        ∃ j, guess_estimate (100000 : Int).toNat ≤ 2 ^ j ∧
          (∀ i, guess_estimate (100000 : Int).toNat ≤ 2 ^ i → 2 ^ j ≤ 2 ^ i) ∧
          (BUCKET_NUM_MAX < 2 ^ j → s1 = initial) ∧
          (2 ^ j ≤ BUCKET_NUM_MAX →
            s1 = { initial with BUCKET_INIT_COUNT := 2 ^ j } ∧ 64 ≤ 2 ^ j))) ∧
    ∀ x, 32 < x → x ≤ 2 ^ 32 →
      ∃ j, smear x = 2 ^ j ∧ x ≤ 2 ^ j ∧ ∀ i, x ≤ 2 ^ i → 2 ^ j ≤ 2 ^ i) ∧
    guess_estimate 100000 = 625 ∧
    (hash_guess_count initial 100000).map (fun s => s.BUCKET_INIT_COUNT) = some 1024 :=
  ⟨by decide, by decide, hash_guess_count_power_of_two initial 100000 (by decide) (by decide),
    by decide, by decide⟩

/-- C26 (amended): for every argument `c` of type `long`, `hash_set_count(c)`
leaves the state unchanged when `c` is zero or above `BUCKET_NUM_MAX`, sets
`BUCKET_INIT_COUNT` to `c` when `c` is between 1 and `BUCKET_NUM_MAX`, and to
`c` modulo 2^32 when `c` is negative, changing nothing else. So when
`BUCKET_INIT_COUNT` was a power of two between 1 and `BUCKET_NUM_MAX` before
the call, it is one afterwards whenever `c` is zero, above `BUCKET_NUM_MAX`, or
itself a power of two between 1 and `BUCKET_NUM_MAX`. -/
theorem hash_set_count_effect (s : State) (c : Int) (hs : IsPow2Cap s.BUCKET_INIT_COUNT) :
    ((c = 0 ∨ (BUCKET_NUM_MAX : Int) < c) → hash_set_count s c = s) ∧
    ((1 ≤ c ∧ c ≤ (BUCKET_NUM_MAX : Int)) →
      hash_set_count s c = { s with BUCKET_INIT_COUNT := c.toNat }) ∧
    (c < 0 → hash_set_count s c = { s with BUCKET_INIT_COUNT := (c % 4294967296).toNat }) ∧
    ((c = 0 ∨ (BUCKET_NUM_MAX : Int) < c ∨ IsPow2Cap c.toNat) →
      IsPow2Cap (hash_set_count s c).BUCKET_INIT_COUNT) := by
  have hunch : (c = 0 ∨ (BUCKET_NUM_MAX : Int) < c) → hash_set_count s c = s := by
    intro h
    unfold hash_set_count
    rw [if_pos h]
  have hset : (1 ≤ c ∧ c ≤ (BUCKET_NUM_MAX : Int)) →
      hash_set_count s c = { s with BUCKET_INIT_COUNT := c.toNat } := by
    intro ⟨h1, h2⟩
    obtain ⟨v, hv⟩ : ∃ v : Nat, c = (v : Int) := ⟨c.toNat, by omega⟩
    subst hv
    have h3 : ¬ (v = 0 ∨ v > BUCKET_NUM_MAX) := by omega
    have h4 : v % UINT_MOD = v := by
      apply Nat.mod_eq_of_lt
      unfold BUCKET_NUM_MAX at h2
      unfold UINT_MOD
      omega
    rw [hash_set_count_nat, if_neg h3, h4, Int.toNat_natCast]
  refine ⟨hunch, hset, ?_, ?_⟩
  · intro hneg
    have h : ¬ (c = 0 ∨ c > (BUCKET_NUM_MAX : Int)) := by
      unfold BUCKET_NUM_MAX
      omega
    unfold hash_set_count
    rw [if_neg h]
    rfl
  · intro h
    rcases h with h | h | h
    · rw [hunch (Or.inl h)]; exact hs
    · rw [hunch (Or.inr h)]; exact hs
    · by_cases hc : (BUCKET_NUM_MAX : Int) < c
      · rw [hunch (Or.inr hc)]; exact hs
      · have hpos := h.pos
        have h1 : 1 ≤ c := by omega
        rw [hset ⟨h1, by omega⟩]
        exact h

theorem hash_set_count_effect_witness :
    IsPow2Cap initial.BUCKET_INIT_COUNT ∧
    (((1024 : Int) = 0 ∨ (BUCKET_NUM_MAX : Int) < 1024) → hash_set_count initial 1024 = initial) ∧
    ((1 ≤ (1024 : Int) ∧ (1024 : Int) ≤ (BUCKET_NUM_MAX : Int)) →
      hash_set_count initial 1024 = { initial with BUCKET_INIT_COUNT := (1024 : Int).toNat }) ∧
    ((1024 : Int) < 0 → hash_set_count initial 1024 =
      { initial with BUCKET_INIT_COUNT := ((1024 : Int) % 4294967296).toNat }) ∧
    (((1024 : Int) = 0 ∨ (BUCKET_NUM_MAX : Int) < 1024 ∨ IsPow2Cap (1024 : Int).toNat) →
      IsPow2Cap (hash_set_count initial 1024).BUCKET_INIT_COUNT) ∧
    (hash_set_count initial 1024).BUCKET_INIT_COUNT = 1024 ∧
    hash_set_count initial 0 = initial ∧ hash_set_count initial 2097153 = initial :=
  ⟨isPow2Cap_32, (hash_set_count_effect initial 1024 isPow2Cap_32).1,
    (hash_set_count_effect initial 1024 isPow2Cap_32).2.1,
    (hash_set_count_effect initial 1024 isPow2Cap_32).2.2.1,
    (hash_set_count_effect initial 1024 isPow2Cap_32).2.2.2,
    by decide, by decide, by decide⟩

/-- C26 as stated fails: with `BUCKET_INIT_COUNT` 32 before the call,
`hash_set_count(3)` sets it to 3, which is no power of two, and
`hash_set_count(-1)` sets it to 4294967295, which is above `BUCKET_NUM_MAX`. -/
theorem hash_set_count_not_power_of_two :
    IsPow2Cap initial.BUCKET_INIT_COUNT ∧
    (hash_set_count initial 3).BUCKET_INIT_COUNT = 3 ∧ ¬ IsPow2Cap 3 ∧
    (hash_set_count initial (-1)).BUCKET_INIT_COUNT = 4294967295 ∧
    ¬ IsPow2Cap 4294967295 :=
  ⟨isPow2Cap_32, by decide, not_isPow2Cap_3, by decide, fun ⟨_, _, h⟩ => by
    unfold BUCKET_NUM_MAX at h; omega⟩

/-! ## Words longer than KEY_MAX_LEN -/

theorem add_word_length_w_length_max {s s1 : State} {len : Nat}
    (hr : add_word_length s len = some s1) : s1.w_length_max = s.w_length_max := by
  unfold add_word_length at hr
  simp only at hr
  split at hr
  · exact absurd hr (by simp)
  · split at hr
    · exact absurd hr (by simp)
    · have e := Option.some.inj hr
      subst e
      simp only
      split
      · split <;> rfl
      · rfl

theorem add_word_new_w_length_max {s s1 : State} {k : CString}
    (hfind : find_word s k = some none) (hlong : KEY_MAX_LEN < strlen k % UINT_MOD)
    (hr : add_word s k = some s1) :
    strlen k % UINT_MOD ≤ s1.w_length_max := by
  simp only [add_word, hfind] at hr
  split at hr
  · exact absurd hr (by simp)
  · rename_i s2 h2
    have e1 := add_word_length_w_length_max h2
    have hsa : ∀ (x : State), (if strlen k % UINT_MOD > s.w_length_max then
        ({ s with w_length_max := strlen k % UINT_MOD } : State) else s) = x →
        strlen k % UINT_MOD ≤ x.w_length_max := by
      intro x hx
      subst hx
      split
      · exact Nat.le_refl _
      · omega
    have f1 := hsa _ rfl
    simp only [hash_add_str] at hr
    rw [if_pos hlong] at hr
    have e := Option.some.inj hr
    subst e
    show strlen k % UINT_MOD ≤ s2.w_length_max
    rw [e1]
    exact f1

/-- A word longer than `KEY_MAX_LEN` is counted by `add_word` but not indexed. -/
theorem add_word_long_stats {s : State} {L : List Nat} {k : CString} (hinv : Inv s L)
    (hk : WordKey k) (hlong : KEY_MAX_LEN < k.length) :
    ∃ s1, add_word s k = some s1 ∧ hash_iter s1 = some L ∧
      hash_count s1 s1.word_table = some L.length ∧
      (∀ a ∈ L, (key_of s1.heap a).length ≤ KEY_MAX_LEN) ∧ k.length ≤ s1.w_length_max := by
  obtain ⟨s1, hr, hinv1, _⟩ := add_word_long hinv hk hlong
  have hsl : strlen k % UINT_MOD = k.length := by
    rw [strlen_of_nonul k hk.1, Nat.mod_eq_of_lt hk.2.2]
  obtain ⟨r, hfind, hsome, _⟩ := find_word_spec hinv.1 hinv.2.1 hk.1 hk.2.2
  have hr0 : r = none := by
    cases r with
    | none => rfl
    | some p =>
      obtain ⟨hp, hkp⟩ := hsome p rfl
      obtain ⟨w, hw⟩ := Seg_valid hinv.1.2.1 hp
      have := (hinv.2.1.1 p hp w hw).2.2.2
      rw [← key_of_get hw, hkp] at this
      omega
  subst hr0
  refine ⟨s1, hr, hash_iter_of_seg hinv1.1.2.1, hash_count_of_TableOK hinv1.1, ?_, ?_⟩
  · intro a ha
    obtain ⟨w, hw⟩ := Seg_valid hinv1.1.2.1 ha
    rw [key_of_get hw]
    exact (hinv1.2.1.1 a ha w hw).2.2.2
  · have := add_word_new_w_length_max hfind (by rw [hsl]; exact hlong) hr
    rw [hsl] at this
    exact this

/-! ## Claim on the word-length statistics -/

set_option maxRecDepth 100000 in
/-- C27 (fails in the code): for every well-formed index and every word longer
than `KEY_MAX_LEN` (NUL-free, shorter than 2^32 bytes), `add_word` returns with
the same entries in the index, each with a key of at most `KEY_MAX_LEN` bytes,
and with `w_length_max` at least the length of the word: the maximum is the
length of no entry. On the empty index of the program start, `add_word` twice
with the same word of 513 bytes leaves `hash_count()` at 0 and the iteration
empty, sets `w_length_max` to 513 and counts the word twice in the histogram
slot `w_lengths[512]`. -/
theorem long_word_counted_not_indexed :
    (∀ (s : State) (L : List Nat) (k : CString), Inv s L → WordKey k →
      KEY_MAX_LEN < k.length →
      ∃ s1, add_word s k = some s1 ∧ hash_iter s1 = some L ∧
        hash_count s1 s1.word_table = some L.length ∧
        (∀ a ∈ L, (key_of s1.heap a).length ≤ KEY_MAX_LEN) ∧
        KEY_MAX_LEN < s1.w_length_max) ∧
    long_word.length = 513 ∧ (0 : Byte) ∉ long_word ∧
    (add_words initial [long_word, long_word]).map
        (fun s => (s.w_length_max, (s.w_lengths.getD []).getD 512 0,
          hash_count s s.word_table, hash_iter s)) =
      some (513, 2, some 0, some []) := by
  refine ⟨fun s L k hinv hk hlong => ?_, by decide, by decide, by decide⟩
  obtain ⟨s1, h1, h2, h3, h4, h5⟩ := add_word_long_stats hinv hk hlong
  exact ⟨s1, h1, h2, h3, h4, by omega⟩

/-! ## Claims on the tokenizer and the character classes -/

/-- C28 (fails in the code): the token made of an apostrophe and "a" (bytes 39,
97, none of them a delimiter of `strtok`) contains the alphabetic character
"a", and `parse_word` returns false for it without a call of `add_letter`:
after `(*word)++` for the leading apostrophe the loop index still advances, so
the byte 97 is never examined. -/
theorem parse_word_rejects_letter :
    (∀ c ∈ ([39, 97] : List Byte), c ∉ delimiters) ∧
    (97 : Byte) ∈ ([39, 97] : List Byte) ∧ cp1250_isalpha 97 = true ∧
    parse_word [39, 97, 0] 0 = some ([39, 0, 0], 1, [], false) ∧
    parsed_word [39, 97, 0] 0 = none :=
  ⟨by simp [delimiters], by decide, by decide, rfl, by decide⟩

/-- C29 (fails in the code): for the token "CH" (bytes 67, 72) `parse_word`
passes "c" at index 99 and "h" at index 104 to `add_letter`, and for the token
"cH" as well, while for the tokens "ch" and "Ch" it passes "ch" at index 0
once: the byte after the "c" is compared with "h" before it is lowercased. All
four tokens are accepted and handed to `add_word` as "ch", so the letter
counts of a token do not depend on its case-folded form only. -/
theorem parse_word_digraph_case :
    parse_word [67, 72, 0] 0 = some ([99, 104, 0], 0, [([99], 99), ([104], 104)], true) ∧
    parse_word [99, 72, 0] 0 = some ([99, 104, 0], 0, [([99], 99), ([104], 104)], true) ∧
    parse_word [99, 104, 0] 0 = some ([99, 104, 0], 0, [([99, 104], 0)], true) ∧
    parse_word [67, 104, 0] 0 = some ([99, 104, 0], 0, [([99, 104], 0)], true) ∧
    parsed_word [67, 72, 0] 0 = some [99, 104] ∧ parsed_word [99, 104, 0] 0 = some [99, 104] ∧
    cp1250_tolower 67 = 99 ∧ cp1250_tolower 72 = 104 :=
  ⟨rfl, rfl, rfl, rfl, by decide, by decide, by decide, by decide⟩

set_option maxRecDepth 100000 in
/-- C30 (fails in the code): for every character code `c` from 0x80 to 0xFF,
`cp1250_isspace(c)` reads `dict[c]`, not `dict[c - 0x80]`: the index is at
least 128, the number of entries of `dict`, so the read is outside the array
(the model gives no result). The entry that belongs to 0xA0 is
`dict[0xA0 - 0x80]`, which is `_SPACE`, and it is the only `_SPACE` entry. -/
theorem cp1250_isspace_reads_outside :
    (∀ c, 0x80 ≤ c → c ≤ 0xFF → dict[c]? = none ∧ cp1250_isspace c = none) ∧
    dict.length = 128 ∧ dict[0xA0 - _DICTOFFSET]? = some _SPACE ∧
    (∀ i, dict[i]? = some _SPACE → i = 0xA0 - _DICTOFFSET) ∧
    cp1250_isspace 0xA0 = none := by
  have hlen : dict.length = 128 := rfl
  have hnone : ∀ c, 0x80 ≤ c → dict[c]? = none := by
    intro c hc
    apply List.getElem?_eq_none
    omega
  refine ⟨fun c hc _ => ⟨hnone c hc, ?_⟩, hlen, by decide, ?_, by decide⟩
  · unfold cp1250_isspace
    have : ¬ c < _DICTOFFSET := by unfold _DICTOFFSET; omega
    rw [if_neg this, hnone c hc]
    rfl
  · intro i hi
    have hi128 : i < 128 := by
      by_contra h
      rw [hnone i (by omega)] at hi
      exact absurd hi (by simp)
    have hall : ∀ j, j < 128 → dict[j]? = some _SPACE → j = 0xA0 - _DICTOFFSET := by decide
    exact hall i hi128 hi

/-! ## Claim on cp1250_tolower -/

set_option maxRecDepth 100000 in
theorem cp1250_tolower_table : ∀ c, c < 256 → 128 ≤ c →
    ((cp1250_isupper c = true ∧ c ≠ 0xDF) → cp1250_islower (cp1250_tolower c) = true) ∧
    (¬ (cp1250_isupper c = true ∧ c ≠ 0xDF) → cp1250_tolower c = c) ∧
    cp1250_tolower (cp1250_tolower c) = cp1250_tolower c ∧
    0x80 ≤ cp1250_tolower c ∧ cp1250_tolower c ≤ 0xFF := by
  decide

/-- C31: for every character code `c` from 0x80 to 0xFF: when `c` is
classified uppercase by `cp1250_isupper` and is not 0xDF, `cp1250_tolower(c)`
is classified lowercase by `cp1250_islower`; for every other `c` of the range
`cp1250_tolower(c)` is `c`; in both cases the result is again a code from 0x80
to 0xFF and `cp1250_tolower` applied to it gives it back. -/
theorem cp1250_tolower_idempotent (c : Nat) (h1 : 0x80 ≤ c) (h2 : c ≤ 0xFF) :
    ((cp1250_isupper c = true ∧ c ≠ 0xDF) → cp1250_islower (cp1250_tolower c) = true) ∧
    (¬ (cp1250_isupper c = true ∧ c ≠ 0xDF) → cp1250_tolower c = c) ∧
    cp1250_tolower (cp1250_tolower c) = cp1250_tolower c ∧
    0x80 ≤ cp1250_tolower c ∧ cp1250_tolower c ≤ 0xFF :=
  cp1250_tolower_table c (by omega) (by omega)

set_option maxRecDepth 100000 in
theorem cp1250_tolower_idempotent_witness :
    0x80 ≤ 0xC1 ∧ 0xC1 ≤ 0xFF ∧
    (((cp1250_isupper 0xC1 = true ∧ 0xC1 ≠ 0xDF) →
        cp1250_islower (cp1250_tolower 0xC1) = true) ∧
      (¬ (cp1250_isupper 0xC1 = true ∧ 0xC1 ≠ 0xDF) → cp1250_tolower 0xC1 = 0xC1) ∧
      cp1250_tolower (cp1250_tolower 0xC1) = cp1250_tolower 0xC1 ∧
      0x80 ≤ cp1250_tolower 0xC1 ∧ cp1250_tolower 0xC1 ≤ 0xFF) ∧
    cp1250_isupper 0xC1 = true ∧ cp1250_tolower 0xC1 = 0xE1 ∧ cp1250_islower 0xE1 = true ∧
    cp1250_isupper 0xDF = true ∧ cp1250_tolower 0xDF = 0xDF ∧ cp1250_islower 0xDF = false :=
  ⟨by decide, by decide, cp1250_tolower_idempotent 0xC1 (by decide) (by decide),
    by decide, by decide, by decide, by decide, by decide, by decide⟩

/-! ## The expand flag under hash_expand_buckets -/

theorem isPow2Cap_max : IsPow2Cap BUCKET_NUM_MAX :=
  ⟨21, by unfold BUCKET_NUM_MAX; norm_num, Nat.le_refl _⟩

theorem hash_expand_buckets_at_max {s : State} {t : hash_table} (h0 : s.table = some t)
    (hmax : BUCKET_NUM_MAX ≤ t.count) :
    hash_expand_buckets s = some { s with FLAG_EXPAND := 0 } := by
  simp only [hash_expand_buckets, h0]
  rw [if_pos hmax]

/-- C20 as stated fails: the index that `add_word` builds for the word "a"
from the empty index with `BUCKET_NUM_MAX` initial buckets is well formed and
has `FLAG_EXPAND` 1; `hash_expand_buckets` on it returns the same state with
`FLAG_EXPAND` 0, so the call changes something that is neither the bucket
array nor the bucket count nor a chain link. -/
theorem hash_expand_buckets_clears_flag :
    IsPow2Cap BUCKET_NUM_MAX ∧
    ∃ s s1 t, add_word (init_state BUCKET_NUM_MAX) [97] = some s ∧ TableOK s [0] ∧
      s.table = some t ∧ t.count = BUCKET_NUM_MAX ∧
      hash_expand_buckets s = some s1 ∧ s.FLAG_EXPAND = 1 ∧ s1.FLAG_EXPAND = 0 ∧
      s1.FLAG_EXPAND ≠ s.FLAG_EXPAND ∧ s1 = { s with FLAG_EXPAND := 0 } := by
  refine ⟨isPow2Cap_max, ?_⟩
  have hexp := add_word_first_a BUCKET_NUM_MAX (by decide) (by decide)
  obtain ⟨s2, hadd, hinv2, _⟩ := add_word_new (Inv_init isPow2Cap_max) validKey_a
    (fun a ha => by simp at ha) rfl
  have hok : TableOK s2 [0] := hinv2.1
  rw [hexp] at hadd
  have e := Option.some.inj hadd
  subst e
  exact ⟨_, _, _, hexp, hok, rfl, rfl, hash_expand_buckets_at_max rfl (Nat.le_refl _), rfl, rfl,
    by decide, rfl⟩

end Csstat
